import Mathlib
/-!
Verification development for the distance-hashing session-unification library.

The Go sources are shallowly embedded:
* `UnionFind` (unionfind.go) — disjoint-set union with path compression and
  union by rank; maps become sorted association lists, the recursive
  `findWithoutLock` gets an explicit fuel argument (sufficient fuel is proved
  for well-formed states).
* `CanonicalSessionGenerator` (canonical_session.go) — the canonical-root
  engine over `UnionFind` plus an LRU cache.
* `SessionGenerator` (session.go, reproduced in BENCHMARKS.md) — the
  structural-hash (N-degree hash) engine over an adjacency-map graph.
* `SessionGeneratorWithHistory` (session_history.go) — the history wrapper.

Go `map` iteration order is unspecified; it is modelled as ascending key
order (every observable output of the source is sorted or order-insensitive,
except where noted).  `crypto/sha256` is embedded as an executable SHA-256
over byte lists; `time.Now()` is irrelevant to every claim and is modelled
as the constant 0.
-/

set_option maxRecDepth 100000

/-! ### String comparison and sorting (Go `<` on strings, `sort.Strings`) -/
/-- Executable strict comparison on strings; Go compares strings
byte-lexicographically, which coincides with code-point order. -/
def strLtB (a b : String) : Bool := decide (a.data < b.data)

/-- Executable `≤` on strings. -/
def strLeB (a b : String) : Bool := !(strLtB b a)

/-- Models Go `sort.Strings` (insertion of one element). -/
def insertSorted (a : String) : List String → List String
  | [] => [a]
  | b :: l => if strLeB a b then a :: b :: l else b :: insertSorted a l

/-- Models Go `sort.Strings`: sort a string list ascending. -/
def sortStrings : List String → List String
  | [] => []
  | a :: l => insertSorted a (sortStrings l)

/-! ### SHA-256 (Go `crypto/sha256`), over byte lists -/
def w32 : Nat := 4294967296

def rotr32 (n x : Nat) : Nat :=
  ((x >>> n) ||| (x <<< (32 - n))) % w32

def shaK : List Nat :=
  [1116352408, 1899447441, 3049323471, 3921009573, 961987163, 1508970993,
   2453635748, 2870763221, 3624381080, 310598401, 607225278, 1426881987,
   1925078388, 2162078206, 2614888103, 3248222580, 3835390401, 4022224774,
   264347078, 604807628, 770255983, 1249150122, 1555081692, 1996064986,
   2554220882, 2821834349, 2952996808, 3210313671, 3336571891, 3584528711,
   113926993, 338241895, 666307205, 773529912, 1294757372, 1396182291,
   1695183700, 1986661051, 2177026350, 2456956037, 2730485921, 2820302411,
   3259730800, 3345764771, 3516065817, 3600352804, 4094571909, 275423344,
   430227734, 506948616, 659060556, 883997877, 958139571, 1322822218,
   1537002063, 1747873779, 1955562222, 2024104815, 2227730452, 2361852424,
   2428436474, 2756734187, 3204031479, 3329325298]

def shaH0 : List Nat :=
  [1779033703, 3144134277, 1013904242, 2773480762,
   1359893119, 2600822924, 528734635, 1541459225]

/-- Big-endian 32-bit words from bytes. -/
def bytesToWords : List Nat → List Nat
  | b0 :: b1 :: b2 :: b3 :: rest => (((b0 * 256 + b1) * 256 + b2) * 256 + b3) :: bytesToWords rest
  | _ => []

/-- Message-schedule extension from 16 to 64 words. -/
def extendWords (ws : List Nat) : Nat → List Nat
  | 0 => ws
  | n + 1 =>
    let i := ws.length
    let w15 := ws.getD (i - 15) 0
    let w2 := ws.getD (i - 2) 0
    let w16 := ws.getD (i - 16) 0
    let w7 := ws.getD (i - 7) 0
    let s0 := Nat.xor (Nat.xor (rotr32 7 w15) (rotr32 18 w15)) (w15 >>> 3)
    let s1 := Nat.xor (Nat.xor (rotr32 17 w2) (rotr32 19 w2)) (w2 >>> 10)
    extendWords (ws ++ [(w16 + s0 + w7 + s1) % w32]) n

/-- One round of the SHA-256 compression function. -/
def shaRound (st : List Nat) (kw : Nat × Nat) : List Nat :=
  match st with
  | [a, b, c, d, e, f, g, h] =>
    let s1 := Nat.xor (Nat.xor (rotr32 6 e) (rotr32 11 e)) (rotr32 25 e)
    let ch := Nat.xor (Nat.land e f) (Nat.land (Nat.xor e (w32 - 1)) g)
    let t1 := (h + s1 + ch + kw.1 + kw.2) % w32
    let s0 := Nat.xor (Nat.xor (rotr32 2 a) (rotr32 13 a)) (rotr32 22 a)
    let mj := Nat.xor (Nat.xor (Nat.land a b) (Nat.land a c)) (Nat.land b c)
    let t2 := (s0 + mj) % w32
    [(t1 + t2) % w32, a, b, c, (d + t1) % w32, e, f, g]
  | st => st

/-- Process one 64-byte block. -/
def shaBlock (h : List Nat) (block : List Nat) : List Nat :=
  let ws := extendWords (bytesToWords block) 48
  let st := (shaK.zip ws).foldl (fun st kw => shaRound st (kw.1, kw.2)) h
  (h.zip st).map (fun p => (p.1 + p.2) % w32)

def chunks64Aux : Nat → List Nat → List (List Nat)
  | 0, _ => []
  | _, [] => []
  | n + 1, l => l.take 64 :: chunks64Aux n (l.drop 64)

def chunks64 (l : List Nat) : List (List Nat) :=
  chunks64Aux l.length l

/-- SHA-256 padding: 0x80, zeros, then the bit length as 8 big-endian bytes. -/
def shaPad (msg : List Nat) : List Nat :=
  let len := msg.length
  let zeros := (64 - (len + 9) % 64) % 64
  let bitLen := len * 8
  msg ++ [0x80] ++ List.replicate zeros 0 ++
    [(bitLen >>> 56) % 256, (bitLen >>> 48) % 256, (bitLen >>> 40) % 256, (bitLen >>> 32) % 256,
     (bitLen >>> 24) % 256, (bitLen >>> 16) % 256, (bitLen >>> 8) % 256, bitLen % 256]

def wordsToBytes : List Nat → List Nat
  | [] => []
  | w :: ws => (w >>> 24) % 256 :: (w >>> 16) % 256 :: (w >>> 8) % 256 :: w % 256 :: wordsToBytes ws

/-- SHA-256 digest (32 bytes) of a byte list. -/
def sha256 (msg : List Nat) : List Nat :=
  wordsToBytes ((chunks64 (shaPad msg)).foldl shaBlock shaH0)

/-- UTF-8 encoding of one character (Go strings are UTF-8 byte sequences). -/
def utf8Char (c : Char) : List Nat :=
  let n := c.toNat
  if n < 0x80 then [n]
  else if n < 0x800 then [0xC0 ||| (n >>> 6), 0x80 ||| (Nat.land n 0x3F)]
  else if n < 0x10000 then
    [0xE0 ||| (n >>> 12), 0x80 ||| (Nat.land (n >>> 6) 0x3F), 0x80 ||| (Nat.land n 0x3F)]
  else
    [0xF0 ||| (n >>> 18), 0x80 ||| (Nat.land (n >>> 12) 0x3F),
     0x80 ||| (Nat.land (n >>> 6) 0x3F), 0x80 ||| (Nat.land n 0x3F)]

def utf8 (s : String) : List Nat :=
  s.data.foldr (fun c acc => utf8Char c ++ acc) []

def hexDigit (n : Nat) : Char :=
  "0123456789abcdef".data.getD n '0'

/-- Go `fmt.Sprintf("%x", bytes)`: lowercase hex, two digits per byte. -/
def bytesToHex (bs : List Nat) : String :=
  String.mk (bs.foldr (fun b acc => hexDigit (b >>> 4) :: hexDigit (b % 16) :: acc) [])

/-- Models `fmt.Sprintf("%x", sha256.Sum256([]byte(s))[:8])`. -/
def hash8Hex (s : String) : String :=
  bytesToHex ((sha256 (utf8 s)).take 8)

/-! ### Go `strings.ToLower` and identifier normalization -/
/-- Models Go `unicode.ToLower` on a single rune, restricted to code points
below U+0100 (ASCII plus Latin-1, which covers every input considered here);
the full Go function applies the complete Unicode simple lowercase mapping,
of which this is the initial segment. -/
def goLowerChar (c : Char) : Char :=
  if 'A' ≤ c ∧ c ≤ 'Z' then Char.ofNat (c.toNat + 32)
  else if 0xC0 ≤ c.toNat ∧ c.toNat ≤ 0xDE ∧ c.toNat ≠ 0xD7 then Char.ofNat (c.toNat + 32)
  else c

/-- Models Go `strings.ToLower`: lowercase every rune. -/
def goToLower (s : String) : String :=
  String.mk (s.data.map goLowerChar)

/-- Lookup inputs: Go `type Identifiers map[string]string`, modelled as the
association list of its entries in iteration order. -/
abbrev Identifiers : Type := List (String × String)

def IdentifierEmail : String := "email"

/-- Shared by both engines (the two `normalizeIdentifiers` methods are
textually identical): drop empty values, lowercase email values, prefix the
type tag, sort. -/
def normalizeIdentifiers (ids : Identifiers) : List String :=
  sortStrings <| (ids : List (String × String)).foldr
    (fun tv acc =>
      if tv.2 = "" then acc
      else
        (tv.1 ++ ":" ++ (if tv.1 == IdentifierEmail || tv.1 == "email" then goToLower tv.2 else tv.2))
          :: acc) []

/-! ### Sorted association maps, modelling Go `map[string]V`

Go map iteration order is unspecified; the embedding keeps entries in
strictly ascending key order, so iteration is modelled as ascending. -/
abbrev SMap (α : Type) : Type := List (String × α)

namespace SMap

def empty {α : Type} : SMap α := []

def find? {α : Type} : SMap α → String → Option α
  | [], _ => none
  | (k, v) :: m, key => if key = k then some v else find? m key

def insert {α : Type} : SMap α → String → α → SMap α
  | [], key, val => [(key, val)]
  | (k, v) :: m, key, val =>
    if key = k then (key, val) :: m
    else if strLtB key k then (key, val) :: (k, v) :: m
    else (k, v) :: insert m key val

def erase {α : Type} : SMap α → String → SMap α
  | [], _ => []
  | (k, v) :: m, key => if key = k then m else (k, v) :: erase m key

def keys {α : Type} (m : SMap α) : List String := m.map Prod.fst

def size {α : Type} (m : SMap α) : Nat := m.length

def contains {α : Type} (m : SMap α) (key : String) : Bool := (m.find? key).isSome

/-- Well-formedness: keys strictly ascending (hence distinct). -/
def Sorted {α : Type} (m : SMap α) : Prop := m.keys.Pairwise (· < ·)

end SMap

/-! ### LRU cache, modelling `hashicorp/golang-lru/v2`

Entries are kept most-recently-used first.  `Get` refreshes recency,
`Add` inserts or updates at the front and evicts the oldest entry beyond
capacity, `Remove` deletes, `Purge` empties. -/
structure LRU where
  entries : List (String × String)
  cap : Nat

namespace LRU

def new (cap : Nat) : LRU := { entries := [], cap := cap }

def eraseEntry (l : List (String × String)) (k : String) : List (String × String) :=
  l.filter (fun p => decide (p.1 ≠ k))

def get (c : LRU) (k : String) : Option String × LRU :=
  match c.entries.lookup k with
  | none => (none, c)
  | some v => (some v, { c with entries := (k, v) :: eraseEntry c.entries k })

def add (c : LRU) (k v : String) : LRU :=
  { c with entries := ((k, v) :: eraseEntry c.entries k).take c.cap }

def remove (c : LRU) (k : String) : LRU :=
  { c with entries := eraseEntry c.entries k }

def purge (c : LRU) : LRU := { c with entries := [] }

def len (c : LRU) : Nat := c.entries.length

end LRU

/-! ### UnionFind (unionfind.go)

`parent` and `rank` are Go maps.  `findWithoutLock` recurses along parent
pointers; the embedding gives it explicit fuel, and well-formed states are
those whose chains reach a root within `parent.size` steps, so the fuel
`parent.size + 1` used by the public operations never runs out. -/
structure UnionFind where
  parent : SMap String
  rank : SMap Nat

namespace UnionFind

def new : UnionFind := { parent := [], rank := [] }

/-- Pure root computation: follow parent pointers without mutating.
`none` when the fuel runs out (never on well-formed states). -/
def rootAux (p : SMap String) : Nat → String → Option String
  | 0, _ => none
  | fuel + 1, x =>
    match p.find? x with
    | none => some x
    | some y => if y = x then some x else rootAux p fuel y

/-- Semantic root of `x`: the representative of its component. -/
def root (p : SMap String) (x : String) : String :=
  (rootAux p (SMap.size p + 1) x).getD x

/-- Models findWithoutLock: resolve the root, create unknown ids as fresh
singleton roots, and path-compress every node on the walk. -/
def findAux (p : SMap String) (rk : SMap Nat) :
    Nat → String → String × SMap String × SMap Nat
  | 0, x => (x, p, rk)
  | fuel + 1, x =>
    match p.find? x with
    | none => (x, p.insert x x, rk.insert x 0)
    | some y =>
      if y = x then (x, p, rk)
      else
        let r := findAux p rk fuel y
        (r.1, r.2.1.insert x r.1, r.2.2)

/-- Models `UnionFind.Find` (and `findWithoutLock` from a public entry
point): fuel `parent.size + 1` always suffices on well-formed states. -/
def find (uf : UnionFind) (x : String) : String × UnionFind :=
  let r := findAux uf.parent uf.rank (SMap.size uf.parent + 1) x
  (r.1, { parent := r.2.1, rank := r.2.2 })

/-- Models `UnionFind.Union`. -/
def union (uf : UnionFind) (x y : String) : String × UnionFind :=
  let f1 := uf.find x
  let f2 := f1.2.find y
  let root1 := f1.1
  let root2 := f2.1
  let uf2 := f2.2
  if root1 = root2 then (root1, uf2)
  else
    let rk1 := (uf2.rank.find? root1).getD 0
    let rk2 := (uf2.rank.find? root2).getD 0
    if rk1 < rk2 then
      (root2, { uf2 with parent := uf2.parent.insert root1 root2 })
    else if rk2 < rk1 then
      (root1, { uf2 with parent := uf2.parent.insert root2 root1 })
    else
      (root1, { parent := uf2.parent.insert root2 root1,
                rank := uf2.rank.insert root1 (rk1 + 1) })

/-- Models `UnionFind.Connected`. -/
def connected (uf : UnionFind) (x y : String) : Bool × UnionFind :=
  let f1 := uf.find x
  let f2 := f1.2.find y
  (decide (f1.1 = f2.1), f2.2)

/-- Models `UnionFind.ComponentSize`: `Find` the root (inserting the id if
unknown), then count members over the whole parent map, compressing as the
Go iteration calls `findWithoutLock` on every node. -/
def componentSize (uf : UnionFind) (id : String) : Nat × UnionFind :=
  let f := uf.find id
  let rt := f.1
  let step := fun (acc : Nat × UnionFind) (k : String) =>
    let fk := acc.2.find k
    (if fk.1 = rt then acc.1 + 1 else acc.1, fk.2)
  (SMap.keys f.2.parent).foldl step (0, f.2)

/-- Models `UnionFind.Size`. -/
def size (uf : UnionFind) : Nat := SMap.size uf.parent

/-- Models `UnionFind.GetComponentMembers`. -/
def getComponentMembers (uf : UnionFind) (id : String) : List String × UnionFind :=
  let f := uf.find id
  let rt := f.1
  let step := fun (acc : List String × UnionFind) (k : String) =>
    let fk := acc.2.find k
    (if fk.1 = rt then acc.1 ++ [k] else acc.1, fk.2)
  (SMap.keys f.2.parent).foldl step ([], f.2)

/-- Models `UnionFind.GetAllComponents`: root → members. -/
def getAllComponents (uf : UnionFind) : SMap (List String) × UnionFind :=
  let step := fun (acc : SMap (List String) × UnionFind) (k : String) =>
    let fk := acc.2.find k
    (acc.1.insert fk.1 (((acc.1.find? fk.1).getD []) ++ [k]), fk.2)
  (SMap.keys uf.parent).foldl step (SMap.empty, uf)

/-- Models `UnionFind.Clear`. -/
def clear (_ : UnionFind) : UnionFind := new

/-- Well-formedness: sorted maps, parent pointers stay inside the map, and
every chain reaches a root within `parent.size + 1` steps. -/
def WF (uf : UnionFind) : Prop :=
  SMap.Sorted uf.parent ∧ SMap.Sorted uf.rank ∧
  (∀ pr ∈ uf.parent, (uf.parent.find? pr.2).isSome) ∧
  (∀ pr ∈ uf.parent, (rootAux uf.parent (SMap.size uf.parent + 1) pr.1).isSome)

end UnionFind

/-! ### Shared statistics record (session.go `Stats`) -/
/-- Go `Stats`; `CacheHitRate` is the float constant `0.0` in both engines
and is modelled as the constant 0. -/
structure Stats where
  totalIdentifiers : Nat
  totalSessions : Nat
  cacheSize : Nat
  cacheHitRate : Nat

/-- Go `strings.Join(l, sep)`. -/
def joinSep (sep : String) : List String → String
  | [] => ""
  | [x] => x
  | x :: xs => x ++ sep ++ joinSep sep xs

/-- Go `strings.HasPrefix(s, pre)`: byte-level test. -/
def strHasPre (s pre : String) : Bool := pre.data.isPrefixOf s.data

/-! ### CanonicalSessionGenerator (canonical_session.go) -/
structure CanonicalSessionGenerator where
  uf : UnionFind
  cache : LRU

namespace CanonicalSessionGenerator

/-- Models `NewCanonicalSessionGenerator` (the Go constructor errors only
for non-positive cache sizes). -/
def new (cacheSize : Nat) : CanonicalSessionGenerator :=
  { uf := UnionFind.new, cache := LRU.new cacheSize }

/-- Models `generateSessionKey`. -/
def generateSessionKey (canonical : String) : String :=
  "sess_" ++ hash8Hex canonical

def priorities : List String :=
  ["uid:", "email:", "client:", "device:", "cookie:", "jwt:", "custom:"]

/-- The priority loop of `selectCanonical`. -/
def pickByPriority (component : List String) : List String → Option String
  | [] => none
  | pre :: rest =>
    let candidates := component.filter (fun id => strHasPre id pre)
    if candidates.isEmpty then pickByPriority component rest
    else some ((sortStrings candidates).headD "")

/-- The canonical pick from a non-empty component: first priority match,
alphabetically-first member otherwise. -/
def pickCanonical (component : List String) : String :=
  match pickByPriority component priorities with
  | some c => c
  | none => (sortStrings component).headD ""

/-- Models `selectCanonical`. -/
def selectCanonical (uf : UnionFind) (root : String) : String × UnionFind :=
  let m := uf.getComponentMembers root
  if m.1.isEmpty then (root, m.2)
  else (pickCanonical m.1, m.2)

/-- Models `CanonicalSessionGenerator.GetSessionKey`. -/
def getSessionKey (csg : CanonicalSessionGenerator) (ids : Identifiers) :
    String × CanonicalSessionGenerator :=
  match normalizeIdentifiers ids with
  | [] => ("sess_anonymous", csg)
  | id0 :: rest =>
    let f0 := csg.uf.find id0
    let ru := rest.foldl (fun acc id => acc.2.union acc.1 id) (f0.1, f0.2)
    let sc := selectCanonical ru.2 ru.1
    let sessionKey := generateSessionKey sc.1
    let g := csg.cache.get id0
    let cache2 :=
      match g.1 with
      | some cachedKey =>
        if cachedKey = sessionKey then rest.foldl (fun c id => c.add id sessionKey) g.2
        else (id0 :: rest).foldl (fun c id => c.add id sessionKey) g.2
      | none => (id0 :: rest).foldl (fun c id => c.add id sessionKey) g.2
    (sessionKey, { uf := sc.2, cache := cache2 })

/-- Models `CanonicalSessionGenerator.LinkIdentifiers`. -/
def linkIdentifiers (csg : CanonicalSessionGenerator) (id1 id2 : String) :
    CanonicalSessionGenerator :=
  if id1 = "" ∨ id2 = "" then csg
  else
    let c := csg.uf.connected id1 id2
    if c.1 then { csg with uf := c.2 }
    else
      let u := c.2.union id1 id2
      { uf := u.2, cache := (csg.cache.remove id1).remove id2 }

/-- Models `CanonicalSessionGenerator.AreLinked`. -/
def areLinked (csg : CanonicalSessionGenerator) (id1 id2 : String) :
    Bool × CanonicalSessionGenerator :=
  if id1 = "" ∨ id2 = "" then (false, csg)
  else
    let c := csg.uf.connected id1 id2
    (c.1, { csg with uf := c.2 })

/-- Models `CanonicalSessionGenerator.GetSessionSize`. -/
def getSessionSize (csg : CanonicalSessionGenerator) (id : String) :
    Nat × CanonicalSessionGenerator :=
  if id = "" then (0, csg)
  else
    let s := csg.uf.componentSize id
    (s.1, { csg with uf := s.2 })

/-- Models `CanonicalSessionGenerator.GetAllSessions`. -/
def getAllSessions (csg : CanonicalSessionGenerator) :
    SMap (List String) × CanonicalSessionGenerator :=
  let ac := csg.uf.getAllComponents
  let step := fun (acc : SMap (List String) × UnionFind) (rm : String × List String) =>
    let sc := selectCanonical acc.2 rm.1
    (acc.1.insert (generateSessionKey sc.1) rm.2, sc.2)
  let r := ac.1.foldl step (SMap.empty, ac.2)
  (r.1, { csg with uf := r.2 })

/-- Models `CanonicalSessionGenerator.Clear`. -/
def clear (csg : CanonicalSessionGenerator) : CanonicalSessionGenerator :=
  { uf := UnionFind.new, cache := csg.cache.purge }

/-- Models `CanonicalSessionGenerator.GetStats`. -/
def getStats (csg : CanonicalSessionGenerator) : Stats × CanonicalSessionGenerator :=
  let ac := csg.uf.getAllComponents
  ({ totalIdentifiers := ac.2.size, totalSessions := ac.1.length,
     cacheSize := csg.cache.len, cacheHitRate := 0 },
   { csg with uf := ac.2 })

end CanonicalSessionGenerator

/-- Public operations of the canonical-root engine. -/
inductive CREOp where
  | getKey (ids : Identifiers)
  | link (id1 id2 : String)
  | areLinked (id1 id2 : String)
  | sessionSize (id : String)
  | allSessions
  | stats
  | clear

def CREOp.apply : CREOp → CanonicalSessionGenerator → CanonicalSessionGenerator
  | .getKey ids, s => (s.getSessionKey ids).2
  | .link id1 id2, s => s.linkIdentifiers id1 id2
  | .areLinked id1 id2, s => (s.areLinked id1 id2).2
  | .sessionSize id, s => (s.getSessionSize id).2
  | .allSessions, s => s.getAllSessions.2
  | .stats, s => s.getStats.2
  | .clear, s => s.clear

/-- A fresh canonical-root engine driven through a sequence of public calls. -/
def execCRE (cacheSize : Nat) (ops : List CREOp) : CanonicalSessionGenerator :=
  ops.foldl (fun s op => op.apply s) (CanonicalSessionGenerator.new cacheSize)

/-! ### SessionGenerator — structural-hash engine (session.go / BENCHMARKS.md) -/
structure SessionGenerator where
  edges : SMap (SMap Bool)
  cache : LRU
  hashCache : SMap String

namespace SessionGenerator

/-- Models `NewSessionGenerator`. -/
def new (cacheSize : Nat) : SessionGenerator :=
  { edges := SMap.empty, cache := LRU.new cacheSize, hashCache := SMap.empty }

def generateAnonymousSessionKey : String := "sess_anonymous"

/-- Models `addEdgeWithoutLock`: ensure both adjacency maps exist, then set
both directions. -/
def addEdgeWithoutLock (e : SMap (SMap Bool)) (src dst : String) : SMap (SMap Bool) :=
  let e1 := if (e.find? src).isSome then e else e.insert src SMap.empty
  let e2 := if (e1.find? dst).isSome then e1 else e1.insert dst SMap.empty
  let e3 := e2.insert src (((e2.find? src).getD SMap.empty).insert dst true)
  e3.insert dst (((e3.find? dst).getD SMap.empty).insert src true)

/-- The `GetSessionKey` edge loop: for every `i`, ensure `edges[ids[i]]`
exists, and add an edge to every later identifier. -/
def addAllPairs (e : SMap (SMap Bool)) : List String → SMap (SMap Bool)
  | [] => e
  | x :: xs =>
    let e1 := if (e.find? x).isSome then e else e.insert x SMap.empty
    let e2 := xs.foldl (fun acc y => addEdgeWithoutLock acc x y) e1
    addAllPairs e2 xs

/-- Breadth-first search of `findConnectedComponentWithoutLock`.  One unit
of fuel per dequeued element: every enqueued node is marked visited first,
so `|nodes| + 2` fuel suffices on the closed graphs the engine builds. -/
def bfsAux (e : SMap (SMap Bool)) : Nat → List String → SMap Bool → SMap Bool
  | 0, _, visited => visited
  | _ + 1, [], visited => visited
  | fuel + 1, current :: queue, visited =>
    let nbrs := SMap.keys ((e.find? current).getD SMap.empty)
    let r := nbrs.foldl
      (fun (acc : SMap Bool × List String) nb =>
        if (acc.1.find? nb).isSome then acc else (acc.1.insert nb true, acc.2 ++ [nb]))
      (visited, [])
    bfsAux e fuel (queue ++ r.2) r.1

/-- Models `findConnectedComponentWithoutLock`. -/
def findConnectedComponentWithoutLock (sg : SessionGenerator) (startID : String) : SMap Bool :=
  if (sg.edges.find? startID).isSome then
    bfsAux sg.edges (SMap.size sg.edges + 2) [startID] (SMap.empty.insert startID true)
  else
    SMap.empty.insert startID true

/-- Models `computeFirstDegreeHash`. -/
def computeFirstDegreeHash (sg : SessionGenerator) (nodeID : String)
    (component : SMap Bool) : String :=
  let neighbors := (sg.edges.find? nodeID).getD SMap.empty
  let sortedNeighbors :=
    sortStrings ((SMap.keys neighbors).filter (fun nb => (component.find? nb).isSome))
  let data := nodeID ++ ":" ++ joinSep "," sortedNeighbors
  bytesToHex ((sha256 (utf8 data)).take 8)

structure PathNode where
  id : String
  depth : Nat
  path : String

/-- The BFS loop of `computeNDegreeHash` (fuel-indexed). -/
def nDegreeAux (sg : SessionGenerator) (component : SMap Bool)
    (firstDegreeHashes : SMap String) (maxDepth : Nat) :
    Nat → List PathNode → SMap Nat → List String → List String
  | 0, _, _, paths => paths
  | _ + 1, [], _, paths => paths
  | fuel + 1, current :: queue, visited, paths =>
    if maxDepth < current.depth then
      nDegreeAux sg component firstDegreeHashes maxDepth fuel queue visited paths
    else
      let nbrKeys := SMap.keys ((sg.edges.find? current.id).getD SMap.empty)
      let neighborHashes :=
        sortStrings ((nbrKeys.filter (fun nb => (component.find? nb).isSome)).map
          (fun nb => (firstDegreeHashes.find? nb).getD ""))
      let pathSignature :=
        current.id ++ "@" ++ Nat.repr current.depth ++ ":" ++ joinSep "," neighborHashes
      let enq := nbrKeys.foldl
        (fun (acc : List PathNode × SMap Nat) nb =>
          if (component.find? nb).isSome then
            match acc.2.find? nb with
            | none =>
              (acc.1 ++ [{ id := nb, depth := current.depth + 1,
                           path := current.path ++ "->" ++ nb }],
               acc.2.insert nb (current.depth + 1))
            | some prevDepth =>
              if current.depth + 1 < prevDepth then
                (acc.1 ++ [{ id := nb, depth := current.depth + 1,
                             path := current.path ++ "->" ++ nb }],
                 acc.2.insert nb (current.depth + 1))
              else acc
          else acc)
        ([], visited)
      nDegreeAux sg component firstDegreeHashes maxDepth fuel
        (queue ++ enq.1) enq.2 (paths ++ [pathSignature])

/-- Models `computeNDegreeHash`. -/
def computeNDegreeHash (sg : SessionGenerator) (nodeID : String)
    (component : SMap Bool) (firstDegreeHashes : SMap String) (maxDepth : Nat) : String :=
  let fuel := (SMap.size component + 2) * (maxDepth + 2)
  let paths := nDegreeAux sg component firstDegreeHashes maxDepth fuel
    [{ id := nodeID, depth := 0, path := nodeID }] (SMap.empty.insert nodeID 0) []
  let combined := joinSep "|" (sortStrings paths)
  bytesToHex ((sha256 (utf8 combined)).take 8)

/-- Models `computeComponentCanonicalHash`; returns the key and the updated
`hashCache`. -/
def computeComponentCanonicalHash (sg : SessionGenerator) (component : SMap Bool) :
    String × SMap String :=
  if component.length = 0 then ("sess_empty", sg.hashCache)
  else
    let cacheKey := (SMap.keys component).headD ""
    match sg.hashCache.find? cacheKey with
    | some cached => (cached, sg.hashCache)
    | none =>
      let firstDegreeHashes := (SMap.keys component).foldl
        (fun (m : SMap String) nodeID =>
          m.insert nodeID (sg.computeFirstDegreeHash nodeID component)) SMap.empty
      let hashToNodes := (SMap.keys component).foldl
        (fun (m : SMap (List String)) nodeID =>
          let h := (firstDegreeHashes.find? nodeID).getD ""
          m.insert h (((m.find? h).getD []) ++ [nodeID])) SMap.empty
      let finalHashes := hashToNodes.foldl
        (fun (m : SMap String) hn =>
          match hn.2 with
          | [n] => m.insert n hn.1
          | ns => ns.foldl
              (fun (m' : SMap String) n =>
                m'.insert n (sg.computeNDegreeHash n component firstDegreeHashes 3)) m)
        SMap.empty
      let allHashes := sortStrings (finalHashes.map Prod.snd)
      let combined := joinSep "|" allHashes
      let componentHash := "sess_" ++ bytesToHex ((sha256 (utf8 combined)).take 8)
      (componentHash,
       (SMap.keys component).foldl
         (fun (hc : SMap String) nodeID => hc.insert nodeID componentHash) sg.hashCache)

/-- Models `SessionGenerator.GetSessionKey`.  Note the fast path: a cache
hit on the first normalized identifier returns immediately, before any
edges are added. -/
def getSessionKey (sg : SessionGenerator) (ids : Identifiers) :
    String × SessionGenerator :=
  match normalizeIdentifiers ids with
  | [] => (generateAnonymousSessionKey, sg)
  | id0 :: rest =>
    let g := sg.cache.get id0
    match g.1 with
    | some cachedKey => (cachedKey, { sg with cache := g.2 })
    | none =>
      let edges1 := addAllPairs sg.edges (id0 :: rest)
      let sg1 := { sg with edges := edges1, cache := g.2 }
      let component := sg1.findConnectedComponentWithoutLock id0
      let ch := sg1.computeComponentCanonicalHash component
      let cache2 := (SMap.keys component).foldl
        (fun (c : LRU) nodeID => c.add nodeID ch.1) sg1.cache
      (ch.1, { edges := edges1, cache := cache2, hashCache := ch.2 })

/-- Models `SessionGenerator.LinkIdentifiers`. -/
def linkIdentifiers (sg : SessionGenerator) (id1 id2 : String) : SessionGenerator :=
  if id1 = "" ∨ id2 = "" then sg
  else
    let edges1 := addEdgeWithoutLock sg.edges id1 id2
    let cache1 := (sg.cache.remove id1).remove id2
    let sg1 : SessionGenerator := { edges := edges1, cache := cache1, hashCache := sg.hashCache }
    let component := sg1.findConnectedComponentWithoutLock id1
    let hc := (SMap.keys component).foldl
      (fun (hc : SMap String) nodeID => hc.erase nodeID) sg1.hashCache
    { sg1 with hashCache := hc }

/-- Models `SessionGenerator.AreLinked` (read-only). -/
def areLinked (sg : SessionGenerator) (id1 id2 : String) : Bool :=
  if id1 = "" ∨ id2 = "" then false
  else ((sg.findConnectedComponentWithoutLock id1).find? id2).isSome

/-- Models `SessionGenerator.GetSessionSize` (read-only). -/
def getSessionSize (sg : SessionGenerator) (id : String) : Nat :=
  if id = "" then 0 else SMap.size (sg.findConnectedComponentWithoutLock id)

/-- Models `SessionGenerator.GetAllSessions` (writes the hash cache through
`computeComponentCanonicalHash`). -/
def getAllSessions (sg : SessionGenerator) : SMap (List String) × SessionGenerator :=
  let step := fun (acc : SMap Bool × SMap (List String) × SMap String) (nodeID : String) =>
    if (acc.1.find? nodeID).isSome then acc
    else
      let component := sg.findConnectedComponentWithoutLock nodeID
      let visited := (SMap.keys component).foldl
        (fun (v : SMap Bool) id => v.insert id true) acc.1
      let ch := computeComponentCanonicalHash { sg with hashCache := acc.2.2 } component
      (visited, (acc.2.1).insert ch.1 (sortStrings (SMap.keys component)), ch.2)
  let r := (SMap.keys sg.edges).foldl step (SMap.empty, SMap.empty, sg.hashCache)
  (r.2.1, { sg with hashCache := r.2.2 })

/-- Models `SessionGenerator.ClearCache`. -/
def clearCache (sg : SessionGenerator) : SessionGenerator :=
  { sg with cache := sg.cache.purge, hashCache := SMap.empty }

/-- Models `SessionGenerator.Clear`. -/
def clear (sg : SessionGenerator) : SessionGenerator :=
  { edges := SMap.empty, cache := sg.cache.purge, hashCache := SMap.empty }

/-- Models `SessionGenerator.GetStats`. -/
def getStats (sg : SessionGenerator) : Stats × SessionGenerator :=
  let as := sg.getAllSessions
  ({ totalIdentifiers := SMap.size sg.edges, totalSessions := as.1.length,
     cacheSize := sg.cache.len, cacheHitRate := 0 }, as.2)

end SessionGenerator

/-- Public operations of the structural-hash engine. -/
inductive SHEOp where
  | getKey (ids : Identifiers)
  | link (id1 id2 : String)
  | areLinked (id1 id2 : String)
  | sessionSize (id : String)
  | allSessions
  | stats
  | clearCache
  | clear

def SHEOp.apply : SHEOp → SessionGenerator → SessionGenerator
  | .getKey ids, s => (s.getSessionKey ids).2
  | .link id1 id2, s => s.linkIdentifiers id1 id2
  | .areLinked _ _, s => s
  | .sessionSize _, s => s
  | .allSessions, s => s.getAllSessions.2
  | .stats, s => (s.getStats).2
  | .clearCache, s => s.clearCache
  | .clear, s => s.clear

/-- A fresh structural-hash engine driven through a sequence of public calls. -/
def execSHE (cacheSize : Nat) (ops : List SHEOp) : SessionGenerator :=
  ops.foldl (fun s op => op.apply s) (SessionGenerator.new cacheSize)

/-! ### SessionGeneratorWithHistory (session_history.go) -/
/-- Go `SessionKeyHistory`; `UpdatedAt` is a `time.Time`, modelled as the
constant 0 (no claim mentions timestamps). -/
structure SessionKeyHistory where
  currentKey : String
  oldKeys : List String
  updatedAt : Nat

structure SessionGeneratorWithHistory where
  sg : SessionGenerator
  history : SMap SessionKeyHistory
  oldToNew : SMap String

namespace SessionGeneratorWithHistory

/-- Models `NewSessionGeneratorWithHistory`. -/
def new (cacheSize : Nat) : SessionGeneratorWithHistory :=
  { sg := SessionGenerator.new cacheSize, history := SMap.empty, oldToNew := SMap.empty }

/-- Models `trackKeyChange`. -/
def trackKeyChange (sgh : SessionGeneratorWithHistory) (oldKey newKey : String) :
    SessionGeneratorWithHistory :=
  if oldKey = newKey then sgh
  else
    let nh0 := match sgh.history.find? newKey with
      | some h => h
      | none => { currentKey := newKey, oldKeys := [], updatedAt := 0 }
    let nh1 := if nh0.oldKeys.contains oldKey then nh0
               else { nh0 with oldKeys := nh0.oldKeys ++ [oldKey], updatedAt := 0 }
    let otn1 := sgh.oldToNew.insert oldKey newKey
    match sgh.history.find? oldKey with
    | none => { sgh with history := sgh.history.insert newKey nh1, oldToNew := otn1 }
    | some oldHistory =>
      let merged := oldHistory.oldKeys.foldl
        (fun (acc : SessionKeyHistory × SMap String) ancestorKey =>
          let acc1 := if acc.1.oldKeys.contains ancestorKey then acc.1
                      else { acc.1 with oldKeys := acc.1.oldKeys ++ [ancestorKey] }
          (acc1, acc.2.insert ancestorKey newKey))
        (nh1, otn1)
      { sgh with
        history := (sgh.history.insert newKey merged.1).erase oldKey,
        oldToNew := merged.2 }

/-- Models `initializeHistory` (Go name kept in the doc comment; the record
is created only when absent). -/
def initHistory (sgh : SessionGeneratorWithHistory) (sessionKey : String) :
    SessionGeneratorWithHistory :=
  match sgh.history.find? sessionKey with
  | some _ => sgh
  | none =>
    let h0 : SessionKeyHistory := { currentKey := sessionKey, oldKeys := [], updatedAt := 0 }
    { sgh with history := sgh.history.insert sessionKey h0 }

/-- Models `SessionGeneratorWithHistory.GetSessionKey`.  `sampleID` is the
first non-empty entry in map iteration order (modelled as list order); note
it is built without email normalization, exactly as in the source. -/
def getSessionKey (sgh : SessionGeneratorWithHistory) (ids : Identifiers) :
    String × SessionGeneratorWithHistory :=
  let sampleID := ((ids : List (String × String)).find? (fun tv => decide (tv.2 ≠ ""))
    |>.map (fun tv => tv.1 ++ ":" ++ tv.2)).getD ""
  let pre :=
    if sampleID ≠ "" then
      let g := sgh.sg.cache.get sampleID
      ((g.1).getD "", { sgh.sg with cache := g.2 })
    else ("", sgh.sg)
  let oldKey := pre.1
  let r := pre.2.getSessionKey ids
  let newKey := r.1
  let sgh1 := { sgh with sg := r.2 }
  if oldKey ≠ "" ∧ oldKey ≠ newKey then (newKey, sgh1.trackKeyChange oldKey newKey)
  else if oldKey = "" then (newKey, sgh1.initHistory newKey)
  else (newKey, sgh1)

/-- Models `SessionGeneratorWithHistory.LinkIdentifiers`. -/
def linkIdentifiers (sgh : SessionGeneratorWithHistory) (id1 id2 : String) :
    SessionGeneratorWithHistory :=
  if id1 = "" ∨ id2 = "" then sgh
  else
    let g1 := sgh.sg.cache.get id1
    let sgA : SessionGenerator := { sgh.sg with cache := g1.2 }
    let ch1 : String × SMap String := match g1.1 with
      | some k => (k, sgA.hashCache)
      | none => sgA.computeComponentCanonicalHash (sgA.findConnectedComponentWithoutLock id1)
    let oldKey1 := ch1.1
    let sgB : SessionGenerator := { sgA with hashCache := ch1.2 }
    let g2 := sgB.cache.get id2
    let sgC : SessionGenerator := { sgB with cache := g2.2 }
    let ch2 : String × SMap String := match g2.1 with
      | some k => (k, sgC.hashCache)
      | none => sgC.computeComponentCanonicalHash (sgC.findConnectedComponentWithoutLock id2)
    let oldKey2 := ch2.1
    let sgD : SessionGenerator := { sgC with hashCache := ch2.2 }
    let edges1 := SessionGenerator.addEdgeWithoutLock sgD.edges id1 id2
    let cacheR := (sgD.cache.remove id1).remove id2
    let sgE : SessionGenerator := { edges := edges1, cache := cacheR, hashCache := sgD.hashCache }
    let component := sgE.findConnectedComponentWithoutLock id1
    let hcInv := (SMap.keys component).foldl
      (fun (hc : SMap String) n => hc.erase n) sgE.hashCache
    let sgF : SessionGenerator := { sgE with hashCache := hcInv }
    let chN := sgF.computeComponentCanonicalHash component
    let newKey := chN.1
    let sgG : SessionGenerator := { sgF with hashCache := chN.2 }
    let sgh1 : SessionGeneratorWithHistory := { sgh with sg := sgG }
    let sgh2 := if oldKey1 ≠ newKey then sgh1.trackKeyChange oldKey1 newKey else sgh1
    if oldKey2 ≠ newKey ∧ oldKey2 ≠ oldKey1 then sgh2.trackKeyChange oldKey2 newKey else sgh2

/-- Models `GetSessionKeyHistory` (read-only; the Go copy semantics are
irrelevant functionally). -/
def getSessionKeyHistory (sgh : SessionGeneratorWithHistory) (sessionKey : String) :
    SessionKeyHistory :=
  let sk := match sgh.oldToNew.find? sessionKey with
    | some cur => cur
    | none => sessionKey
  match sgh.history.find? sk with
  | some h => h
  | none => { currentKey := sk, oldKeys := [], updatedAt := 0 }

/-- Models `GetAllSessionKeys`. -/
def getAllSessionKeys (sgh : SessionGeneratorWithHistory) (sessionKey : String) :
    List String :=
  let h := sgh.getSessionKeyHistory sessionKey
  h.currentKey :: h.oldKeys

end SessionGeneratorWithHistory

/-! ### Spec-side definition for the normalization claim -/
/-- Modelled from the spec wording for the email normalizer: ASCII `A`–`Z`
mapped to `a`–`z`, every other character (including all non-ASCII) left
unchanged.  Used only to compare against the code's `goToLower`. -/
def asciiLowerChar (c : Char) : Char :=
  if 'A' ≤ c ∧ c ≤ 'Z' then Char.ofNat (c.toNat + 32) else c

/-- Spec-side ASCII-only lowercasing of a whole string. -/
def asciiLowerStr (s : String) : String :=
  String.mk (s.data.map asciiLowerChar)

/-! ### Concrete scenario states used by the claims -/
/-- Scenario S5: two links on a fresh canonical-root engine. -/
def c4run : CanonicalSessionGenerator :=
  execCRE 100 [.link "uid:user_999" "uid:user_001", .link "uid:user_001" "uid:user_500"]

def c4get1 : String × CanonicalSessionGenerator := c4run.getSessionKey [("uid", "user_999")]

def c4get2 : String × CanonicalSessionGenerator := c4get1.2.getSessionKey [("uid", "user_001")]

def c4get3 : String × CanonicalSessionGenerator := c4get2.2.getSessionKey [("uid", "user_500")]

/-- A lookup caches `cookie:x`; a later link leaves that cache entry stale. -/
def c1run : SessionGenerator :=
  execSHE 100 [.getKey [("cookie", "x"), ("device", "d")], .link "device:d" "jwt:z"]

def c1get1 : String × SessionGenerator := c1run.getSessionKey [("cookie", "x")]

def c1get2 : String × SessionGenerator := c1get1.2.getSessionKey [("jwt", "z")]

/-- A lookup caches `cookie:b`; the next lookup adds `uid:a` but hits the
cache on its first normalized atom. -/
def c2run : SessionGenerator := execSHE 100 [.getKey [("cookie", "b")]]

def c2call : String × SessionGenerator := c2run.getSessionKey [("cookie", "b"), ("uid", "a")]

/-- Fresh engines after one raw link of an unnormalized email atom. -/
def c9cre : CanonicalSessionGenerator :=
  execCRE 100 [.link "email:A@B.com" "uid:u"]

def c9she : SessionGenerator := execSHE 100 [.link "email:A@B.com" "uid:u"]

/-- History wrapper scenario: two lookups, a link that leaves `cookie:x`
stale in the LRU, then a lookup whose sample atom (`jwt:j2`, first in map
iteration order) differs from the sorted-first atom (`cookie:x`), so the
stale cached key is reported as the new key. -/
def c8run : SessionGeneratorWithHistory :=
  (((((SessionGeneratorWithHistory.new 100).getSessionKey
        [("cookie", "x"), ("device", "d")]).2.getSessionKey
        [("jwt", "j2")]).2.linkIdentifiers "device:d" "uid:u").getSessionKey
        [("jwt", "j2"), ("cookie", "x")]).2

namespace UnionFind

/-- Reachability along parent pointers: `x` resolves to root `r`. -/
inductive Reaches (p : SMap String) : String → String → Prop where
  | self (x : String) (h : p.find? x = none ∨ p.find? x = some x) : Reaches p x x
  | step (x y r : String) (h : p.find? x = some y) (hne : y ≠ x) (hr : Reaches p y r) :
      Reaches p x r

/-- Explicit chains: the list of non-root nodes on the path from `x`. -/
inductive ParentChain (p : SMap String) : String → List String → String → Prop where
  | nil (x : String) (h : p.find? x = none ∨ p.find? x = some x) : ParentChain p x [] x
  | cons (x y : String) (l : List String) (r : String) (h : p.find? x = some y)
      (hne : y ≠ x) (hc : ParentChain p y l r) : ParentChain p x (x :: l) r

/-- Every stored parent pointer has an entry of its own. -/
def KeysClosed (p : SMap String) : Prop :=
  ∀ x y, p.find? x = some y → (p.find? y).isSome

end UnionFind

/-! ### Normalizer characterization and link-order independence (canonical engine) -/
/-- The atom emitted by the normalizer for one non-empty entry. -/
def emitAtom (t v : String) : String :=
  t ++ ":" ++ (if t == IdentifierEmail || t == "email" then goToLower v else v)

/-- Reflexive–symmetric–transitive closure of a relation on atoms. -/
inductive EqvCl (r : String → String → Prop) : String → String → Prop where
  | rel : ∀ x y, r x y → EqvCl r x y
  | refl : ∀ x, EqvCl r x x
  | symm : ∀ x y, EqvCl r x y → EqvCl r y x
  | trans : ∀ x y z, EqvCl r x y → EqvCl r y z → EqvCl r x z

namespace CanonicalSessionGenerator

/-- A sequence of `LinkIdentifiers` calls. -/
def linkFoldCRE (L : List (String × String)) (s : CanonicalSessionGenerator) :
    CanonicalSessionGenerator :=
  L.foldl (fun s p => s.linkIdentifiers p.1 p.2) s

/-- Base relation generated by a batch of link calls on a starting state:
same class already, or an edge of the batch (with non-empty endpoints). -/
abbrev linkRel (s : CanonicalSessionGenerator) (L : List (String × String))
    (z w : String) : Prop :=
  UnionFind.root s.uf.parent z = UnionFind.root s.uf.parent w ∨
  ∃ p ∈ L, p.1 ≠ "" ∧ p.2 ≠ "" ∧ z = p.1 ∧ w = p.2

end CanonicalSessionGenerator

namespace SessionGenerator

/-- Adjacency maps of the structural-hash engine hold only `true` entries. -/
def GoodVal (m : SMap Bool) : Prop := SMap.Sorted m ∧ ∀ q ∈ m, q.2 = true

/-- Well-formedness of the `edges` two-level map: sorted at both levels,
all adjacency values `true`. -/
def EdgesWF (e : SMap (SMap Bool)) : Prop :=
  SMap.Sorted e ∧ (∀ pr ∈ e, SMap.Sorted pr.2) ∧ (∀ pr ∈ e, ∀ q ∈ pr.2, q.2 = true)

end SessionGenerator

/-! ### Session-key format: SHA-256 output shape -/
/-- Spec-side definition (modelled from the spec wording): a lowercase
hexadecimal character. -/
def isHexLower (c : Char) : Bool := decide (c ∈ "0123456789abcdef".data)

/-- Spec-side definition (modelled from the spec wording): `"sess_"`
followed by exactly 16 lowercase hexadecimal characters. -/
def wellFormedKey (s : String) : Bool :=
  decide (s.data.take 5 = "sess_".data) && decide (s.data.length = 21) &&
    (s.data.drop 5).all isHexLower

namespace SessionGenerator

/-- All key values stored in the LRU and the hash cache are well-formed. -/
def KeyInv (sg : SessionGenerator) : Prop :=
  (∀ pr ∈ sg.cache.entries, wellFormedKey pr.2 = true) ∧
  (∀ pr ∈ sg.hashCache, wellFormedKey pr.2 = true)

end SessionGenerator

theorem strLtB_iff {a b : String} : strLtB a b = true ↔ a < b := by
  rw [String.lt_iff_toList_lt]
  simp [strLtB, String.toList]

theorem strLeB_iff {a b : String} : strLeB a b = true ↔ a ≤ b := by
  rw [strLeB, Bool.not_eq_true', ← @not_lt String _ b a]
  constructor
  · intro h hlt
    exact absurd (strLtB_iff.mpr hlt) (by simp [h])
  · intro h
    cases hb : strLtB b a
    · rfl
    · exact absurd (strLtB_iff.mp hb) h

theorem insertSorted_perm (a : String) (l : List String) :
    (insertSorted a l).Perm (a :: l) := by
  induction l with
  | nil => exact List.Perm.refl _
  | cons b t ih =>
    by_cases h : strLeB a b = true
    · simp [insertSorted, h]
    · simp only [insertSorted, h, if_false]
      exact (ih.cons b).trans (List.Perm.swap a b t)

theorem sortStrings_perm (l : List String) : (sortStrings l).Perm l := by
  induction l with
  | nil => exact List.Perm.refl _
  | cons a t ih => exact (insertSorted_perm a (sortStrings t)).trans (ih.cons a)

theorem insertSorted_pairwise {a : String} {l : List String}
    (h : l.Pairwise (· ≤ ·)) : (insertSorted a l).Pairwise (· ≤ ·) := by
  induction l with
  | nil => simp [insertSorted]
  | cons b t ih =>
    rcases List.pairwise_cons.mp h with ⟨hb, ht⟩
    by_cases hab : strLeB a b = true
    · have hab' := strLeB_iff.mp hab
      rw [insertSorted, if_pos hab]
      refine List.pairwise_cons.mpr ⟨?_, h⟩
      intro x hx
      rcases List.mem_cons.mp hx with rfl | hx
      · exact hab'
      · exact le_trans hab' (hb x hx)
    · have hba : b ≤ a := by
        have := (not_iff_not.mpr (@strLeB_iff a b)).mp (by simp [hab])
        exact le_of_not_le this
      rw [insertSorted, if_neg (by simp [hab])]
      refine List.pairwise_cons.mpr ⟨?_, ih ht⟩
      intro x hx
      rcases List.mem_cons.mp ((insertSorted_perm a t).mem_iff.mp hx) with rfl | h'
      · exact hba
      · exact hb x h'

theorem sortStrings_sorted (l : List String) :
    (sortStrings l).Pairwise (· ≤ ·) := by
  induction l with
  | nil => simp [sortStrings]
  | cons a t ih => exact insertSorted_pairwise ih

theorem sortStrings_eq_of_perm {l₁ l₂ : List String} (h : l₁.Perm l₂) :
    sortStrings l₁ = sortStrings l₂ := by
  refine List.eq_of_perm_of_sorted ?_ (sortStrings_sorted l₁) (sortStrings_sorted l₂)
  exact ((sortStrings_perm l₁).trans h).trans (sortStrings_perm l₂).symm

theorem sortStrings_eq_nil_iff {l : List String} : sortStrings l = [] ↔ l = [] := by
  constructor
  · intro h
    have := sortStrings_perm l
    rw [h] at this
    exact this.symm.eq_nil
  · intro h; subst h; rfl

theorem mem_sortStrings {l : List String} {x : String} :
    x ∈ sortStrings l ↔ x ∈ l := (sortStrings_perm l).mem_iff

/-- Two strictly ascending lists with the same members are equal. -/
theorem pairwise_lt_ext {l₁ l₂ : List String}
    (h₁ : l₁.Pairwise (· < ·)) (h₂ : l₂.Pairwise (· < ·))
    (hm : ∀ x, x ∈ l₁ ↔ x ∈ l₂) : l₁ = l₂ := by
  induction l₁ generalizing l₂ with
  | nil =>
    cases l₂ with
    | nil => rfl
    | cons b t₂ => exact absurd ((hm b).mpr (by simp)) (by simp)
  | cons a t₁ ih =>
    cases l₂ with
    | nil => exact absurd ((hm a).mp (by simp)) (by simp)
    | cons b t₂ =>
      have hab : a = b := by
        rcases List.mem_cons.mp ((hm a).mp (by simp)) with h | h
        · exact h
        · rcases List.mem_cons.mp ((hm b).mpr (by simp)) with h' | h'
          · exact h'.symm
          · have hba := (List.pairwise_cons.mp h₂).1 a h
            have h2 := (List.pairwise_cons.mp h₁).1 b h'
            exact absurd (lt_trans hba h2) (lt_irrefl b)
      subst hab
      have ht : ∀ x, x ∈ t₁ ↔ x ∈ t₂ := by
        intro x
        constructor
        · intro hx
          have hax := (List.pairwise_cons.mp h₁).1 x hx
          rcases List.mem_cons.mp ((hm x).mp (by simp [hx])) with h | h
          · exact absurd h (ne_of_gt hax)
          · exact h
        · intro hx
          have hax := (List.pairwise_cons.mp h₂).1 x hx
          rcases List.mem_cons.mp ((hm x).mpr (by simp [hx])) with h | h
          · exact absurd h (ne_of_gt hax)
          · exact h
      rw [ih (List.pairwise_cons.mp h₁).2 (List.pairwise_cons.mp h₂).2 ht]

/-- Test vector: SHA-256 of "abc" (FIPS 180-2 appendix). -/
theorem sha256_abc :
    bytesToHex (sha256 (utf8 "abc")) =
      "ba7816bf8f01cfea414140de5dae2223b00361a396177a9cb410ff61f20015ad" := by decide

/-- Test vector: SHA-256 of the empty string. -/
theorem sha256_empty :
    bytesToHex (sha256 (utf8 "")) =
      "e3b0c44298fc1c149afbf4c8996fb92427ae41e4649b934ca495991b7852b855" := by decide

namespace SMap

theorem sorted_nil {α : Type} : Sorted ([] : SMap α) := List.Pairwise.nil

theorem sorted_cons_iff {α : Type} {k : String} {v : α} {m : SMap α} :
    Sorted ((k, v) :: m) ↔ (∀ p ∈ m, k < p.1) ∧ Sorted m := by
  unfold Sorted keys
  rw [List.map_cons, List.pairwise_cons]
  constructor
  · intro h
    exact ⟨fun p hp => h.1 p.1 (List.mem_map.mpr ⟨p, hp, rfl⟩), h.2⟩
  · intro h
    refine ⟨?_, h.2⟩
    intro x hx
    rcases List.mem_map.mp hx with ⟨p, hp, rfl⟩
    exact h.1 p hp

theorem find?_eq_none_of_lt {α : Type} {m : SMap α} {key : String}
    (h : Sorted m) (hlt : ∀ p ∈ m, key < p.1) : m.find? key = none := by
  induction m with
  | nil => rfl
  | cons kv t ih =>
    have hk := hlt kv (by simp)
    rw [find?, if_neg (by exact fun he => absurd (he ▸ hk) (lt_irrefl _))]
    exact ih (sorted_cons_iff.mp (by exact h)).2 (fun p hp => hlt p (by simp [hp]))

theorem mem_keys_iff_find? {α : Type} {m : SMap α} {key : String} :
    key ∈ m.keys ↔ (m.find? key).isSome := by
  induction m with
  | nil => simp [keys, find?]
  | cons kv t ih =>
    rw [keys, List.map_cons, List.mem_cons]
    by_cases he : key = kv.1
    · subst he
      cases kv with
      | mk k v => simp [find?]
    · have hstep : (find? (kv :: t) key).isSome = (find? t key).isSome := by
        cases kv with
        | mk k v => rw [find?, if_neg he]
      rw [hstep]
      simp only [he, false_or]
      exact ih

theorem find?_insert_self {α : Type} (m : SMap α) (key : String) (val : α) :
    (m.insert key val).find? key = some val := by
  induction m with
  | nil => simp [insert, find?]
  | cons kv t ih =>
    cases kv with
    | mk k v =>
      by_cases he : key = k
      · subst he
        simp [insert, find?]
      · rw [insert, if_neg he]
        by_cases hlt : strLtB key k = true
        · rw [if_pos hlt, find?, if_pos rfl]
        · rw [if_neg hlt, find?, if_neg he]
          exact ih

theorem find?_insert_ne {α : Type} (m : SMap α) {key key' : String} (val : α)
    (h : key' ≠ key) : (m.insert key val).find? key' = m.find? key' := by
  induction m with
  | nil => simp [insert, find?, h]
  | cons kv t ih =>
    cases kv with
    | mk k v =>
      by_cases he : key = k
      · subst he
        rw [insert, if_pos rfl, find?, if_neg h, find?, if_neg h]
      · rw [insert, if_neg he]
        by_cases hlt : strLtB key k = true
        · rw [if_pos hlt, find?, if_neg h]
        · rw [if_neg hlt]
          by_cases he' : key' = k
          · rw [find?, if_pos he', find?, if_pos he']
          · rw [find?, if_neg he', find?, if_neg he']
            exact ih

theorem mem_keys_insert {α : Type} {m : SMap α} {key x : String} {val : α} :
    x ∈ (m.insert key val).keys ↔ x = key ∨ x ∈ m.keys := by
  by_cases he : x = key
  · subst he
    simp [mem_keys_iff_find?, find?_insert_self]
  · rw [mem_keys_iff_find?, find?_insert_ne m val he, ← mem_keys_iff_find?]
    simp [he]

theorem sorted_insert {α : Type} {m : SMap α} (key : String) (val : α)
    (h : Sorted m) : Sorted (m.insert key val) := by
  induction m with
  | nil => simp [insert, Sorted, keys]
  | cons kv t ih =>
    cases kv with
    | mk k v =>
      rcases sorted_cons_iff.mp h with ⟨hlt, ht⟩
      by_cases he : key = k
      · subst he
        rw [insert, if_pos rfl]
        exact sorted_cons_iff.mpr ⟨hlt, ht⟩
      · rw [insert, if_neg he]
        by_cases hl : strLtB key k = true
        · rw [if_pos hl]
          refine sorted_cons_iff.mpr ⟨?_, sorted_cons_iff.mpr ⟨hlt, ht⟩⟩
          intro p hp
          rcases List.mem_cons.mp hp with rfl | hp
          · exact strLtB_iff.mp hl
          · exact lt_trans (strLtB_iff.mp hl) (hlt p hp)
        · rw [if_neg hl]
          have hkk : k < key := by
            rcases lt_trichotomy key k with h' | h' | h'
            · exact absurd (strLtB_iff.mpr h') hl
            · exact absurd h' he
            · exact h'
          refine sorted_cons_iff.mpr ⟨?_, ih ht⟩
          intro p hp
          have hp1 : p.1 ∈ (insert t key val).keys := List.mem_map.mpr ⟨p, hp, rfl⟩
          rcases mem_keys_insert.mp hp1 with h' | h'
          · exact h' ▸ hkk
          · rcases List.mem_map.mp h' with ⟨q, hq, hq1⟩
            exact hq1 ▸ hlt q hq

theorem size_insert_of_isSome {α : Type} {m : SMap α} {key : String} (val : α)
    (hs : Sorted m) (h : (m.find? key).isSome) : (m.insert key val).size = m.size := by
  induction m with
  | nil => simp [find?] at h
  | cons kv t ih =>
    cases kv with
    | mk k v =>
      rcases sorted_cons_iff.mp hs with ⟨hlt, ht⟩
      by_cases he : key = k
      · subst he
        simp [insert, size]
      · rw [find?, if_neg he] at h
        rw [insert, if_neg he]
        by_cases hl : strLtB key k = true
        · exfalso
          have hmem : key ∈ keys t := mem_keys_iff_find?.mpr h
          rcases List.mem_map.mp hmem with ⟨p, hp, hpk⟩
          have h1 : k < key := hpk ▸ hlt p hp
          exact absurd (lt_trans (strLtB_iff.mp hl) h1) (lt_irrefl key)
        · rw [if_neg hl]
          simpa [size] using ih ht h

theorem size_insert_of_none {α : Type} {m : SMap α} {key : String} (val : α)
    (h : m.find? key = none) : (m.insert key val).size = m.size + 1 := by
  induction m with
  | nil => simp [insert, size]
  | cons kv t ih =>
    cases kv with
    | mk k v =>
      by_cases he : key = k
      · subst he
        rw [find?, if_pos rfl] at h
        cases h
      · rw [find?, if_neg he] at h
        rw [insert, if_neg he]
        by_cases hl : strLtB key k = true
        · rw [if_pos hl]
          simp [size]
        · rw [if_neg hl]
          simpa [size] using ih h

theorem find?_erase_self {α : Type} {m : SMap α} (key : String)
    (h : Sorted m) : (m.erase key).find? key = none := by
  induction m with
  | nil => rfl
  | cons kv t ih =>
    cases kv with
    | mk k v =>
      rcases sorted_cons_iff.mp h with ⟨hlt, ht⟩
      by_cases he : key = k
      · subst he
        rw [erase, if_pos rfl]
        apply find?_eq_none_of_lt ht
        intro p hp
        exact hlt p hp
      · rw [erase, if_neg he, find?, if_neg he]
        exact ih ht

theorem find?_erase_ne {α : Type} {m : SMap α} {key key' : String}
    (h : key' ≠ key) : (m.erase key).find? key' = m.find? key' := by
  induction m with
  | nil => rfl
  | cons kv t ih =>
    cases kv with
    | mk k v =>
      by_cases he : key = k
      · subst he
        rw [erase, if_pos rfl, find?, if_neg h]
      · rw [erase, if_neg he]
        by_cases he' : key' = k
        · rw [find?, if_pos he', find?, if_pos he']
        · rw [find?, if_neg he', find?, if_neg he']
          exact ih

theorem mem_of_mem_erase {α : Type} {m : SMap α} {key : String} {p : String × α}
    (hp : p ∈ m.erase key) : p ∈ m := by
  induction m with
  | nil => simpa [erase] using hp
  | cons kv t ih =>
    cases kv with
    | mk k v =>
      by_cases he : key = k
      · rw [erase, if_pos he] at hp
        exact List.mem_cons_of_mem _ hp
      · rw [erase, if_neg he] at hp
        rcases List.mem_cons.mp hp with rfl | hp'
        · exact List.mem_cons_self _ _
        · exact List.mem_cons_of_mem _ (ih hp')

theorem sorted_erase {α : Type} {m : SMap α} (key : String)
    (h : Sorted m) : Sorted (m.erase key) := by
  induction m with
  | nil => exact sorted_nil
  | cons kv t ih =>
    cases kv with
    | mk k v =>
      rcases sorted_cons_iff.mp h with ⟨hlt, ht⟩
      by_cases he : key = k
      · subst he
        rw [erase, if_pos rfl]
        exact ht
      · rw [erase, if_neg he]
        refine sorted_cons_iff.mpr ⟨?_, ih ht⟩
        intro p hp
        exact hlt p (mem_of_mem_erase hp)

/-- Extensionality: two sorted maps agreeing on every lookup are equal. -/
theorem ext_sorted {α : Type} {m₁ m₂ : SMap α}
    (h₁ : Sorted m₁) (h₂ : Sorted m₂)
    (h : ∀ k, m₁.find? k = m₂.find? k) : m₁ = m₂ := by
  induction m₁ generalizing m₂ with
  | nil =>
    cases m₂ with
    | nil => rfl
    | cons kv t =>
      cases kv with
      | mk k v =>
        have := h k
        simp [find?] at this
  | cons kv t ih =>
    cases m₂ with
    | nil =>
      cases kv with
      | mk k v =>
        have := h k
        simp [find?] at this
    | cons kv' t' =>
      cases kv with
      | mk k v =>
        cases kv' with
        | mk k' v' =>
          rcases sorted_cons_iff.mp h₁ with ⟨hlt₁, ht₁⟩
          rcases sorted_cons_iff.mp h₂ with ⟨hlt₂, ht₂⟩
          have hkk : k = k' := by
            by_contra hne
            have hk := h k
            have hk' := h k'
            simp only [find?, if_pos rfl, if_neg hne, if_neg (Ne.symm hne)] at hk hk'
            have hmem : k ∈ keys t' := by
              rw [mem_keys_iff_find?, ← hk]
              rfl
            have hmem' : k' ∈ keys t := by
              rw [mem_keys_iff_find?, hk']
              rfl
            rcases List.mem_map.mp hmem with ⟨p, hp, hpk⟩
            rcases List.mem_map.mp hmem' with ⟨q, hq, hqk⟩
            have h1 : k' < k := hpk ▸ hlt₂ p hp
            have h2 : k < k' := hqk ▸ hlt₁ q hq
            exact absurd (lt_trans h1 h2) (lt_irrefl k')
          subst hkk
          have hvv : v = v' := by
            have := h k
            simp [find?] at this
            exact this
          subst hvv
          have hts : t = t' := by
            refine ih ht₁ ht₂ ?_
            intro key
            by_cases he : key = k
            · subst he
              rw [find?_eq_none_of_lt ht₁ (fun p hp => hlt₁ p hp),
                find?_eq_none_of_lt ht₂ (fun p hp => hlt₂ p hp)]
            · have := h key
              rw [find?, if_neg he, find?, if_neg he] at this
              exact this
          rw [hts]

theorem keys_sorted_of_sorted {α : Type} {m : SMap α} (h : Sorted m) :
    m.keys.Pairwise (· < ·) := h

end SMap

namespace LRU

theorem mem_of_lookup_eq_some {l : List (String × String)} {k v : String}
    (h : l.lookup k = some v) : (k, v) ∈ l := by
  induction l with
  | nil => cases h
  | cons p t ih =>
    cases p with
    | mk a b =>
      by_cases he : k = a
      · subst he
        simp [List.lookup] at h
        simp [h]
      · have hba : (k == a) = false := by simpa using he
        rw [List.lookup, hba] at h
        exact List.mem_cons_of_mem _ (ih h)

theorem get_fst (c : LRU) (k : String) : (c.get k).1 = c.entries.lookup k := by
  unfold get
  cases c.entries.lookup k <;> rfl

theorem mem_entries_get {c : LRU} {k x : String} {v : String}
    (h : (x, v) ∈ (c.get k).2.entries) : (x, v) ∈ c.entries := by
  unfold get at h
  cases hl : c.entries.lookup k with
  | none => rw [hl] at h; exact h
  | some w =>
    rw [hl] at h
    rcases List.mem_cons.mp h with he | he
    · cases he
      exact mem_of_lookup_eq_some hl
    · exact List.mem_filter.mp he |>.1

theorem mem_entries_add {c : LRU} {k v x : String} {w : String}
    (h : (x, w) ∈ (c.add k v).entries) : (x = k ∧ w = v) ∨ (x, w) ∈ c.entries := by
  unfold add at h
  have h' := List.mem_of_mem_take h
  rcases List.mem_cons.mp h' with he | he
  · cases he
    exact Or.inl ⟨rfl, rfl⟩
  · exact Or.inr (List.mem_filter.mp he |>.1)

theorem mem_entries_remove {c : LRU} {k x : String} {w : String}
    (h : (x, w) ∈ (c.remove k).entries) : (x, w) ∈ c.entries := by
  unfold remove at h
  exact List.mem_filter.mp h |>.1

end LRU

namespace UnionFind

theorem Reaches.root_fix {p : SMap String} {x r : String} (h : Reaches p x r) :
    p.find? r = none ∨ p.find? r = some r := by
  induction h with
  | self x hx => exact hx
  | step x y r hxy hne hr ih => exact ih

theorem Reaches.unique {p : SMap String} {x r s : String}
    (h1 : Reaches p x r) (h2 : Reaches p x s) : r = s := by
  induction h1 generalizing s with
  | self x hx =>
    cases h2 with
    | self _ _ => rfl
    | step _ y _ hxy hne hr =>
      rcases hx with hx | hx
      · rw [hxy] at hx; cases hx
      · rw [hxy] at hx
        exact absurd (Option.some.inj hx) hne
  | step x y r hxy hne hr ih =>
    cases h2 with
    | self _ hx =>
      rcases hx with hx | hx
      · rw [hxy] at hx; cases hx
      · rw [hxy] at hx
        exact absurd (Option.some.inj hx) hne
    | step _ y' _ hxy' hne' hr' =>
      rw [hxy] at hxy'
      exact ih (Option.some.inj hxy' ▸ hr')

theorem rootAux_succ_none {p : SMap String} {fuel : Nat} {x : String}
    (h : p.find? x = none) : rootAux p (fuel + 1) x = some x := by
  rw [rootAux, h]

theorem rootAux_succ_some {p : SMap String} {fuel : Nat} {x y : String}
    (h : p.find? x = some y) :
    rootAux p (fuel + 1) x = if y = x then some x else rootAux p fuel y := by
  rw [rootAux, h]

theorem rootAux_some_reaches {p : SMap String} :
    ∀ {fuel : Nat} {x r : String}, rootAux p fuel x = some r → Reaches p x r := by
  intro fuel
  induction fuel with
  | zero => intro x r h; cases h
  | succ n ih =>
    intro x r h
    cases hf : p.find? x with
    | none =>
      rw [rootAux_succ_none hf] at h
      cases h
      exact Reaches.self x (Or.inl hf)
    | some y =>
      rw [rootAux_succ_some hf] at h
      by_cases he : y = x
      · rw [if_pos he] at h
        cases h
        exact Reaches.self x (Or.inr (he ▸ hf))
      · rw [if_neg he] at h
        exact Reaches.step x y r hf he (ih h)

theorem rootAux_mono {p : SMap String} :
    ∀ {fuel fuel' : Nat} {x r : String}, fuel ≤ fuel' →
      rootAux p fuel x = some r → rootAux p fuel' x = some r := by
  intro fuel
  induction fuel with
  | zero => intro _ x r _ h; cases h
  | succ n ih =>
    intro fuel' x r hle h
    rcases Nat.exists_eq_add_of_le hle with ⟨k, hk⟩
    have hk' : fuel' = (n + k) + 1 := by omega
    subst hk'
    cases hf : p.find? x with
    | none =>
      rw [rootAux_succ_none hf] at h ⊢
      exact h
    | some y =>
      rw [rootAux_succ_some hf] at h ⊢
      by_cases he : y = x
      · rw [if_pos he] at h ⊢; exact h
      · rw [if_neg he] at h ⊢
        exact ih (Nat.le_add_right n k) h

theorem reaches_chain {p : SMap String} {x r : String} (h : Reaches p x r) :
    ∃ l, ParentChain p x l r := by
  induction h with
  | self x hx => exact ⟨[], ParentChain.nil x hx⟩
  | step x y r hxy hne hr ih =>
    rcases ih with ⟨l, hl⟩
    exact ⟨x :: l, ParentChain.cons x y l r hxy hne hl⟩

theorem chain_unique {p : SMap String} {x : String} :
    ∀ {l₁ l₂ : List String} {r₁ r₂ : String}, ParentChain p x l₁ r₁ →
      ParentChain p x l₂ r₂ → l₁ = l₂ ∧ r₁ = r₂ := by
  intro l₁
  induction l₁ generalizing x with
  | nil =>
    intro l₂ r₁ r₂ h1 h2
    cases h1 with
    | nil _ hx =>
      cases h2 with
      | nil _ _ => exact ⟨rfl, rfl⟩
      | cons _ y _ _ hxy hne _ =>
        rcases hx with hx | hx
        · rw [hxy] at hx; cases hx
        · rw [hxy] at hx; exact absurd (Option.some.inj hx) hne
  | cons a t ih =>
    intro l₂ r₁ r₂ h1 h2
    cases h1 with
    | cons _ y _ _ hxy hne hc =>
      cases h2 with
      | nil _ hx =>
        rcases hx with hx | hx
        · rw [hxy] at hx; cases hx
        · rw [hxy] at hx; exact absurd (Option.some.inj hx) hne
      | cons _ y' _ _ hxy' hne' hc' =>
        rw [hxy] at hxy'
        rcases ih hc ((Option.some.inj hxy') ▸ hc') with ⟨h1, h2⟩
        exact ⟨by rw [h1], h2⟩

theorem chain_mem_keys {p : SMap String} {x : String} {l : List String} {r : String}
    (h : ParentChain p x l r) : ∀ z ∈ l, z ∈ SMap.keys p := by
  induction h with
  | nil => intro z hz; cases hz
  | cons x y l r hxy hne hc ih =>
    intro z hz
    rcases List.mem_cons.mp hz with rfl | hz
    · exact SMap.mem_keys_iff_find?.mpr (by rw [hxy]; rfl)
    · exact ih z hz

theorem chain_shorter {p : SMap String} {x : String} {l : List String} {r : String}
    (h : ParentChain p x l r) :
    ∀ z ∈ l, ∃ t, ParentChain p z t r ∧ t.length ≤ l.length := by
  induction h with
  | nil => intro z hz; cases hz
  | cons x y l r hxy hne hc ih =>
    intro z hz
    rcases List.mem_cons.mp hz with rfl | hz
    · exact ⟨z :: l, ParentChain.cons z y l r hxy hne hc, le_refl _⟩
    · rcases ih z hz with ⟨t, ht, hlen⟩
      exact ⟨t, ht, le_trans hlen (Nat.le_succ _)⟩

theorem chain_nodup {p : SMap String} {x : String} {l : List String} {r : String}
    (h : ParentChain p x l r) : l.Nodup := by
  induction h with
  | nil => exact List.nodup_nil
  | cons x y l r hxy hne hc ih =>
    refine List.nodup_cons.mpr ⟨?_, ih⟩
    intro hx
    rcases chain_shorter hc x hx with ⟨t, ht, hlen⟩
    rcases chain_unique (ParentChain.cons x y l r hxy hne hc) ht with ⟨h1, _⟩
    rw [← h1] at hlen
    simp at hlen

theorem chain_rootAux {p : SMap String} {x : String} {l : List String} {r : String}
    (h : ParentChain p x l r) : rootAux p (l.length + 1) x = some r := by
  induction h with
  | nil x hx =>
    rcases hx with hx | hx
    · exact rootAux_succ_none hx
    · rw [rootAux_succ_some hx, if_pos rfl]
  | cons x y l r hxy hne hc ih =>
    rw [List.length_cons, rootAux_succ_some hxy, if_neg hne]
    exact ih

/-- On a sorted parent map, any reachability fact is computed by `root`. -/
theorem root_eq_of_reaches {p : SMap String} {x r : String}
    (hs : SMap.Sorted p) (h : Reaches p x r) : root p x = r := by
  rcases reaches_chain h with ⟨l, hl⟩
  have hlen : l.length ≤ SMap.size p := by
    have hsub : l ⊆ SMap.keys p := fun z hz => chain_mem_keys hl z hz
    have hkeysnd : (SMap.keys p).Nodup :=
      (SMap.keys_sorted_of_sorted hs).nodup
    have := (List.subperm_of_subset (chain_nodup hl) hsub).length_le
    simpa [SMap.size, SMap.keys] using this
  have := rootAux_mono (Nat.succ_le_succ hlen) (chain_rootAux hl)
  rw [root, this]
  rfl

theorem root_of_find?_none {p : SMap String} {x : String} (h : p.find? x = none) :
    root p x = x := by
  rw [root, rootAux, h]
  rfl

theorem reaches_self_of_none {p : SMap String} {x : String} (h : p.find? x = none) :
    Reaches p x x := Reaches.self x (Or.inl h)

theorem Reaches.target_reaches {p : SMap String} {x r : String} (h : Reaches p x r) :
    Reaches p r r := Reaches.self r h.root_fix

end UnionFind

namespace SMap

theorem find?_some_mem {α : Type} {m : SMap α} {k : String} {v : α}
    (h : m.find? k = some v) : (k, v) ∈ m := by
  induction m with
  | nil => cases h
  | cons kv t ih =>
    cases kv with
    | mk a b =>
      by_cases he : k = a
      · subst he
        rw [find?, if_pos rfl] at h
        cases h
        exact List.mem_cons_self _ _
      · rw [find?, if_neg he] at h
        exact List.mem_cons_of_mem _ (ih h)

theorem find?_of_mem_sorted {α : Type} {m : SMap α} {k : String} {v : α}
    (hs : Sorted m) (h : (k, v) ∈ m) : m.find? k = some v := by
  induction m with
  | nil => cases h
  | cons kv t ih =>
    cases kv with
    | mk a b =>
      rcases sorted_cons_iff.mp hs with ⟨hlt, ht⟩
      rcases List.mem_cons.mp h with he | he
      · cases he
        rw [find?, if_pos rfl]
      · have hka : k ≠ a := by
          intro hk
          subst hk
          exact absurd (hlt _ he) (lt_irrefl k)
        rw [find?, if_neg hka]
        exact ih ht he

end SMap

namespace UnionFind

theorem keysClosed_of_wf {uf : UnionFind} (h : WF uf) : KeysClosed uf.parent := by
  intro x y hxy
  exact h.2.2.1 (x, y) (SMap.find?_some_mem hxy)

theorem root_mem {p : SMap String} (hc : KeysClosed p) {x r : String}
    (hx : x ∈ SMap.keys p) (h : Reaches p x r) : r ∈ SMap.keys p := by
  induction h with
  | self z hz => exact hx
  | step z y r hzy hne hr ih =>
    exact ih (SMap.mem_keys_iff_find?.mpr (hc z y hzy))

theorem keysClosed_insert {p : SMap String} (h : KeysClosed p) {x v : String}
    (hv : v = x ∨ v ∈ SMap.keys p) : KeysClosed (p.insert x v) := by
  have hvs : ((p.insert x v).find? v).isSome := by
    rcases hv with rfl | hv
    · rw [SMap.find?_insert_self]; rfl
    · by_cases hvx : v = x
      · subst hvx
        rw [SMap.find?_insert_self]; rfl
      · rw [SMap.find?_insert_ne p v hvx]
        exact SMap.mem_keys_iff_find?.mp hv
  intro a b hab
  by_cases ha : a = x
  · subst ha
    rw [SMap.find?_insert_self] at hab
    cases hab
    exact hvs
  · rw [SMap.find?_insert_ne p v ha] at hab
    by_cases hb : b = x
    · subst hb
      rw [SMap.find?_insert_self]; rfl
    · rw [SMap.find?_insert_ne p v hb]
      exact h a b hab

/-- Compression step: redirecting `x` to a root it reaches changes no
reachability fact. -/
theorem reaches_insert_root {p : SMap String} {x r : String} (hxr : Reaches p x r) :
    ∀ {z s}, Reaches (p.insert x r) z s ↔ Reaches p z s := by
  intro z s
  constructor
  · intro h
    induction h with
    | self w hw =>
      by_cases hwx : w = x
      · subst hwx
        rw [SMap.find?_insert_self] at hw
        rcases hw with hw | hw
        · cases hw
        · have : r = w := Option.some.inj hw
          subst this
          exact hxr
      · rw [SMap.find?_insert_ne p r hwx] at hw
        exact Reaches.self w hw
    | step w y s hwy hne hys ih =>
      by_cases hwx : w = x
      · subst hwx
        rw [SMap.find?_insert_self] at hwy
        have hyr : y = r := Option.some.inj hwy.symm
        subst hyr
        have hsr : s = y := (Reaches.self y hxr.root_fix).unique ih |>.symm ▸ rfl
        have : s = y := Reaches.unique ih (Reaches.self y hxr.root_fix)
        subst this
        exact hxr
      · rw [SMap.find?_insert_ne p r hwx] at hwy
        exact Reaches.step w y s hwy hne ih
  · intro h
    induction h with
    | self w hw =>
      by_cases hwx : w = x
      · subst hwx
        have hrw : r = w := Reaches.unique hxr (Reaches.self w hw)
        subst hrw
        exact Reaches.self r (Or.inr (SMap.find?_insert_self p r r))
      · rw [← SMap.find?_insert_ne p r hwx] at hw
        exact Reaches.self w hw
    | step w y s hwy hne hys ih =>
      by_cases hwx : w = x
      · subst hwx
        have hsr : s = r := Reaches.unique (Reaches.step w y s hwy hne hys) hxr
        subst hsr
        by_cases hrw : s = w
        · exfalso
          rcases (Reaches.step w y s hwy hne hys).root_fix with hh | hh
          · rw [hrw] at hh
            rw [hwy] at hh
            cases hh
          · rw [hrw] at hh
            rw [hwy] at hh
            exact hne (Option.some.inj hh)
        · refine Reaches.step w s s (SMap.find?_insert_self p w s) hrw ?_
          have hroot := (Reaches.step w y s hwy hne hys).root_fix
          rw [← SMap.find?_insert_ne p s hrw] at hroot
          exact Reaches.self s hroot
      · rw [← SMap.find?_insert_ne p r hwx] at hwy
        exact Reaches.step w y s hwy hne ih

/-- Union step: pointing root `ra` at root `rb` merges exactly the two
classes. -/
theorem reaches_insert_link {p : SMap String} {ra rb : String}
    (hra : Reaches p ra ra) (hrb : Reaches p rb rb) (hab : ra ≠ rb) :
    ∀ {z s}, Reaches (p.insert ra rb) z s ↔
      ((Reaches p z s ∧ s ≠ ra) ∨ (Reaches p z ra ∧ s = rb)) := by
  have hrafix := hra.root_fix
  have hrbfix := hrb.root_fix
  intro z s
  constructor
  · intro h
    induction h with
    | self w hw =>
      by_cases hwa : w = ra
      · rw [hwa, SMap.find?_insert_self] at hw
        rcases hw with hw | hw
        · cases hw
        · exact absurd (Option.some.inj hw) (Ne.symm hab)
      · rw [SMap.find?_insert_ne p rb hwa] at hw
        exact Or.inl ⟨Reaches.self w hw, hwa⟩
    | step w y s hwy hne hys ih =>
      by_cases hwa : w = ra
      · rw [hwa, SMap.find?_insert_self] at hwy
        have hyb : y = rb := Option.some.inj hwy.symm
        rw [hyb] at ih
        rcases ih with ⟨hrs, hsa⟩ | ⟨hrs, hsb⟩
        · have hsy : s = rb := Reaches.unique hrs hrb
          exact Or.inr ⟨by rw [hwa]; exact hra, hsy⟩
        · exact absurd (Reaches.unique hrs hrb) hab
      · rw [SMap.find?_insert_ne p rb hwa] at hwy
        rcases ih with ⟨hrs, hsa⟩ | ⟨hrs, hsb⟩
        · exact Or.inl ⟨Reaches.step w y s hwy hne hrs, hsa⟩
        · exact Or.inr ⟨Reaches.step w y ra hwy hne hrs, hsb⟩
  · intro h
    have keyA : ∀ {w t}, Reaches p w t → t ≠ ra → Reaches (p.insert ra rb) w t := by
      intro w t hwt
      induction hwt with
      | self u hu =>
        intro hua
        rw [← SMap.find?_insert_ne p rb hua] at hu
        exact Reaches.self u hu
      | step u y t huy hne hyt ih =>
        intro hta
        by_cases hua : u = ra
        · exfalso
          rcases hrafix with hh | hh
          · rw [← hua, huy] at hh
            cases hh
          · rw [← hua, huy] at hh
            exact hne (Option.some.inj hh)
        · rw [← SMap.find?_insert_ne p rb hua] at huy
          exact Reaches.step u y t huy hne (ih hta)
    have keyB : ∀ {w t}, Reaches p w t → t = ra → Reaches (p.insert ra rb) w rb := by
      intro w t hwt
      induction hwt with
      | self u hu =>
        intro hua
        rw [hua]
        refine Reaches.step ra rb rb (SMap.find?_insert_self p ra rb) (Ne.symm hab) ?_
        refine Reaches.self rb ?_
        rw [SMap.find?_insert_ne p rb (fun hx => hab hx.symm)]
        exact hrbfix
      | step u y t huy hne hyt ih =>
        intro hta
        by_cases hua : u = ra
        · exfalso
          rcases hrafix with hh | hh
          · rw [← hua, huy] at hh
            cases hh
          · rw [← hua, huy] at hh
            exact hne (Option.some.inj hh)
        · rw [← SMap.find?_insert_ne p rb hua] at huy
          exact Reaches.step u y rb huy hne (ih hta)
    rcases h with ⟨hzs, hsa⟩ | ⟨hza, hsb⟩
    · exact keyA hzs hsa
    · rw [hsb]
      exact keyB hza rfl

theorem rootAux_size_of_reaches {p : SMap String} (hs : SMap.Sorted p) {x r : String}
    (h : Reaches p x r) : rootAux p (SMap.size p + 1) x = some r := by
  rcases reaches_chain h with ⟨l, hl⟩
  have hlen : l.length ≤ SMap.size p := by
    have hsub : l ⊆ SMap.keys p := fun z hz => chain_mem_keys hl z hz
    have := (List.subperm_of_subset (chain_nodup hl) hsub).length_le
    simpa [SMap.size, SMap.keys] using this
  exact rootAux_mono (Nat.succ_le_succ hlen) (chain_rootAux hl)

theorem wf_rootAux_some {uf : UnionFind} (h : WF uf) (x : String) :
    rootAux uf.parent (SMap.size uf.parent + 1) x = some (root uf.parent x) := by
  by_cases hx : x ∈ SMap.keys uf.parent
  · rcases List.mem_map.mp hx with ⟨pr, hpr, hpr1⟩
    have := h.2.2.2 pr hpr
    rcases Option.isSome_iff_exists.mp this with ⟨r, hr⟩
    rw [hpr1] at hr
    have : root uf.parent x = r := by
      rw [root, hr]
      rfl
    rw [this, hr]
  · have hf : uf.parent.find? x = none := by
      cases hfx : uf.parent.find? x with
      | none => rfl
      | some v => exact absurd (SMap.mem_keys_iff_find?.mpr (by rw [hfx]; rfl)) hx
    rw [root_of_find?_none hf]
    exact rootAux_succ_none hf

theorem wf_total {uf : UnionFind} (h : WF uf) (z : String) :
    Reaches uf.parent z (root uf.parent z) :=
  rootAux_some_reaches (wf_rootAux_some h z)

/-- Assemble well-formedness from the semantic pieces. -/
theorem wf_of_parts {p : SMap String} {rk : SMap Nat}
    (hs : SMap.Sorted p) (hrk : SMap.Sorted rk) (hc : KeysClosed p)
    (htot : ∀ z ∈ SMap.keys p, ∃ t, Reaches p z t) :
    WF { parent := p, rank := rk } := by
  refine ⟨hs, hrk, ?_, ?_⟩
  · intro pr hpr
    exact hc pr.1 pr.2 (SMap.find?_of_mem_sorted hs (by cases pr; exact hpr))
  · intro pr hpr
    rcases htot pr.1 (List.mem_map.mpr ⟨pr, hpr, rfl⟩) with ⟨t, ht⟩
    rw [rootAux_size_of_reaches hs ht]
    rfl

theorem findAux_succ_none {p : SMap String} {rk : SMap Nat} {fuel : Nat} {x : String}
    (h : p.find? x = none) :
    findAux p rk (fuel + 1) x = (x, p.insert x x, rk.insert x 0) := by
  rw [findAux, h]

theorem findAux_succ_some {p : SMap String} {rk : SMap Nat} {fuel : Nat} {x y : String}
    (h : p.find? x = some y) :
    findAux p rk (fuel + 1) x =
      (if y = x then (x, p, rk)
       else
        ((findAux p rk fuel y).1,
         (findAux p rk fuel y).2.1.insert x (findAux p rk fuel y).1,
         (findAux p rk fuel y).2.2)) := by
  rw [findAux, h]

theorem findAux_succ_self {p : SMap String} {rk : SMap Nat} {fuel : Nat} {x y : String}
    (h : p.find? x = some y) (he : y = x) :
    findAux p rk (fuel + 1) x = (x, p, rk) := by
  rw [findAux_succ_some h, if_pos he]

theorem findAux_succ_step {p : SMap String} {rk : SMap Nat} {fuel : Nat} {x y : String}
    (h : p.find? x = some y) (he : ¬ y = x) :
    findAux p rk (fuel + 1) x =
      ((findAux p rk fuel y).1,
       (findAux p rk fuel y).2.1.insert x (findAux p rk fuel y).1,
       (findAux p rk fuel y).2.2) := by
  rw [findAux_succ_some h, if_neg he]

theorem findAux_spec {p : SMap String} {rk : SMap Nat}
    (hs : SMap.Sorted p) (hrs : SMap.Sorted rk) (hc : KeysClosed p) :
    ∀ {fuel : Nat} {x r : String}, rootAux p fuel x = some r →
      (findAux p rk fuel x).1 = r ∧
      (∀ z s, Reaches (findAux p rk fuel x).2.1 z s ↔ Reaches p z s) ∧
      SMap.Sorted (findAux p rk fuel x).2.1 ∧
      SMap.Sorted (findAux p rk fuel x).2.2 ∧
      KeysClosed (findAux p rk fuel x).2.1 ∧
      (∀ z, z ∈ SMap.keys (findAux p rk fuel x).2.1 ↔ (z = x ∨ z ∈ SMap.keys p)) ∧
      SMap.size (findAux p rk fuel x).2.1 =
        (if (p.find? x).isSome then SMap.size p else SMap.size p + 1) := by
  intro fuel
  induction fuel with
  | zero => intro x r h; cases h
  | succ n ih =>
    intro x r h
    cases hf : p.find? x with
    | none =>
      rw [rootAux_succ_none hf] at h
      have hrx : r = x := (Option.some.inj h).symm
      subst hrx
      rw [findAux_succ_none hf]
      refine ⟨rfl, ?_, SMap.sorted_insert _ _ hs, SMap.sorted_insert _ _ hrs,
        keysClosed_insert hc (Or.inl rfl), ?_, ?_⟩
      · intro z s
        exact reaches_insert_root (reaches_self_of_none hf)
      · intro z
        exact SMap.mem_keys_insert
      · simp only [hf, Option.isSome_none, Bool.false_eq_true, if_false]
        exact SMap.size_insert_of_none _ hf
    | some y =>
      rw [rootAux_succ_some hf] at h
      by_cases he : y = x
      · rw [if_pos he] at h
        have hrx : r = x := (Option.some.inj h).symm
        subst hrx
        rw [findAux_succ_self hf he]
        refine ⟨rfl, fun z s => Iff.rfl, hs, hrs, hc, ?_, ?_⟩
        · intro z
          constructor
          · exact Or.inr
          · intro hz
            rcases hz with rfl | hz
            · exact SMap.mem_keys_iff_find?.mpr (by rw [hf]; rfl)
            · exact hz
        · simp [hf]
      · rw [if_neg he] at h
        rcases ih h with ⟨h1, h2, h3, h4, h5, h6, h7⟩
        have hyk : y ∈ SMap.keys p := SMap.mem_keys_iff_find?.mpr (hc x y hf)
        have hxk : x ∈ SMap.keys p := SMap.mem_keys_iff_find?.mpr (by rw [hf]; rfl)
        have hpxr : Reaches p x r := Reaches.step x y r hf he (rootAux_some_reaches h)
        have hp1xr : Reaches (findAux p rk n y).2.1 x r := (h2 x r).mpr hpxr
        have hrk : r ∈ SMap.keys p := root_mem hc hxk hpxr
        rw [findAux_succ_step hf he, h1]
        refine ⟨rfl, ?_, SMap.sorted_insert _ _ h3, h4,
          keysClosed_insert h5 (Or.inr ((h6 r).mpr (Or.inr hrk))), ?_, ?_⟩
        · intro z s
          exact Iff.trans (reaches_insert_root hp1xr) (h2 z s)
        · intro z
          rw [SMap.mem_keys_insert]
          constructor
          · intro hz
            rcases hz with rfl | hz
            · exact Or.inl rfl
            · rcases (h6 z).mp hz with rfl | hz
              · exact Or.inr hyk
              · exact Or.inr hz
          · intro hz
            rcases hz with rfl | hz
            · exact Or.inl rfl
            · exact Or.inr ((h6 z).mpr (Or.inr hz))
        · have hx1 : (((findAux p rk n y).2.1).find? x).isSome :=
            SMap.mem_keys_iff_find?.mp ((h6 x).mpr (Or.inr hxk))
          rw [SMap.size_insert_of_isSome _ h3 hx1, h7]
          simp [hf, SMap.mem_keys_iff_find?.mp hyk]

theorem find_spec {uf : UnionFind} (h : WF uf) (x : String) :
    (uf.find x).1 = root uf.parent x ∧
    WF (uf.find x).2 ∧
    (∀ z s, Reaches (uf.find x).2.parent z s ↔ Reaches uf.parent z s) ∧
    (∀ z, root (uf.find x).2.parent z = root uf.parent z) ∧
    (∀ z, z ∈ SMap.keys (uf.find x).2.parent ↔ (z = x ∨ z ∈ SMap.keys uf.parent)) ∧
    SMap.size (uf.find x).2.parent =
      (if (uf.parent.find? x).isSome then SMap.size uf.parent else SMap.size uf.parent + 1) := by
  rcases findAux_spec h.1 h.2.1 (keysClosed_of_wf h) (wf_rootAux_some h x) with
    ⟨h1, h2, h3, h4, h5, h6, h7⟩
  have hwf : WF (uf.find x).2 := by
    have := wf_of_parts h3 h4 h5
      (fun z _ => ⟨root uf.parent z, (h2 z _).mpr (wf_total h z)⟩)
    exact this
  refine ⟨h1, hwf, h2, ?_, h6, h7⟩
  intro z
  exact root_eq_of_reaches h3 ((h2 z _).mpr (wf_total h z))

/-- Attaching root `ca` below root `pa` merges the two classes and nothing
else. -/
theorem link_root_spec {uf2 : UnionFind} (h2 : WF uf2) {ca pa : String}
    (hca : root uf2.parent ca = ca) (hpa : root uf2.parent pa = pa) (hne : ca ≠ pa)
    (hpk : pa ∈ SMap.keys uf2.parent)
    {rkNew : SMap Nat} (hrkNew : SMap.Sorted rkNew) :
    WF { parent := uf2.parent.insert ca pa, rank := rkNew } ∧
    (∀ z, z ∈ SMap.keys (uf2.parent.insert ca pa) ↔ (z = ca ∨ z ∈ SMap.keys uf2.parent)) ∧
    (∀ z, root (uf2.parent.insert ca pa) z =
      (if root uf2.parent z = ca then pa else root uf2.parent z)) := by
  have hra : Reaches uf2.parent ca ca := by
    have := wf_total h2 ca
    rw [hca] at this
    exact this
  have hrb : Reaches uf2.parent pa pa := by
    have := wf_total h2 pa
    rw [hpa] at this
    exact this
  have hsorted3 : SMap.Sorted (uf2.parent.insert ca pa) := SMap.sorted_insert _ _ h2.1
  have hreach3 : ∀ z, Reaches (uf2.parent.insert ca pa) z
      (if root uf2.parent z = ca then pa else root uf2.parent z) := by
    intro z
    by_cases hcz : root uf2.parent z = ca
    · rw [if_pos hcz]
      refine (reaches_insert_link hra hrb hne).mpr (Or.inr ⟨?_, rfl⟩)
      have := wf_total h2 z
      rw [hcz] at this
      exact this
    · rw [if_neg hcz]
      exact (reaches_insert_link hra hrb hne).mpr (Or.inl ⟨wf_total h2 z, hcz⟩)
  refine ⟨?_, fun z => SMap.mem_keys_insert, ?_⟩
  · refine wf_of_parts hsorted3 hrkNew
      (keysClosed_insert (keysClosed_of_wf h2) (Or.inr hpk)) ?_
    intro z _
    exact ⟨_, hreach3 z⟩
  · intro z
    exact root_eq_of_reaches hsorted3 (hreach3 z)

theorem root_idem {uf : UnionFind} (h : WF uf) (x : String) :
    root uf.parent (root uf.parent x) = root uf.parent x :=
  root_eq_of_reaches h.1 (wf_total h x).target_reaches

theorem root_mem_keys {uf : UnionFind} (h : WF uf) {x : String}
    (hx : x ∈ SMap.keys uf.parent) : root uf.parent x ∈ SMap.keys uf.parent :=
  root_mem (keysClosed_of_wf h) hx (wf_total h x)

theorem union_spec {uf : UnionFind} (h : WF uf) (x y : String) :
    WF (uf.union x y).2 ∧
    (∀ z, z ∈ SMap.keys (uf.union x y).2.parent ↔
      (z = x ∨ z = y ∨ z ∈ SMap.keys uf.parent)) ∧
    ((uf.union x y).1 = root uf.parent x ∨ (uf.union x y).1 = root uf.parent y) ∧
    (∀ z, root (uf.union x y).2.parent z =
      (if root uf.parent z = root uf.parent x ∨ root uf.parent z = root uf.parent y
       then (uf.union x y).1 else root uf.parent z)) := by
  obtain ⟨h11, h12, h13, h14, h15, -⟩ := find_spec h x
  obtain ⟨h21, h22, h23, h24, h25, -⟩ := find_spec h12 y
  have hry : (((uf.find x).2.find y)).1 = root uf.parent y := by
    rw [h21, h14]
  have hkeys2 : ∀ z, z ∈ SMap.keys ((uf.find x).2.find y).2.parent ↔
      (z = x ∨ z = y ∨ z ∈ SMap.keys uf.parent) := by
    intro z
    rw [h25, h15]
    tauto
  have hroot2 : ∀ z, root ((uf.find x).2.find y).2.parent z = root uf.parent z := by
    intro z
    rw [h24, h14]
  have hxmem : x ∈ SMap.keys ((uf.find x).2.find y).2.parent := by
    rw [hkeys2]
    exact Or.inl rfl
  have hymem : y ∈ SMap.keys ((uf.find x).2.find y).2.parent := by
    rw [hkeys2]
    exact Or.inr (Or.inl rfl)
  have hrxm : root uf.parent x ∈ SMap.keys ((uf.find x).2.find y).2.parent := by
    have := root_mem_keys h22 hxmem
    rw [hroot2] at this
    exact this
  have hrym : root uf.parent y ∈ SMap.keys ((uf.find x).2.find y).2.parent := by
    have := root_mem_keys h22 hymem
    rw [hroot2] at this
    exact this
  have hrx2 : root ((uf.find x).2.find y).2.parent (root uf.parent x) = root uf.parent x := by
    rw [hroot2]
    exact root_idem h x
  have hry2 : root ((uf.find x).2.find y).2.parent (root uf.parent y) = root uf.parent y := by
    rw [hroot2]
    exact root_idem h y
  unfold union
  simp only [h11, hry]
  by_cases heq : root uf.parent x = root uf.parent y
  · rw [if_pos heq]
    refine ⟨h22, hkeys2, Or.inl rfl, ?_⟩
    intro z
    by_cases hz : root uf.parent z = root uf.parent x ∨ root uf.parent z = root uf.parent y
    · rw [if_pos hz, hroot2]
      rcases hz with hz | hz
      · rw [hz]
      · rw [hz, heq]
    · rw [if_neg hz, hroot2]
  · rw [if_neg heq]
    by_cases hr12 : ((((uf.find x).2.find y).2.rank.find? (root uf.parent x)).getD 0 <
        (((uf.find x).2.find y).2.rank.find? (root uf.parent y)).getD 0)
    · rw [if_pos hr12]
      rcases link_root_spec h22 hrx2 hry2 heq hrym h22.2.1 with ⟨w1, w2, w3⟩
      refine ⟨w1, ?_, Or.inr rfl, ?_⟩
      · intro z
        rw [w2, hkeys2]
        constructor
        · intro hz
          rcases hz with rfl | hz
          · have := hrxm
            rw [hkeys2] at this
            exact this
          · exact hz
        · exact Or.inr
      · intro z
        rw [w3, hroot2]
        by_cases hzx : root uf.parent z = root uf.parent x
        · rw [if_pos hzx, if_pos (Or.inl hzx)]
        · rw [if_neg hzx]
          by_cases hzy : root uf.parent z = root uf.parent y
          · rw [if_pos (Or.inr hzy), hzy]
          · rw [if_neg (by tauto)]
    · rw [if_neg hr12]
      have hne' : root uf.parent y ≠ root uf.parent x := Ne.symm heq
      by_cases hr21 : ((((uf.find x).2.find y).2.rank.find? (root uf.parent y)).getD 0 <
          (((uf.find x).2.find y).2.rank.find? (root uf.parent x)).getD 0)
      · rw [if_pos hr21]
        rcases link_root_spec h22 hry2 hrx2 hne' hrxm h22.2.1 with ⟨w1, w2, w3⟩
        refine ⟨w1, ?_, Or.inl rfl, ?_⟩
        · intro z
          rw [w2, hkeys2]
          constructor
          · intro hz
            rcases hz with rfl | hz
            · have := hrym
              rw [hkeys2] at this
              exact this
            · exact hz
          · exact Or.inr
        · intro z
          rw [w3, hroot2]
          by_cases hzy : root uf.parent z = root uf.parent y
          · rw [if_pos hzy, if_pos (Or.inr hzy)]
          · rw [if_neg hzy]
            by_cases hzx : root uf.parent z = root uf.parent x
            · rw [if_pos (Or.inl hzx), hzx]
            · rw [if_neg (by tauto)]
      · rw [if_neg hr21]
        rcases link_root_spec h22 hry2 hrx2 hne' hrxm
          (SMap.sorted_insert (root uf.parent x) _ h22.2.1) with ⟨w1, w2, w3⟩
        refine ⟨w1, ?_, Or.inl rfl, ?_⟩
        · intro z
          rw [w2, hkeys2]
          constructor
          · intro hz
            rcases hz with rfl | hz
            · have := hrym
              rw [hkeys2] at this
              exact this
            · exact hz
          · exact Or.inr
        · intro z
          rw [w3, hroot2]
          by_cases hzy : root uf.parent z = root uf.parent y
          · rw [if_pos hzy, if_pos (Or.inr hzy)]
          · rw [if_neg hzy]
            by_cases hzx : root uf.parent z = root uf.parent x
            · rw [if_pos (Or.inl hzx), hzx]
            · rw [if_neg (by tauto)]

theorem connected_spec {uf : UnionFind} (h : WF uf) (x y : String) :
    (uf.connected x y).1 = decide (root uf.parent x = root uf.parent y) ∧
    WF (uf.connected x y).2 ∧
    (∀ z, root (uf.connected x y).2.parent z = root uf.parent z) ∧
    (∀ z, z ∈ SMap.keys (uf.connected x y).2.parent ↔
      (z = x ∨ z = y ∨ z ∈ SMap.keys uf.parent)) ∧
    (uf.connected x y).2.rank = ((uf.find x).2.find y).2.rank ∧
    SMap.size (uf.connected x y).2.parent =
      (if (uf.parent.find? x).isSome then SMap.size uf.parent else SMap.size uf.parent + 1) +
      (if ((uf.find x).2.parent.find? y).isSome then 0 else 1) := by
  obtain ⟨h11, h12, h13, h14, h15, h16⟩ := find_spec h x
  obtain ⟨h21, h22, h23, h24, h25, h26⟩ := find_spec h12 y
  simp only [connected]
  refine ⟨?_, h22, ?_, ?_, trivial, ?_⟩
  · rw [h11, h21, h14]
  · intro z
    rw [h24, h14]
  · intro z
    rw [h25, h15]
    tauto
  · rw [h26, h16]
    by_cases hy : ((uf.find x).2.parent.find? y).isSome
    · simp [hy]
    · simp [hy]

theorem membersFold_spec (rt : String) :
    ∀ (ks : List String) (acc0 : List String) (uf0 : UnionFind), WF uf0 →
      (∀ k ∈ ks, k ∈ SMap.keys uf0.parent) →
      WF (ks.foldl (fun (acc : List String × UnionFind) (k : String) =>
          let fk := acc.2.find k
          (if fk.1 = rt then acc.1 ++ [k] else acc.1, fk.2)) (acc0, uf0)).2 ∧
      (∀ z, root (ks.foldl (fun (acc : List String × UnionFind) (k : String) =>
          let fk := acc.2.find k
          (if fk.1 = rt then acc.1 ++ [k] else acc.1, fk.2)) (acc0, uf0)).2.parent z =
        root uf0.parent z) ∧
      (∀ z, z ∈ SMap.keys (ks.foldl (fun (acc : List String × UnionFind) (k : String) =>
          let fk := acc.2.find k
          (if fk.1 = rt then acc.1 ++ [k] else acc.1, fk.2)) (acc0, uf0)).2.parent ↔
        z ∈ SMap.keys uf0.parent) ∧
      (ks.foldl (fun (acc : List String × UnionFind) (k : String) =>
          let fk := acc.2.find k
          (if fk.1 = rt then acc.1 ++ [k] else acc.1, fk.2)) (acc0, uf0)).1 =
        acc0 ++ ks.filter (fun k => decide (root uf0.parent k = rt)) := by
  intro ks
  induction ks with
  | nil =>
    intro acc0 uf0 h _
    exact ⟨h, fun z => rfl, fun z => Iff.rfl, by simp⟩
  | cons k ktail ih =>
    intro acc0 uf0 h hks
    obtain ⟨f1, f2, f3, f4, f5, f6⟩ := find_spec h k
    have hkmem : k ∈ SMap.keys uf0.parent := hks k (by simp)
    have hktail : ∀ k' ∈ ktail, k' ∈ SMap.keys (uf0.find k).2.parent := by
      intro k' hk'
      rw [f5]
      exact Or.inr (hks k' (by simp [hk']))
    rw [List.foldl_cons]
    obtain ⟨g1, g2, g3, g4⟩ :=
      ih (if (uf0.find k).1 = rt then acc0 ++ [k] else acc0) (uf0.find k).2 f2 hktail
    refine ⟨g1, ?_, ?_, ?_⟩
    · intro z
      rw [g2 z, f4]
    · intro z
      rw [g3 z, f5]
      constructor
      · intro hz
        rcases hz with rfl | hz
        · exact hkmem
        · exact hz
      · exact Or.inr
    · rw [g4, f1]
      have hfc : ktail.filter (fun k' => decide (root (uf0.find k).2.parent k' = rt)) =
          ktail.filter (fun k' => decide (root uf0.parent k' = rt)) := by
        apply List.filter_congr
        intro a _
        rw [f4]
      rw [hfc]
      by_cases hc : root uf0.parent k = rt
      · rw [if_pos hc, List.filter_cons, if_pos (by simp [hc])]
        simp
      · rw [if_neg hc, List.filter_cons, if_neg (by simp [hc])]

theorem sizeFold_spec (rt : String) :
    ∀ (ks : List String) (n0 : Nat) (uf0 : UnionFind), WF uf0 →
      (∀ k ∈ ks, k ∈ SMap.keys uf0.parent) →
      WF (ks.foldl (fun (acc : Nat × UnionFind) (k : String) =>
          let fk := acc.2.find k
          (if fk.1 = rt then acc.1 + 1 else acc.1, fk.2)) (n0, uf0)).2 ∧
      (∀ z, root (ks.foldl (fun (acc : Nat × UnionFind) (k : String) =>
          let fk := acc.2.find k
          (if fk.1 = rt then acc.1 + 1 else acc.1, fk.2)) (n0, uf0)).2.parent z =
        root uf0.parent z) ∧
      (∀ z, z ∈ SMap.keys (ks.foldl (fun (acc : Nat × UnionFind) (k : String) =>
          let fk := acc.2.find k
          (if fk.1 = rt then acc.1 + 1 else acc.1, fk.2)) (n0, uf0)).2.parent ↔
        z ∈ SMap.keys uf0.parent) ∧
      (ks.foldl (fun (acc : Nat × UnionFind) (k : String) =>
          let fk := acc.2.find k
          (if fk.1 = rt then acc.1 + 1 else acc.1, fk.2)) (n0, uf0)).1 =
        n0 + (ks.filter (fun k => decide (root uf0.parent k = rt))).length := by
  intro ks
  induction ks with
  | nil =>
    intro n0 uf0 h _
    exact ⟨h, fun z => rfl, fun z => Iff.rfl, by simp⟩
  | cons k ktail ih =>
    intro n0 uf0 h hks
    obtain ⟨f1, f2, f3, f4, f5, f6⟩ := find_spec h k
    have hkmem : k ∈ SMap.keys uf0.parent := hks k (by simp)
    have hktail : ∀ k' ∈ ktail, k' ∈ SMap.keys (uf0.find k).2.parent := by
      intro k' hk'
      rw [f5]
      exact Or.inr (hks k' (by simp [hk']))
    rw [List.foldl_cons]
    obtain ⟨g1, g2, g3, g4⟩ :=
      ih (if (uf0.find k).1 = rt then n0 + 1 else n0) (uf0.find k).2 f2 hktail
    refine ⟨g1, ?_, ?_, ?_⟩
    · intro z
      rw [g2 z, f4]
    · intro z
      rw [g3 z, f5]
      constructor
      · intro hz
        rcases hz with rfl | hz
        · exact hkmem
        · exact hz
      · exact Or.inr
    · rw [g4, f1]
      have hfc : ktail.filter (fun k' => decide (root (uf0.find k).2.parent k' = rt)) =
          ktail.filter (fun k' => decide (root uf0.parent k' = rt)) := by
        apply List.filter_congr
        intro a _
        rw [f4]
      rw [hfc]
      by_cases hc : root uf0.parent k = rt
      · rw [if_pos hc, List.filter_cons, if_pos (by simp [hc])]
        simp [Nat.add_comm, Nat.add_assoc]
      · rw [if_neg hc, List.filter_cons, if_neg (by simp [hc])]

/-- The function `getComponentMembers`: the result is the ascending list of known atoms
whose root matches, and the union-find is only path-compressed. -/
theorem members_spec {uf : UnionFind} (h : WF uf) (id : String) :
    WF (uf.getComponentMembers id).2 ∧
    (∀ z, root (uf.getComponentMembers id).2.parent z = root uf.parent z) ∧
    (∀ z, z ∈ SMap.keys (uf.getComponentMembers id).2.parent ↔
      (z = id ∨ z ∈ SMap.keys uf.parent)) ∧
    (uf.getComponentMembers id).1.Pairwise (· < ·) ∧
    (∀ z, z ∈ (uf.getComponentMembers id).1 ↔
      ((z = id ∨ z ∈ SMap.keys uf.parent) ∧ root uf.parent z = root uf.parent id)) := by
  obtain ⟨f1, f2, f3, f4, f5, f6⟩ := find_spec h id
  obtain ⟨g1, g2, g3, g4⟩ := membersFold_spec (uf.find id).1 (SMap.keys (uf.find id).2.parent)
    [] (uf.find id).2 f2 (fun k hk => hk)
  have hres : uf.getComponentMembers id =
      ((SMap.keys (uf.find id).2.parent).foldl (fun (acc : List String × UnionFind) (k : String) =>
        let fk := acc.2.find k
        (if fk.1 = (uf.find id).1 then acc.1 ++ [k] else acc.1, fk.2)) ([], (uf.find id).2)) := rfl
  rw [hres]
  refine ⟨g1, ?_, ?_, ?_, ?_⟩
  · intro z
    rw [g2 z, f4]
  · intro z
    rw [g3 z, f5]
  · rw [g4]
    simp only [List.nil_append]
    exact List.Pairwise.filter _ (SMap.keys_sorted_of_sorted f2.1)
  · intro z
    rw [g4]
    simp only [List.nil_append, List.mem_filter, decide_eq_true_eq]
    rw [← f5]
    constructor
    · intro hz
      refine ⟨hz.1, ?_⟩
      have := hz.2
      rw [f4, f1] at this
      exact this
    · intro hz
      refine ⟨hz.1, ?_⟩
      rw [f4, f1]
      exact hz.2

/-- The function `componentSize` counts exactly the members of the component (and only
path-compresses). -/
theorem componentSize_spec {uf : UnionFind} (h : WF uf) (id : String) :
    WF (uf.componentSize id).2 ∧
    (∀ z, root (uf.componentSize id).2.parent z = root uf.parent z) ∧
    (∀ z, z ∈ SMap.keys (uf.componentSize id).2.parent ↔
      (z = id ∨ z ∈ SMap.keys uf.parent)) ∧
    (uf.componentSize id).1 =
      ((SMap.keys (uf.find id).2.parent).filter
        (fun k => decide (root uf.parent k = root uf.parent id))).length := by
  obtain ⟨f1, f2, f3, f4, f5, f6⟩ := find_spec h id
  obtain ⟨g1, g2, g3, g4⟩ := sizeFold_spec (uf.find id).1 (SMap.keys (uf.find id).2.parent)
    0 (uf.find id).2 f2 (fun k hk => hk)
  have hres : uf.componentSize id =
      ((SMap.keys (uf.find id).2.parent).foldl (fun (acc : Nat × UnionFind) (k : String) =>
        let fk := acc.2.find k
        (if fk.1 = (uf.find id).1 then acc.1 + 1 else acc.1, fk.2)) (0, (uf.find id).2)) := rfl
  rw [hres]
  refine ⟨g1, ?_, ?_, ?_⟩
  · intro z
    rw [g2 z, f4]
  · intro z
    rw [g3 z, f5]
  · rw [g4, Nat.zero_add]
    congr 1
    apply List.filter_congr
    intro a _
    rw [f4, f1]

/-- The `getAllComponents` fold only path-compresses. -/
theorem allCompFold_pres :
    ∀ (ks : List String) (m0 : SMap (List String)) (uf0 : UnionFind), WF uf0 →
      (∀ k ∈ ks, k ∈ SMap.keys uf0.parent) →
      WF (ks.foldl (fun (acc : SMap (List String) × UnionFind) (k : String) =>
          let fk := acc.2.find k
          (acc.1.insert fk.1 (((acc.1.find? fk.1).getD []) ++ [k]), fk.2)) (m0, uf0)).2 ∧
      (∀ z, root (ks.foldl (fun (acc : SMap (List String) × UnionFind) (k : String) =>
          let fk := acc.2.find k
          (acc.1.insert fk.1 (((acc.1.find? fk.1).getD []) ++ [k]), fk.2)) (m0, uf0)).2.parent z =
        root uf0.parent z) ∧
      (∀ z, z ∈ SMap.keys (ks.foldl (fun (acc : SMap (List String) × UnionFind) (k : String) =>
          let fk := acc.2.find k
          (acc.1.insert fk.1 (((acc.1.find? fk.1).getD []) ++ [k]), fk.2)) (m0, uf0)).2.parent ↔
        z ∈ SMap.keys uf0.parent) := by
  intro ks
  induction ks with
  | nil =>
    intro m0 uf0 h _
    exact ⟨h, fun z => rfl, fun z => Iff.rfl⟩
  | cons k ktail ih =>
    intro m0 uf0 h hks
    obtain ⟨f1, f2, f3, f4, f5, f6⟩ := find_spec h k
    have hkmem : k ∈ SMap.keys uf0.parent := hks k (by simp)
    have hktail : ∀ k' ∈ ktail, k' ∈ SMap.keys (uf0.find k).2.parent := by
      intro k' hk'
      rw [f5]
      exact Or.inr (hks k' (by simp [hk']))
    rw [List.foldl_cons]
    obtain ⟨g1, g2, g3⟩ := ih _ (uf0.find k).2 f2 hktail
    refine ⟨g1, ?_, ?_⟩
    · intro z
      rw [g2 z, f4]
    · intro z
      rw [g3 z, f5]
      constructor
      · intro hz
        rcases hz with rfl | hz
        · exact hkmem
        · exact hz
      · exact Or.inr

/-- The function `getAllComponents` preserves well-formedness, roots and keys. -/
theorem getAllComponents_pres {uf : UnionFind} (h : WF uf) :
    WF uf.getAllComponents.2 ∧
    (∀ z, root uf.getAllComponents.2.parent z = root uf.parent z) ∧
    (∀ z, z ∈ SMap.keys uf.getAllComponents.2.parent ↔ z ∈ SMap.keys uf.parent) := by
  exact allCompFold_pres (SMap.keys uf.parent) SMap.empty uf h (fun k hk => hk)

theorem union_ret_root {uf : UnionFind} (h : WF uf) (x y : String) :
    root uf.parent (uf.union x y).1 = (uf.union x y).1 := by
  rcases (union_spec h x y).2.2.1 with hr | hr
  · rw [hr]
    exact root_idem h x
  · rw [hr]
    exact root_idem h y

theorem union_root_self {uf : UnionFind} (h : WF uf) (x y : String) :
    root (uf.union x y).2.parent (uf.union x y).1 = (uf.union x y).1 := by
  obtain ⟨_, _, h3, h4⟩ := union_spec h x y
  rw [h4]
  have hru := union_ret_root h x y
  rcases h3 with hr | hr
  · rw [if_pos (Or.inl (by rw [hru, hr]))]
  · rw [if_pos (Or.inr (by rw [hru, hr]))]

theorem union_root_eq_iff {uf : UnionFind} (h : WF uf) (x y z w : String) :
    (root (uf.union x y).2.parent z = root (uf.union x y).2.parent w ↔
      (root uf.parent z = root uf.parent w ∨
       ((root uf.parent z = root uf.parent x ∨ root uf.parent z = root uf.parent y) ∧
        (root uf.parent w = root uf.parent x ∨ root uf.parent w = root uf.parent y)))) := by
  obtain ⟨_, _, h3, h4⟩ := union_spec h x y
  rw [h4 z, h4 w]
  by_cases hz : root uf.parent z = root uf.parent x ∨ root uf.parent z = root uf.parent y
  · rw [if_pos hz]
    by_cases hw : root uf.parent w = root uf.parent x ∨ root uf.parent w = root uf.parent y
    · rw [if_pos hw]
      simp only [true_iff]
      tauto
    · rw [if_neg hw]
      constructor
      · intro hc
        exfalso
        rcases h3 with hr | hr
        · rw [hr] at hc
          exact hw (Or.inl hc.symm)
        · rw [hr] at hc
          exact hw (Or.inr hc.symm)
      · intro hc
        rcases hc with hc | hc
        · exfalso
          rw [hc] at hz
          exact hw hz
        · exact absurd hc.2 hw
  · rw [if_neg hz]
    by_cases hw : root uf.parent w = root uf.parent x ∨ root uf.parent w = root uf.parent y
    · rw [if_pos hw]
      constructor
      · intro hc
        exfalso
        rcases h3 with hr | hr
        · rw [hr] at hc
          exact hz (Or.inl hc)
        · rw [hr] at hc
          exact hz (Or.inr hc)
      · intro hc
        rcases hc with hc | hc
        · exfalso
          rw [← hc] at hw
          exact hz hw
        · exact absurd hc.1 hz
    · rw [if_neg hw]
      constructor
      · exact Or.inl
      · intro hc
        rcases hc with hc | hc
        · exact hc
        · exact absurd hc.1 hz

/-- The `GetSessionKey` union loop `root = Union(root, ids[i])`: afterwards
every processed identifier shares the final root, all other classes are
untouched, and the final root is the representative of the merged class. -/
theorem unionFold_spec :
    ∀ (rest : List String) (r0 : String) (uf0 : UnionFind), WF uf0 →
      root uf0.parent r0 = r0 → r0 ∈ SMap.keys uf0.parent →
      WF (rest.foldl (fun (acc : String × UnionFind) id => acc.2.union acc.1 id) (r0, uf0)).2 ∧
      root (rest.foldl (fun (acc : String × UnionFind) id =>
          acc.2.union acc.1 id) (r0, uf0)).2.parent
        (rest.foldl (fun (acc : String × UnionFind) id => acc.2.union acc.1 id) (r0, uf0)).1 =
        (rest.foldl (fun (acc : String × UnionFind) id => acc.2.union acc.1 id) (r0, uf0)).1 ∧
      (rest.foldl (fun (acc : String × UnionFind) id => acc.2.union acc.1 id) (r0, uf0)).1 ∈
        SMap.keys (rest.foldl (fun (acc : String × UnionFind) id =>
          acc.2.union acc.1 id) (r0, uf0)).2.parent ∧
      (∀ z, z ∈ SMap.keys (rest.foldl (fun (acc : String × UnionFind) id =>
          acc.2.union acc.1 id) (r0, uf0)).2.parent ↔
        (z ∈ rest ∨ z ∈ SMap.keys uf0.parent)) ∧
      (∀ z, root (rest.foldl (fun (acc : String × UnionFind) id =>
          acc.2.union acc.1 id) (r0, uf0)).2.parent z =
        (if root uf0.parent z = r0 ∨ (∃ u ∈ rest, root uf0.parent z = root uf0.parent u)
         then (rest.foldl (fun (acc : String × UnionFind) id =>
           acc.2.union acc.1 id) (r0, uf0)).1
         else root uf0.parent z)) ∧
      ((rest.foldl (fun (acc : String × UnionFind) id =>
          acc.2.union acc.1 id) (r0, uf0)).1 = r0 ∨
       ∃ u ∈ rest, (rest.foldl (fun (acc : String × UnionFind) id =>
          acc.2.union acc.1 id) (r0, uf0)).1 = root uf0.parent u) := by
  intro rest
  induction rest with
  | nil =>
    intro r0 uf0 h h0 hk
    refine ⟨h, h0, hk, fun z => by simp, ?_, Or.inl rfl⟩
    intro z
    by_cases hz : root uf0.parent z = r0
    · simp only [List.not_mem_nil, false_and, exists_false, or_false, if_pos hz]
      exact hz
    · simp only [List.not_mem_nil, false_and, exists_false, or_false, if_neg hz]
      rfl
  | cons u us ih =>
    intro r0 uf0 h h0 hk
    rw [List.foldl_cons]
    obtain ⟨u1, u2, u3, u4⟩ := union_spec h r0 u
    have hret := union_ret_root h r0 u
    have hretself := union_root_self h r0 u
    have hretkeys : (uf0.union r0 u).1 ∈ SMap.keys (uf0.union r0 u).2.parent := by
      rcases u3 with hr | hr
      · rw [hr]
        have : root uf0.parent r0 ∈ SMap.keys uf0.parent := by
          rw [h0]; exact hk
        rw [u2]
        exact Or.inr (Or.inr this)
      · rw [u2, hr]
        by_cases hu : u ∈ SMap.keys uf0.parent
        · exact Or.inr (Or.inr (root_mem_keys h hu))
        · have : uf0.parent.find? u = none := by
            cases hf : uf0.parent.find? u with
            | none => rfl
            | some v =>
              exact absurd (SMap.mem_keys_iff_find?.mpr (by rw [hf]; rfl)) hu
          rw [root_of_find?_none this]
          exact Or.inr (Or.inl rfl)
    obtain ⟨g1, g2, g3, g4, g5, g6⟩ := ih (uf0.union r0 u).1 (uf0.union r0 u).2 u1 hretself hretkeys
    have hcondiff : ∀ z,
        ((root (uf0.union r0 u).2.parent z = (uf0.union r0 u).1 ∨
          (∃ v ∈ us, root (uf0.union r0 u).2.parent z = root (uf0.union r0 u).2.parent v)) ↔
         (root uf0.parent z = r0 ∨ (∃ v ∈ u :: us, root uf0.parent z = root uf0.parent v))) := by
      intro z
      have hz1 : (root (uf0.union r0 u).2.parent z = (uf0.union r0 u).1 ↔
          (root uf0.parent z = root uf0.parent r0 ∨ root uf0.parent z = root uf0.parent u)) := by
        rw [u4 z]
        by_cases hc : root uf0.parent z = root uf0.parent r0 ∨ root uf0.parent z = root uf0.parent u
        · rw [if_pos hc]
          simp only [hc, iff_true]
        · rw [if_neg hc]
          constructor
          · intro hzz
            exfalso
            rcases u3 with hr | hr
            · exact hc (Or.inl (by rw [hzz, hr]))
            · exact hc (Or.inr (by rw [hzz, hr]))
          · intro hcc
            exact absurd hcc hc
      constructor
      · intro hc
        rcases hc with hc | hc
        · rcases hz1.mp hc with hc | hc
          · rw [h0] at hc
            exact Or.inl hc
          · exact Or.inr ⟨u, by simp, hc⟩
        · rcases hc with ⟨v, hv, hzv⟩
          rcases (union_root_eq_iff h r0 u z v).mp hzv with hc | hc
          · exact Or.inr ⟨v, by simp [hv], hc⟩
          · rcases hc.1 with hc1 | hc1
            · rw [h0] at hc1
              exact Or.inl hc1
            · exact Or.inr ⟨u, by simp, hc1⟩
      · intro hc
        rcases hc with hc | hc
        · exact Or.inl (hz1.mpr (Or.inl (by rw [h0]; exact hc)))
        · rcases hc with ⟨v, hv, hzv⟩
          rcases List.mem_cons.mp hv with rfl | hv'
          · exact Or.inl (hz1.mpr (Or.inr hzv))
          · refine Or.inr ⟨v, hv', ?_⟩
            exact (union_root_eq_iff h r0 u z v).mpr (Or.inl hzv)
    refine ⟨g1, g2, g3, ?_, ?_, ?_⟩
    · intro z
      rw [g4 z, u2]
      constructor
      · intro hz
        rcases hz with hz | hz | hz | hz
        · exact Or.inl (List.mem_cons_of_mem _ hz)
        · exact Or.inr (hz ▸ hk)
        · exact Or.inl (hz ▸ List.mem_cons_self _ _)
        · exact Or.inr hz
      · intro hz
        rcases hz with hz | hz
        · rcases List.mem_cons.mp hz with rfl | hz'
          · exact Or.inr (Or.inr (Or.inl rfl))
          · exact Or.inl hz'
        · exact Or.inr (Or.inr (Or.inr hz))
    · intro z
      rw [g5 z]
      by_cases hcnew : root uf0.parent z = r0 ∨ (∃ v ∈ u :: us, root uf0.parent z = root uf0.parent v)
      · rw [if_pos ((hcondiff z).mpr hcnew), if_pos hcnew]
      · rw [if_neg (fun hh => hcnew ((hcondiff z).mp hh)), if_neg hcnew]
        rw [u4 z]
        have hc' : ¬ (root uf0.parent z = root uf0.parent r0 ∨
            root uf0.parent z = root uf0.parent u) := by
          intro hh
          rcases hh with hh | hh
          · exact hcnew (Or.inl (by rw [hh, h0]))
          · exact hcnew (Or.inr ⟨u, by simp, hh⟩)
        rw [if_neg hc']
    · rcases g6 with hg | hg
      · rw [hg]
        rcases u3 with hr | hr
        · rw [hr, h0]
          exact Or.inl rfl
        · exact Or.inr ⟨u, by simp, by rw [hr]⟩
      · rcases hg with ⟨v, hv, hFv⟩
        rw [hFv, u4 v]
        by_cases hcv : root uf0.parent v = root uf0.parent r0 ∨ root uf0.parent v = root uf0.parent u
        · rw [if_pos hcv]
          rcases u3 with hr | hr
          · rw [hr, h0]
            exact Or.inl rfl
          · exact Or.inr ⟨u, by simp, by rw [hr]⟩
        · rw [if_neg hcv]
          exact Or.inr ⟨v, by simp [hv], rfl⟩

/-! ### Canonical-root engine: operation-level specifications -/
/-- The empty union-find is well-formed. -/
theorem wf_new : WF new :=
  ⟨List.Pairwise.nil, List.Pairwise.nil,
   fun pr hpr => absurd hpr (List.not_mem_nil pr),
   fun pr hpr => absurd hpr (List.not_mem_nil pr)⟩

end UnionFind

namespace CanonicalSessionGenerator

/-- The function `selectCanonical` never takes the empty-component branch (the preceding
`Find` guarantees the root is a member), and only path-compresses the state. -/
theorem selectCanonical_spec {uf : UnionFind} (h : UnionFind.WF uf) (rt : String) :
    (selectCanonical uf rt).1 = pickCanonical (uf.getComponentMembers rt).1 ∧
    (selectCanonical uf rt).2 = (uf.getComponentMembers rt).2 := by
  have hm := UnionFind.members_spec h rt
  have hrtmem : rt ∈ (uf.getComponentMembers rt).1 := (hm.2.2.2.2 rt).mpr ⟨Or.inl rfl, rfl⟩
  have hne : ¬((uf.getComponentMembers rt).1.isEmpty = true) := by
    intro hh
    rw [List.isEmpty_iff] at hh
    rw [hh] at hrtmem
    exact absurd hrtmem (List.not_mem_nil rt)
  simp only [selectCanonical]
  rw [if_neg hne]
  exact ⟨rfl, rfl⟩

/-- Equation lemma: `GetSessionKey` on an input that normalizes to nothing. -/
theorem getKey_eq_anon {csg : CanonicalSessionGenerator} {ids : Identifiers}
    (hn : normalizeIdentifiers ids = []) :
    csg.getSessionKey ids = ("sess_anonymous", csg) := by
  unfold getSessionKey
  rw [hn]

/-- Equation lemma: the returned key on a non-empty normalized input. -/
theorem getKey_cons_fst {csg : CanonicalSessionGenerator} {ids : Identifiers}
    {id0 : String} {rest : List String} (hn : normalizeIdentifiers ids = id0 :: rest) :
    (csg.getSessionKey ids).1 =
      generateSessionKey (selectCanonical
        (rest.foldl (fun (acc : String × UnionFind) id => acc.2.union acc.1 id)
          ((csg.uf.find id0).1, (csg.uf.find id0).2)).2
        (rest.foldl (fun (acc : String × UnionFind) id => acc.2.union acc.1 id)
          ((csg.uf.find id0).1, (csg.uf.find id0).2)).1).1 := by
  unfold getSessionKey
  rw [hn]

/-- Equation lemma: the union-find state after a non-empty lookup. -/
theorem getKey_cons_uf {csg : CanonicalSessionGenerator} {ids : Identifiers}
    {id0 : String} {rest : List String} (hn : normalizeIdentifiers ids = id0 :: rest) :
    (csg.getSessionKey ids).2.uf =
      (selectCanonical
        (rest.foldl (fun (acc : String × UnionFind) id => acc.2.union acc.1 id)
          ((csg.uf.find id0).1, (csg.uf.find id0).2)).2
        (rest.foldl (fun (acc : String × UnionFind) id => acc.2.union acc.1 id)
          ((csg.uf.find id0).1, (csg.uf.find id0).2)).1).2 := by
  unfold getSessionKey
  rw [hn]

/-- Full specification of `GetSessionKey` on a non-empty normalized input:
the provided atoms are merged into one class (all other classes untouched),
and the returned key is generated from the canonical pick of the sorted
member list of that merged class. -/
theorem getKey_spec {csg : CanonicalSessionGenerator} (h : UnionFind.WF csg.uf)
    {ids : Identifiers} {id0 : String} {rest : List String}
    (hn : normalizeIdentifiers ids = id0 :: rest) :
    UnionFind.WF (csg.getSessionKey ids).2.uf ∧
    (∀ z, z ∈ SMap.keys (csg.getSessionKey ids).2.uf.parent ↔
      (z ∈ id0 :: rest ∨ z ∈ SMap.keys csg.uf.parent)) ∧
    (∃ R, (∃ u ∈ id0 :: rest, R = UnionFind.root csg.uf.parent u) ∧
      (∀ z, UnionFind.root (csg.getSessionKey ids).2.uf.parent z =
        (if (∃ u ∈ id0 :: rest,
              UnionFind.root csg.uf.parent z = UnionFind.root csg.uf.parent u)
         then R else UnionFind.root csg.uf.parent z))) ∧
    (∃ ms, (csg.getSessionKey ids).1 = generateSessionKey (pickCanonical ms) ∧
      ms.Pairwise (· < ·) ∧
      (∀ z, z ∈ ms ↔ ((z ∈ id0 :: rest ∨ z ∈ SMap.keys csg.uf.parent) ∧
        (∃ u ∈ id0 :: rest,
          UnionFind.root csg.uf.parent z = UnionFind.root csg.uf.parent u)))) := by
  have huf := @getKey_cons_uf csg ids id0 rest hn
  have hval := @getKey_cons_fst csg ids id0 rest hn
  obtain ⟨f1, f2, f3, f4, f5, f6⟩ := UnionFind.find_spec h id0
  have hr0self : UnionFind.root (csg.uf.find id0).2.parent (csg.uf.find id0).1 =
      (csg.uf.find id0).1 := by
    rw [f1, f4]
    exact UnionFind.root_idem h id0
  have hr0mem : (csg.uf.find id0).1 ∈ SMap.keys (csg.uf.find id0).2.parent := by
    have h1 : id0 ∈ SMap.keys (csg.uf.find id0).2.parent := (f5 id0).mpr (Or.inl rfl)
    have h2 := UnionFind.root_mem_keys f2 h1
    rw [f4] at h2
    rw [f1]
    exact h2
  obtain ⟨g1, g2, g3, g4, g5, g6⟩ :=
    UnionFind.unionFold_spec rest (csg.uf.find id0).1 (csg.uf.find id0).2 f2 hr0self hr0mem
  set F := rest.foldl (fun (acc : String × UnionFind) id => acc.2.union acc.1 id)
    ((csg.uf.find id0).1, (csg.uf.find id0).2) with hF
  obtain ⟨sc1, sc2⟩ := selectCanonical_spec g1 F.1
  obtain ⟨m1, m2, m3, m4, m5⟩ := UnionFind.members_spec g1 F.1
  have hkeys2 : ∀ z, z ∈ SMap.keys F.2.parent ↔
      (z ∈ id0 :: rest ∨ z ∈ SMap.keys csg.uf.parent) := by
    intro z
    rw [g4 z, f5 z]
    constructor
    · rintro (hz | rfl | hz)
      · exact Or.inl (List.mem_cons_of_mem _ hz)
      · exact Or.inl (List.mem_cons_self _ _)
      · exact Or.inr hz
    · rintro (hz | hz)
      · rcases List.mem_cons.mp hz with rfl | hz
        · exact Or.inr (Or.inl rfl)
        · exact Or.inl hz
      · exact Or.inr (Or.inr hz)
  have hce : ∀ z, ((UnionFind.root (csg.uf.find id0).2.parent z = (csg.uf.find id0).1 ∨
      (∃ u ∈ rest, UnionFind.root (csg.uf.find id0).2.parent z =
        UnionFind.root (csg.uf.find id0).2.parent u)) ↔
      (∃ u ∈ id0 :: rest,
        UnionFind.root csg.uf.parent z = UnionFind.root csg.uf.parent u)) := by
    intro z
    rw [f1]
    constructor
    · rintro (hz | ⟨u, hu, hz⟩)
      · rw [f4] at hz
        exact ⟨id0, List.mem_cons_self _ _, hz⟩
      · rw [f4, f4] at hz
        exact ⟨u, List.mem_cons_of_mem _ hu, hz⟩
    · rintro ⟨u, hu, hz⟩
      rcases List.mem_cons.mp hu with rfl | hu
      · exact Or.inl (by rw [f4]; exact hz)
      · exact Or.inr ⟨u, hu, by rw [f4, f4]; exact hz⟩
  have hRch : ∃ u ∈ id0 :: rest, F.1 = UnionFind.root csg.uf.parent u := by
    rcases g6 with hg | ⟨u, hu, hg⟩
    · exact ⟨id0, List.mem_cons_self _ _, by rw [hg, f1]⟩
    · exact ⟨u, List.mem_cons_of_mem _ hu, by rw [hg, f4]⟩
  have hform : ∀ z, UnionFind.root (csg.getSessionKey ids).2.uf.parent z =
      (if (∃ u ∈ id0 :: rest,
            UnionFind.root csg.uf.parent z = UnionFind.root csg.uf.parent u)
       then F.1 else UnionFind.root csg.uf.parent z) := by
    intro z
    rw [huf, sc2, m2 z, g5 z]
    exact if_congr (hce z) rfl (f4 z)
  have hclass : ∀ z, (UnionFind.root F.2.parent z = F.1 ↔
      (∃ u ∈ id0 :: rest,
        UnionFind.root csg.uf.parent z = UnionFind.root csg.uf.parent u)) := by
    intro z
    constructor
    · intro hz
      by_cases hc : (∃ u ∈ id0 :: rest,
          UnionFind.root csg.uf.parent z = UnionFind.root csg.uf.parent u)
      · exact hc
      · exfalso
        rw [g5 z, if_neg (fun ho => hc ((hce z).mp ho))] at hz
        rw [f4] at hz
        obtain ⟨u, hu, he⟩ := hRch
        exact hc ⟨u, hu, hz.trans he⟩
    · intro hc
      rw [g5 z, if_pos ((hce z).mpr hc)]
  refine ⟨?_, ?_, ⟨F.1, hRch, hform⟩, ?_⟩
  · rw [huf, sc2]
    exact m1
  · intro z
    rw [huf, sc2, m3 z]
    constructor
    · rintro (rfl | hz)
      · exact (hkeys2 _).mp g3
      · exact (hkeys2 _).mp hz
    · intro hz
      exact Or.inr ((hkeys2 _).mpr hz)
  · refine ⟨(F.2.getComponentMembers F.1).1, ?_, m4, ?_⟩
    · rw [hval, sc1]
    · intro z
      rw [m5 z, g2]
      constructor
      · rintro ⟨hm', hr⟩
        refine ⟨?_, (hclass z).mp hr⟩
        rcases hm' with rfl | hm'
        · exact (hkeys2 _).mp g3
        · exact (hkeys2 _).mp hm'
      · rintro ⟨hm', hc⟩
        exact ⟨Or.inr ((hkeys2 z).mpr hm'), (hclass z).mpr hc⟩

/-- A singleton lookup only path-compresses (classes are unchanged) and
returns the key generated from the canonical pick of the atom's class. -/
theorem getKey_single_spec {csg : CanonicalSessionGenerator} (h : UnionFind.WF csg.uf)
    {ids : Identifiers} {a : String} (hn : normalizeIdentifiers ids = [a]) :
    UnionFind.WF (csg.getSessionKey ids).2.uf ∧
    (∀ z, z ∈ SMap.keys (csg.getSessionKey ids).2.uf.parent ↔
      (z = a ∨ z ∈ SMap.keys csg.uf.parent)) ∧
    (∀ z, UnionFind.root (csg.getSessionKey ids).2.uf.parent z =
      UnionFind.root csg.uf.parent z) ∧
    (∃ ms, (csg.getSessionKey ids).1 = generateSessionKey (pickCanonical ms) ∧
      ms.Pairwise (· < ·) ∧
      (∀ z, z ∈ ms ↔ ((z = a ∨ z ∈ SMap.keys csg.uf.parent) ∧
        UnionFind.root csg.uf.parent z = UnionFind.root csg.uf.parent a))) := by
  obtain ⟨k1, k2, ⟨R, hR, hform⟩, ⟨ms, hv, hp, hm⟩⟩ := getKey_spec h hn
  have hsing : ∀ z, ((∃ u ∈ ([a] : List String),
      UnionFind.root csg.uf.parent z = UnionFind.root csg.uf.parent u) ↔
      UnionFind.root csg.uf.parent z = UnionFind.root csg.uf.parent a) := by
    intro z
    constructor
    · rintro ⟨u, hu, hz⟩
      rcases List.mem_cons.mp hu with rfl | hu
      · exact hz
      · exact absurd hu (List.not_mem_nil u)
    · intro hz
      exact ⟨a, List.mem_cons_self _ _, hz⟩
  have hRa : R = UnionFind.root csg.uf.parent a := by
    obtain ⟨u, hu, he⟩ := hR
    rcases List.mem_cons.mp hu with rfl | hu
    · exact he
    · exact absurd hu (List.not_mem_nil u)
  refine ⟨k1, ?_, ?_, ms, hv, hp, ?_⟩
  · intro z
    rw [k2 z, List.mem_singleton]
  · intro z
    rw [hform z]
    by_cases hz : UnionFind.root csg.uf.parent z = UnionFind.root csg.uf.parent a
    · rw [if_pos ((hsing z).mpr hz), hRa, hz]
    · rw [if_neg (fun hc => hz ((hsing z).mp hc))]
  · intro z
    rw [hm z, List.mem_singleton, hsing z]

/-- The function `AreLinked` answers root equality (for non-empty arguments), leaves the
cache untouched, and only path-compresses the union-find (inserting unknown
arguments as singletons). -/
theorem areLinked_spec {csg : CanonicalSessionGenerator} (h : UnionFind.WF csg.uf)
    (a b : String) :
    ((csg.areLinked a b).1 = true ↔
      (a ≠ "" ∧ b ≠ "" ∧
        UnionFind.root csg.uf.parent a = UnionFind.root csg.uf.parent b)) ∧
    UnionFind.WF (csg.areLinked a b).2.uf ∧
    (∀ z, UnionFind.root (csg.areLinked a b).2.uf.parent z =
      UnionFind.root csg.uf.parent z) ∧
    (¬(a = "" ∨ b = "") →
      ∀ z, z ∈ SMap.keys (csg.areLinked a b).2.uf.parent ↔
        (z = a ∨ z = b ∨ z ∈ SMap.keys csg.uf.parent)) ∧
    (csg.areLinked a b).2.cache = csg.cache := by
  simp only [areLinked]
  by_cases he : a = "" ∨ b = ""
  · rw [if_pos he]
    refine ⟨?_, h, fun z => rfl, fun hne => absurd he hne, rfl⟩
    constructor
    · intro hh
      exact absurd hh Bool.false_ne_true
    · rintro ⟨ha, hb, -⟩
      rcases he with he | he
      · exact absurd he ha
      · exact absurd he hb
  · rw [if_neg he]
    obtain ⟨c1, c2, c3, c4, -, -⟩ := UnionFind.connected_spec h a b
    refine ⟨?_, c2, c3, fun _ => c4, rfl⟩
    rw [c1]
    constructor
    · intro hd
      exact ⟨fun hh => he (Or.inl hh), fun hh => he (Or.inr hh), of_decide_eq_true hd⟩
    · rintro ⟨-, -, hr⟩
      exact decide_eq_true hr

/-- The function `LinkIdentifiers` with an empty argument is a no-op. -/
theorem link_emptyArg {csg : CanonicalSessionGenerator} {a b : String}
    (he : a = "" ∨ b = "") : csg.linkIdentifiers a b = csg := by
  simp only [linkIdentifiers]
  rw [if_pos he]

/-- The function `LinkIdentifiers` with non-empty arguments merges exactly the two
argument classes (also inserting unknown arguments). -/
theorem link_spec {csg : CanonicalSessionGenerator} (h : UnionFind.WF csg.uf)
    {a b : String} (ha : a ≠ "") (hb : b ≠ "") :
    UnionFind.WF (csg.linkIdentifiers a b).uf ∧
    (∀ z, z ∈ SMap.keys (csg.linkIdentifiers a b).uf.parent ↔
      (z = a ∨ z = b ∨ z ∈ SMap.keys csg.uf.parent)) ∧
    (∀ z w, UnionFind.root (csg.linkIdentifiers a b).uf.parent z =
        UnionFind.root (csg.linkIdentifiers a b).uf.parent w ↔
      (UnionFind.root csg.uf.parent z = UnionFind.root csg.uf.parent w ∨
       ((UnionFind.root csg.uf.parent z = UnionFind.root csg.uf.parent a ∨
         UnionFind.root csg.uf.parent z = UnionFind.root csg.uf.parent b) ∧
        (UnionFind.root csg.uf.parent w = UnionFind.root csg.uf.parent a ∨
         UnionFind.root csg.uf.parent w = UnionFind.root csg.uf.parent b)))) := by
  have hne : ¬(a = "" ∨ b = "") := by
    rintro (hh | hh)
    · exact ha hh
    · exact hb hh
  obtain ⟨c1, c2, c3, c4, -, -⟩ := UnionFind.connected_spec h a b
  simp only [linkIdentifiers]
  rw [if_neg hne]
  by_cases hcc : UnionFind.root csg.uf.parent a = UnionFind.root csg.uf.parent b
  · have hct : (csg.uf.connected a b).1 = true := by
      rw [c1]
      exact decide_eq_true hcc
    rw [if_pos hct]
    refine ⟨c2, c4, ?_⟩
    intro z w
    constructor
    · intro hzw
      have hzw' : UnionFind.root (csg.uf.connected a b).2.parent z =
          UnionFind.root (csg.uf.connected a b).2.parent w := hzw
      rw [c3 z, c3 w] at hzw'
      exact Or.inl hzw'
    · intro hzw
      show UnionFind.root (csg.uf.connected a b).2.parent z =
        UnionFind.root (csg.uf.connected a b).2.parent w
      rw [c3 z, c3 w]
      rcases hzw with hzw | ⟨hz, hw⟩
      · exact hzw
      · have hz' : UnionFind.root csg.uf.parent z = UnionFind.root csg.uf.parent a := by
          rcases hz with hz | hz
          · exact hz
          · rw [hz, hcc]
        have hw' : UnionFind.root csg.uf.parent w = UnionFind.root csg.uf.parent a := by
          rcases hw with hw | hw
          · exact hw
          · rw [hw, hcc]
        rw [hz', hw']
  · have hct : ¬((csg.uf.connected a b).1 = true) := by
      rw [c1]
      simp only [decide_eq_true_eq]
      exact hcc
    rw [if_neg hct]
    obtain ⟨u1, u2, -, -⟩ := UnionFind.union_spec c2 a b
    refine ⟨u1, ?_, ?_⟩
    · intro z
      constructor
      · intro hz
        rcases (u2 z).mp hz with hz | hz | hz
        · exact Or.inl hz
        · exact Or.inr (Or.inl hz)
        · rcases (c4 z).mp hz with hz | hz | hz
          · exact Or.inl hz
          · exact Or.inr (Or.inl hz)
          · exact Or.inr (Or.inr hz)
      · rintro (hz | hz | hz)
        · exact (u2 z).mpr (Or.inl hz)
        · exact (u2 z).mpr (Or.inr (Or.inl hz))
        · exact (u2 z).mpr (Or.inr (Or.inr ((c4 z).mpr (Or.inr (Or.inr hz)))))
    · intro z w
      have hiff := UnionFind.union_root_eq_iff c2 a b z w
      rw [c3 z, c3 w, c3 a, c3 b] at hiff
      exact hiff

/-- One element of a strictly ascending list satisfies the predicate. -/
theorem length_filter_eq_one {L : List String} (hnd : L.Pairwise (· < ·)) {a : String}
    (hmem : a ∈ L) (pred : String → Bool) (hpred : ∀ k ∈ L, pred k = true ↔ k = a) :
    (L.filter pred).length = 1 := by
  induction L with
  | nil => exact absurd hmem (List.not_mem_nil a)
  | cons x t ih =>
    rcases List.mem_cons.mp hmem with hax | hmem'
    · rw [List.filter_cons, if_pos ((hpred x (List.mem_cons_self x t)).mpr hax.symm)]
      have ht : t.filter pred = [] := by
        rw [List.filter_eq_nil_iff]
        intro k hk hpk
        have hke := (hpred k (List.mem_cons_of_mem _ hk)).mp hpk
        have hx := (List.pairwise_cons.mp hnd).1 k hk
        rw [hke, ← hax] at hx
        exact lt_irrefl _ hx
      rw [ht]
      rfl
    · have hxa : x ≠ a := ne_of_lt ((List.pairwise_cons.mp hnd).1 a hmem')
      rw [List.filter_cons,
        if_neg (fun hpx => hxa ((hpred x (List.mem_cons_self x t)).mp hpx))]
      exact ih (List.pairwise_cons.mp hnd).2 hmem' (fun k hk => hpred k (List.mem_cons_of_mem _ hk))

/-- The function `GetSessionSize` on a non-empty atom counts the members of its class. -/
theorem sessionSize_fst {csg : CanonicalSessionGenerator} (h : UnionFind.WF csg.uf)
    {id : String} (hid : ¬(id = "")) :
    (csg.getSessionSize id).1 =
      ((SMap.keys (csg.uf.find id).2.parent).filter
        (fun k => decide (UnionFind.root csg.uf.parent k =
          UnionFind.root csg.uf.parent id))).length ∧
    UnionFind.WF (csg.getSessionSize id).2.uf := by
  obtain ⟨s1, s2, s3, s4⟩ := UnionFind.componentSize_spec h id
  simp only [getSessionSize]
  rw [if_neg hid]
  exact ⟨s4, s1⟩

/-- The function `selectCanonical` preserves well-formedness. -/
theorem selectCanonical_wf {uf : UnionFind} (h : UnionFind.WF uf) (rt : String) :
    UnionFind.WF (selectCanonical uf rt).2 := by
  rw [(selectCanonical_spec h rt).2]
  exact (UnionFind.members_spec h rt).1

/-- The `GetAllSessions` fold preserves well-formedness. -/
theorem sessionsFold_wf :
    ∀ (l : SMap (List String)) (m : SMap (List String)) (uf : UnionFind),
      UnionFind.WF uf →
      UnionFind.WF ((l.foldl (fun (acc : SMap (List String) × UnionFind) rm =>
        (acc.1.insert (generateSessionKey (selectCanonical acc.2 rm.1).1) rm.2,
         (selectCanonical acc.2 rm.1).2)) (m, uf)).2) := by
  intro l
  induction l with
  | nil => exact fun m uf h => h
  | cons rm t ih =>
    intro m uf h
    exact ih _ _ (selectCanonical_wf h rm.1)

/-- Every public operation preserves well-formedness of the union-find. -/
theorem creApply_wf : ∀ (op : CREOp) {s : CanonicalSessionGenerator},
    UnionFind.WF s.uf → UnionFind.WF (op.apply s).uf := by
  intro op s h
  cases op with
  | getKey ids =>
    show UnionFind.WF (s.getSessionKey ids).2.uf
    cases hn : normalizeIdentifiers ids with
    | nil =>
      rw [getKey_eq_anon hn]
      exact h
    | cons id0 rest => exact (getKey_spec h hn).1
  | link id1 id2 =>
    show UnionFind.WF (s.linkIdentifiers id1 id2).uf
    by_cases ha : id1 = ""
    · rw [link_emptyArg (Or.inl ha)]
      exact h
    · by_cases hb : id2 = ""
      · rw [link_emptyArg (Or.inr hb)]
        exact h
      · exact (link_spec h ha hb).1
  | areLinked id1 id2 => exact (areLinked_spec h id1 id2).2.1
  | sessionSize id =>
    show UnionFind.WF (s.getSessionSize id).2.uf
    by_cases hid : id = ""
    · simp only [getSessionSize]
      rw [if_pos hid]
      exact h
    · exact (sessionSize_fst h hid).2
  | allSessions =>
    exact sessionsFold_wf s.uf.getAllComponents.1 SMap.empty s.uf.getAllComponents.2
      (UnionFind.getAllComponents_pres h).1
  | stats => exact (UnionFind.getAllComponents_pres h).1
  | clear => exact UnionFind.wf_new

/-- Any sequence of public calls from a fresh engine keeps the union-find
well-formed. -/
theorem execCRE_wf (cap : Nat) (ops : List CREOp) : UnionFind.WF (execCRE cap ops).uf := by
  suffices hgen : ∀ (l : List CREOp) (s : CanonicalSessionGenerator), UnionFind.WF s.uf →
      UnionFind.WF ((l.foldl (fun s op => op.apply s) s).uf) by
    exact hgen ops (new cap) UnionFind.wf_new
  intro l
  induction l with
  | nil => exact fun s h => h
  | cons op t ih => exact fun s h => ih _ (creApply_wf op h)

/-- The function `GetStats` reports the number of identifiers tracked by the union-find. -/
theorem getStats_totalIdentifiers {csg : CanonicalSessionGenerator}
    (h : UnionFind.WF csg.uf) :
    (csg.getStats).1.totalIdentifiers = SMap.size csg.uf.parent := by
  obtain ⟨w1, -, w3⟩ := UnionFind.getAllComponents_pres h
  have hkeq : SMap.keys csg.uf.getAllComponents.2.parent = SMap.keys csg.uf.parent :=
    pairwise_lt_ext (SMap.keys_sorted_of_sorted w1.1) (SMap.keys_sorted_of_sorted h.1) w3
  have h1 : ∀ (m : SMap String), SMap.size m = (SMap.keys m).length := by
    intro m
    show m.length = (m.map Prod.fst).length
    rw [List.length_map]
  show SMap.size csg.uf.getAllComponents.2.parent = SMap.size csg.uf.parent
  rw [h1, h1, hkeq]

/-- Two engines whose union-finds track the same atoms in the same classes
return identical keys for every lookup. -/
theorem getKey_congr {s1 s2 : CanonicalSessionGenerator}
    (h1 : UnionFind.WF s1.uf) (h2 : UnionFind.WF s2.uf)
    (hk : ∀ z, z ∈ SMap.keys s1.uf.parent ↔ z ∈ SMap.keys s2.uf.parent)
    (hc : ∀ z w, UnionFind.root s1.uf.parent z = UnionFind.root s1.uf.parent w ↔
      UnionFind.root s2.uf.parent z = UnionFind.root s2.uf.parent w)
    (ids : Identifiers) :
    (s1.getSessionKey ids).1 = (s2.getSessionKey ids).1 := by
  cases hn : normalizeIdentifiers ids with
  | nil => rw [getKey_eq_anon hn, getKey_eq_anon hn]
  | cons id0 rest =>
    obtain ⟨-, -, -, ⟨ms1, hv1, hp1, hm1⟩⟩ := getKey_spec h1 hn
    obtain ⟨-, -, -, ⟨ms2, hv2, hp2, hm2⟩⟩ := getKey_spec h2 hn
    have hms : ms1 = ms2 := by
      apply pairwise_lt_ext hp1 hp2
      intro z
      rw [hm1 z, hm2 z]
      constructor
      · rintro ⟨hz1, u, hu, hz2⟩
        refine ⟨?_, u, hu, (hc z u).mp hz2⟩
        rcases hz1 with hz1 | hz1
        · exact Or.inl hz1
        · exact Or.inr ((hk z).mp hz1)
      · rintro ⟨hz1, u, hu, hz2⟩
        refine ⟨?_, u, hu, (hc z u).mpr hz2⟩
        rcases hz1 with hz1 | hz1
        · exact Or.inl hz1
        · exact Or.inr ((hk z).mpr hz1)
    rw [hv1, hv2, hms]

end CanonicalSessionGenerator

theorem normalize_emit_mem (ids : Identifiers) (x : String) :
    (x ∈ ids.foldr
      (fun tv acc =>
        if tv.2 = "" then acc
        else
          (tv.1 ++ ":" ++ (if tv.1 == IdentifierEmail || tv.1 == "email"
            then goToLower tv.2 else tv.2)) :: acc) [] ↔
    ∃ tv ∈ ids, tv.2 ≠ "" ∧ x = emitAtom tv.1 tv.2) := by
  induction ids with
  | nil => simp
  | cons tv t ih =>
    simp only [List.foldr_cons]
    by_cases hv : tv.2 = ""
    · rw [if_pos hv, ih]
      constructor
      · rintro ⟨u, hu, hne, hx⟩
        exact ⟨u, List.mem_cons_of_mem _ hu, hne, hx⟩
      · rintro ⟨u, hu, hne, hx⟩
        rcases List.mem_cons.mp hu with rfl | hu
        · exact absurd hv hne
        · exact ⟨u, hu, hne, hx⟩
    · rw [if_neg hv, List.mem_cons, ih]
      constructor
      · rintro (hx | ⟨u, hu, hne, hx⟩)
        · exact ⟨tv, List.mem_cons_self _ _, hv, hx⟩
        · exact ⟨u, List.mem_cons_of_mem _ hu, hne, hx⟩
      · rintro ⟨u, hu, hne, hx⟩
        rcases List.mem_cons.mp hu with rfl | hu
        · exact Or.inl hx
        · exact Or.inr ⟨u, hu, hne, hx⟩

/-- Membership in the normalized atom list: exactly the emitted atoms of the
non-empty entries. -/
theorem normalize_mem_iff {ids : Identifiers} {x : String} :
    x ∈ normalizeIdentifiers ids ↔ ∃ tv ∈ ids, tv.2 ≠ "" ∧ x = emitAtom tv.1 tv.2 := by
  unfold normalizeIdentifiers
  rw [mem_sortStrings]
  exact normalize_emit_mem ids x

theorem emitAtom_ne (t v : String) : emitAtom t v ≠ "" := by
  intro hh
  have h1 := congrArg String.length hh
  unfold emitAtom at h1
  rw [String.length_append, String.length_append] at h1
  have h2 : String.length ":" = 1 := rfl
  have h3 : String.length "" = 0 := rfl
  rw [h2, h3] at h1
  omega

/-- Normalized atoms are never the empty string. -/
theorem normalize_mem_ne_empty {ids : Identifiers} {x : String}
    (h : x ∈ normalizeIdentifiers ids) : x ≠ "" := by
  obtain ⟨tv, -, -, hx⟩ := normalize_mem_iff.mp h
  rw [hx]
  exact emitAtom_ne _ _

/-- The normalizer drops everything exactly when every value is empty. -/
theorem normalize_eq_nil_iff {ids : Identifiers} :
    normalizeIdentifiers ids = [] ↔ ∀ tv ∈ ids, tv.2 = "" := by
  unfold normalizeIdentifiers
  rw [sortStrings_eq_nil_iff]
  induction ids with
  | nil => simp
  | cons tv t ih =>
    simp only [List.foldr_cons]
    by_cases hv : tv.2 = ""
    · rw [if_pos hv, ih]
      constructor
      · intro hh u hu
        rcases List.mem_cons.mp hu with rfl | hu
        · exact hv
        · exact hh u hu
      · intro hh u hu
        exact hh u (List.mem_cons_of_mem _ hu)
    · rw [if_neg hv]
      constructor
      · intro hh
        exact absurd hh (List.cons_ne_nil _ _)
      · intro hh
        exact absurd (hh tv (List.mem_cons_self _ _)) hv

theorem eqvCl_lift {r1 r2 : String → String → Prop}
    (h : ∀ z w, r1 z w → EqvCl r2 z w) : ∀ z w, EqvCl r1 z w → EqvCl r2 z w := by
  intro z w hzw
  induction hzw with
  | rel x y hr => exact h x y hr
  | refl x => exact EqvCl.refl x
  | symm x y _ ih => exact EqvCl.symm x y ih
  | trans x y v _ _ ih1 ih2 => exact EqvCl.trans x y v ih1 ih2

theorem eqvCl_congr {r1 r2 : String → String → Prop}
    (h : ∀ z w, (r1 z w ↔ r2 z w)) : ∀ z w, (EqvCl r1 z w ↔ EqvCl r2 z w) :=
  fun z w => ⟨eqvCl_lift (fun a b hab => EqvCl.rel a b ((h a b).mp hab)) z w,
              eqvCl_lift (fun a b hab => EqvCl.rel a b ((h a b).mpr hab)) z w⟩

namespace CanonicalSessionGenerator

theorem linkRel_perm {s : CanonicalSessionGenerator} {L1 L2 : List (String × String)}
    (hperm : L1.Perm L2) : ∀ z w, (linkRel s L1 z w ↔ linkRel s L2 z w) := by
  intro z w
  constructor
  · rintro (hr | ⟨p, hp, h1, h2, h3, h4⟩)
    · exact Or.inl hr
    · exact Or.inr ⟨p, hperm.mem_iff.mp hp, h1, h2, h3, h4⟩
  · rintro (hr | ⟨p, hp, h1, h2, h3, h4⟩)
    · exact Or.inl hr
    · exact Or.inr ⟨p, hperm.mem_iff.mpr hp, h1, h2, h3, h4⟩

theorem linkFold_wf : ∀ (L : List (String × String)) (s : CanonicalSessionGenerator),
    UnionFind.WF s.uf → UnionFind.WF (linkFoldCRE L s).uf := by
  intro L
  induction L with
  | nil => exact fun s h => h
  | cons p t ih =>
    intro s h
    exact ih _ (creApply_wf (CREOp.link p.1 p.2) h)

/-- Atoms tracked after a batch of links: the non-empty edge endpoints plus
the previously tracked atoms. -/
theorem linkFold_keys : ∀ (L : List (String × String)) (s : CanonicalSessionGenerator),
    UnionFind.WF s.uf → ∀ z,
    (z ∈ SMap.keys (linkFoldCRE L s).uf.parent ↔
      ((∃ p ∈ L, p.1 ≠ "" ∧ p.2 ≠ "" ∧ (z = p.1 ∨ z = p.2)) ∨
       z ∈ SMap.keys s.uf.parent)) := by
  intro L
  induction L with
  | nil =>
    intro s h z
    simp [linkFoldCRE]
  | cons p t ih =>
    intro s h z
    have hstep : linkFoldCRE (p :: t) s = linkFoldCRE t (s.linkIdentifiers p.1 p.2) := rfl
    have h' : UnionFind.WF (s.linkIdentifiers p.1 p.2).uf :=
      creApply_wf (CREOp.link p.1 p.2) h
    rw [hstep, ih _ h' z]
    by_cases hpa : p.1 = ""
    · rw [link_emptyArg (Or.inl hpa)]
      constructor
      · rintro (⟨q, hq, hq1, hq2, hq3⟩ | hz)
        · exact Or.inl ⟨q, List.mem_cons_of_mem _ hq, hq1, hq2, hq3⟩
        · exact Or.inr hz
      · rintro (⟨q, hq, hq1, hq2, hq3⟩ | hz)
        · rcases List.mem_cons.mp hq with rfl | hq
          · exact absurd hpa hq1
          · exact Or.inl ⟨q, hq, hq1, hq2, hq3⟩
        · exact Or.inr hz
    · by_cases hpb : p.2 = ""
      · rw [link_emptyArg (Or.inr hpb)]
        constructor
        · rintro (⟨q, hq, hq1, hq2, hq3⟩ | hz)
          · exact Or.inl ⟨q, List.mem_cons_of_mem _ hq, hq1, hq2, hq3⟩
          · exact Or.inr hz
        · rintro (⟨q, hq, hq1, hq2, hq3⟩ | hz)
          · rcases List.mem_cons.mp hq with rfl | hq
            · exact absurd hpb hq2
            · exact Or.inl ⟨q, hq, hq1, hq2, hq3⟩
          · exact Or.inr hz
      · have hk := (link_spec h hpa hpb).2.1 z
        constructor
        · rintro (⟨q, hq, hq1, hq2, hq3⟩ | hz)
          · exact Or.inl ⟨q, List.mem_cons_of_mem _ hq, hq1, hq2, hq3⟩
          · rcases hk.mp hz with hz | hz | hz
            · exact Or.inl ⟨p, List.mem_cons_self _ _, hpa, hpb, Or.inl hz⟩
            · exact Or.inl ⟨p, List.mem_cons_self _ _, hpa, hpb, Or.inr hz⟩
            · exact Or.inr hz
        · rintro (⟨q, hq, hq1, hq2, hq3⟩ | hz)
          · rcases List.mem_cons.mp hq with rfl | hq
            · refine Or.inr (hk.mpr ?_)
              rcases hq3 with h3 | h3
              · exact Or.inl h3
              · exact Or.inr (Or.inl h3)
            · exact Or.inl ⟨q, hq, hq1, hq2, hq3⟩
          · exact Or.inr (hk.mpr (Or.inr (Or.inr hz)))

/-- Classes after a batch of links: the equivalence closure of the starting
classes together with the batch's edges.  This makes order independence
manifest, since the closure depends only on the set of edges. -/
theorem linkFold_classes : ∀ (L : List (String × String)) (s : CanonicalSessionGenerator),
    UnionFind.WF s.uf → ∀ z w,
    (UnionFind.root (linkFoldCRE L s).uf.parent z =
       UnionFind.root (linkFoldCRE L s).uf.parent w ↔
     EqvCl (linkRel s L) z w) := by
  intro L
  induction L with
  | nil =>
    intro s h z w
    constructor
    · intro hzw
      exact EqvCl.rel z w (Or.inl hzw)
    · intro hzw
      induction hzw with
      | rel x y hr =>
        rcases hr with hr | ⟨p, hp, -⟩
        · exact hr
        · exact absurd hp (List.not_mem_nil p)
      | refl x => rfl
      | symm x y _ ih2 => exact ih2.symm
      | trans x y v _ _ ih2 ih3 => exact ih2.trans ih3
  | cons p t ih =>
    intro s h z w
    have hstep : linkFoldCRE (p :: t) s = linkFoldCRE t (s.linkIdentifiers p.1 p.2) := rfl
    have h' : UnionFind.WF (s.linkIdentifiers p.1 p.2).uf :=
      creApply_wf (CREOp.link p.1 p.2) h
    rw [hstep, ih _ h' z w]
    constructor
    · apply eqvCl_lift
      intro a b hab
      rcases hab with hab | ⟨q, hq, hq1, hq2, hq3, hq4⟩
      · by_cases hpa : p.1 = ""
        · rw [link_emptyArg (Or.inl hpa)] at hab
          exact EqvCl.rel a b (Or.inl hab)
        · by_cases hpb : p.2 = ""
          · rw [link_emptyArg (Or.inr hpb)] at hab
            exact EqvCl.rel a b (Or.inl hab)
          · rcases ((link_spec h hpa hpb).2.2 a b).mp hab with hr | ⟨hza, hwb⟩
            · exact EqvCl.rel a b (Or.inl hr)
            · have hpp : EqvCl (linkRel s (p :: t)) p.1 p.2 :=
                EqvCl.rel _ _ (Or.inr ⟨p, List.mem_cons_self _ _, hpa, hpb, rfl, rfl⟩)
              have hstep2 : ∀ c,
                  (UnionFind.root s.uf.parent c = UnionFind.root s.uf.parent p.1 ∨
                   UnionFind.root s.uf.parent c = UnionFind.root s.uf.parent p.2) →
                  EqvCl (linkRel s (p :: t)) c p.1 := by
                intro c hc
                rcases hc with hc | hc
                · exact EqvCl.rel _ _ (Or.inl hc)
                · exact EqvCl.trans _ _ _ (EqvCl.rel _ _ (Or.inl hc)) (EqvCl.symm _ _ hpp)
              exact EqvCl.trans _ _ _ (hstep2 a hza) (EqvCl.symm _ _ (hstep2 b hwb))
      · exact EqvCl.rel a b (Or.inr ⟨q, List.mem_cons_of_mem _ hq, hq1, hq2, hq3, hq4⟩)
    · apply eqvCl_lift
      intro a b hab
      rcases hab with hab | ⟨q, hq, hq1, hq2, hq3, hq4⟩
      · refine EqvCl.rel a b (Or.inl ?_)
        by_cases hpa : p.1 = ""
        · rw [link_emptyArg (Or.inl hpa)]
          exact hab
        · by_cases hpb : p.2 = ""
          · rw [link_emptyArg (Or.inr hpb)]
            exact hab
          · exact ((link_spec h hpa hpb).2.2 a b).mpr (Or.inl hab)
      · rcases List.mem_cons.mp hq with hqp | hq
        · refine EqvCl.rel a b (Or.inl ?_)
          rw [hq3, hq4, hqp]
          exact ((link_spec h (hqp ▸ hq1) (hqp ▸ hq2)).2.2 p.1 p.2).mpr
            (Or.inr ⟨Or.inl rfl, Or.inr rfl⟩)
        · exact EqvCl.rel a b (Or.inr ⟨q, hq, hq1, hq2, hq3, hq4⟩)

/-- The function `execCRE` on a pure link script is the link fold. -/
theorem execCRE_link_eq (cap : Nat) (L : List (String × String)) :
    execCRE cap (L.map (fun p => CREOp.link p.1 p.2)) = linkFoldCRE L (new cap) := by
  unfold execCRE linkFoldCRE
  rw [List.foldl_map]
  rfl

end CanonicalSessionGenerator

namespace SMap

/-! ### Structural-hash engine: edge-map specifications -/
theorem find?_insert_isSome {α : Type} (m : SMap α) (k : String) (val : α) {x : String}
    (h : (m.find? x).isSome) : ((m.insert k val).find? x).isSome := by
  by_cases he : x = k
  · subst he
    rw [find?_insert_self]
    rfl
  · rw [find?_insert_ne m val he]
    exact h

theorem mem_insert_elim {α : Type} {m : SMap α} {k : String} {v : α} {q : String × α}
    (h : q ∈ m.insert k v) : q = (k, v) ∨ q ∈ m := by
  induction m with
  | nil => simpa [insert] using h
  | cons kv t ih =>
    cases kv with
    | mk a b =>
      by_cases he : k = a
      · rw [insert, if_pos he] at h
        rcases List.mem_cons.mp h with rfl | h'
        · exact Or.inl rfl
        · exact Or.inr (List.mem_cons_of_mem _ h')
      · rw [insert, if_neg he] at h
        by_cases hl : strLtB k a = true
        · rw [if_pos hl] at h
          rcases List.mem_cons.mp h with rfl | h'
          · exact Or.inl rfl
          · exact Or.inr h'
        · rw [if_neg hl] at h
          rcases List.mem_cons.mp h with rfl | h'
          · exact Or.inr (List.mem_cons_self _ _)
          · rcases ih h' with h'' | h''
            · exact Or.inl h''
            · exact Or.inr (List.mem_cons_of_mem _ h'')

end SMap

namespace SessionGenerator

theorem goodVal_empty : GoodVal SMap.empty :=
  ⟨SMap.sorted_nil, fun q hq => absurd hq (List.not_mem_nil q)⟩

theorem goodVal_insert {m : SMap Bool} (h : GoodVal m) (k : String) :
    GoodVal (m.insert k true) := by
  refine ⟨SMap.sorted_insert k true h.1, ?_⟩
  intro q hq
  rcases SMap.mem_insert_elim hq with rfl | hq
  · rfl
  · exact h.2 q hq

theorem goodVal_of_find? {e : SMap (SMap Bool)} (h : EdgesWF e) (x : String) :
    GoodVal ((e.find? x).getD SMap.empty) := by
  cases hf : e.find? x with
  | none => exact goodVal_empty
  | some m =>
    have hm := SMap.find?_some_mem hf
    exact ⟨h.2.1 (x, m) hm, fun q hq => h.2.2 (x, m) hm q hq⟩

theorem edgesWF_insert {e : SMap (SMap Bool)} (h : EdgesWF e) (k : String) {m : SMap Bool}
    (hm : GoodVal m) : EdgesWF (e.insert k m) := by
  refine ⟨SMap.sorted_insert k m h.1, ?_, ?_⟩
  · intro pr hpr
    rcases SMap.mem_insert_elim hpr with rfl | hpr
    · exact hm.1
    · exact h.2.1 pr hpr
  · intro pr hpr
    rcases SMap.mem_insert_elim hpr with rfl | hpr
    · exact fun q hq => hm.2 q hq
    · exact h.2.2 pr hpr

theorem edgesWF_empty : EdgesWF SMap.empty :=
  ⟨SMap.sorted_nil, fun pr hpr => absurd hpr (List.not_mem_nil pr),
   fun pr hpr => absurd hpr (List.not_mem_nil pr)⟩

/-- The map-presence step of `addEdgeWithoutLock` keeps all adjacency
contents unchanged. -/
theorem ensure_spec {e : SMap (SMap Bool)} (h : EdgesWF e) (s : String) :
    EdgesWF (if (e.find? s).isSome then e else e.insert s SMap.empty) ∧
    (∀ x, (((if (e.find? s).isSome then e else e.insert s SMap.empty).find? x).getD
      SMap.empty) = ((e.find? x).getD SMap.empty)) ∧
    (∀ x, (((if (e.find? s).isSome then e else e.insert s SMap.empty).find? x).isSome ↔
      (x = s ∨ (e.find? x).isSome))) := by
  by_cases hs : (e.find? s).isSome
  · rw [if_pos hs]
    refine ⟨h, fun x => rfl, ?_⟩
    intro x
    constructor
    · exact Or.inr
    · rintro (rfl | hx)
      · exact hs
      · exact hx
  · rw [if_neg hs]
    rw [Option.not_isSome_iff_eq_none] at hs
    refine ⟨edgesWF_insert h s goodVal_empty, ?_, ?_⟩
    · intro x
      by_cases hx : x = s
      · subst hx
        rw [SMap.find?_insert_self, hs]
        rfl
      · rw [SMap.find?_insert_ne _ _ hx]
    · intro x
      by_cases hx : x = s
      · subst hx
        rw [SMap.find?_insert_self]
        simp
      · rw [SMap.find?_insert_ne _ _ hx]
        simp [hx]

/-- Value-level specification of `addEdgeWithoutLock`: both directed entries
are set to `true`, every other adjacency entry is untouched, and exactly the
two endpoints are added to the node set. -/
theorem addEdge_spec {e : SMap (SMap Bool)} (h : EdgesWF e) (s d : String) :
    EdgesWF (addEdgeWithoutLock e s d) ∧
    (∀ x, (((addEdgeWithoutLock e s d).find? x).isSome ↔
      (x = s ∨ x = d ∨ (e.find? x).isSome))) ∧
    (∀ x v, (((addEdgeWithoutLock e s d).find? x).getD SMap.empty).find? v =
      (if (x = s ∧ v = d) ∨ (x = d ∧ v = s) then some true
       else ((e.find? x).getD SMap.empty).find? v)) := by
  obtain ⟨w1, hA1, hS1⟩ := ensure_spec h s
  set e1 := if (e.find? s).isSome then e else e.insert s SMap.empty with he1
  obtain ⟨w2, hA2, hS2⟩ := ensure_spec w1 d
  set e2 := if (e1.find? d).isSome then e1 else e1.insert d SMap.empty with he2
  have hA : ∀ x, ((e2.find? x).getD SMap.empty) = ((e.find? x).getD SMap.empty) := by
    intro x
    rw [hA2 x, hA1 x]
  have hS : ∀ x, ((e2.find? x).isSome ↔ (x = s ∨ x = d ∨ (e.find? x).isSome)) := by
    intro x
    rw [hS2 x, hS1 x]
    constructor
    · rintro (hx | hx | hx)
      · exact Or.inr (Or.inl hx)
      · exact Or.inl hx
      · exact Or.inr (Or.inr hx)
    · rintro (hx | hx | hx)
      · exact Or.inr (Or.inl hx)
      · exact Or.inl hx
      · exact Or.inr (Or.inr hx)
  set mS := ((e2.find? s).getD SMap.empty).insert d true with hmS
  set e3 := e2.insert s mS with he3
  set mD := ((e3.find? d).getD SMap.empty).insert s true with hmD
  have he4 : addEdgeWithoutLock e s d = e3.insert d mD := rfl
  rw [he4]
  have hgS : GoodVal mS := by
    rw [hmS]
    exact goodVal_insert (goodVal_of_find? w2 s) d
  have hw3 : EdgesWF e3 := by
    rw [he3]
    exact edgesWF_insert w2 s hgS
  have hgD : GoodVal mD := by
    rw [hmD]
    exact goodVal_insert (goodVal_of_find? hw3 d) s
  refine ⟨?_, ?_, ?_⟩
  · exact edgesWF_insert hw3 d hgD
  · intro x
    by_cases hx : x = d
    · rw [hx, SMap.find?_insert_self]
      simp
    · rw [SMap.find?_insert_ne _ _ hx]
      by_cases hxs : x = s
      · rw [hxs, he3, SMap.find?_insert_self]
        simp
      · rw [he3, SMap.find?_insert_ne _ _ hxs, hS x]
  · intro x v
    by_cases hx : x = d
    · rw [hx, SMap.find?_insert_self, Option.getD_some]
      by_cases hv : v = s
      · rw [hv, hmD, SMap.find?_insert_self, if_pos (Or.inr ⟨rfl, rfl⟩)]
      · rw [hmD, SMap.find?_insert_ne _ _ hv]
        by_cases hds : d = s
        · rw [hds, he3, SMap.find?_insert_self, Option.getD_some, hmS]
          have hvd : ¬(v = d) := by
            rw [hds]
            exact hv
          rw [SMap.find?_insert_ne _ _ hvd, hA s]
          rw [if_neg ?hc1]
          case hc1 =>
            rintro (⟨-, h2⟩ | ⟨-, h2⟩) <;> exact hv h2
        · rw [he3, SMap.find?_insert_ne _ _ hds, hA d]
          rw [if_neg ?hc2]
          case hc2 =>
            rintro (⟨h1, -⟩ | ⟨-, h2⟩)
            · exact hds h1
            · exact hv h2
    · rw [SMap.find?_insert_ne _ _ hx]
      by_cases hxs : x = s
      · rw [hxs, he3, SMap.find?_insert_self, Option.getD_some, hmS]
        by_cases hv : v = d
        · rw [hv, SMap.find?_insert_self, if_pos (Or.inl ⟨rfl, rfl⟩)]
        · rw [SMap.find?_insert_ne _ _ hv, hA s]
          rw [if_neg ?hc3]
          case hc3 =>
            rintro (⟨-, h2⟩ | ⟨h1, -⟩)
            · exact hv h2
            · exact hx (hxs.trans h1)
      · rw [he3, SMap.find?_insert_ne _ _ hxs, hA x]
        rw [if_neg ?hc4]
        case hc4 =>
          rintro (⟨h1, -⟩ | ⟨h1, -⟩)
          · exact hxs h1
          · exact hx h1

/-- The inner `GetSessionKey` edge loop for one source identifier. -/
theorem edgeFold_spec : ∀ (xs : List String) (e : SMap (SMap Bool)) (x : String), EdgesWF e →
    EdgesWF (xs.foldl (fun acc y => addEdgeWithoutLock acc x y) e) ∧
    (∀ u, (e.find? u).isSome →
      (((xs.foldl (fun acc y => addEdgeWithoutLock acc x y) e).find? u).isSome)) ∧
    (∀ u v, ((e.find? u).getD SMap.empty).find? v = some true →
      (((xs.foldl (fun acc y => addEdgeWithoutLock acc x y) e).find? u).getD
        SMap.empty).find? v = some true) ∧
    (∀ y ∈ xs,
      (((xs.foldl (fun acc y => addEdgeWithoutLock acc x y) e).find? x).getD
        SMap.empty).find? y = some true ∧
      (((xs.foldl (fun acc y => addEdgeWithoutLock acc x y) e).find? y).getD
        SMap.empty).find? x = some true) := by
  intro xs
  induction xs with
  | nil =>
    intro e x h
    exact ⟨h, fun u hu => hu, fun u v hv => hv, fun y hy => absurd hy (List.not_mem_nil y)⟩
  | cons y ys ih =>
    intro e x h
    obtain ⟨a1, a2, a3⟩ := addEdge_spec h x y
    obtain ⟨i1, i2, i3, i4⟩ := ih (addEdgeWithoutLock e x y) x a1
    refine ⟨i1, ?_, ?_, ?_⟩
    · intro u hu
      exact i2 u ((a2 u).mpr (Or.inr (Or.inr hu)))
    · intro u v hv
      refine i3 u v ?_
      rw [a3 u v]
      by_cases hcd : (u = x ∧ v = y) ∨ (u = y ∧ v = x)
      · rw [if_pos hcd]
      · rw [if_neg hcd]
        exact hv
    · intro z hz
      rcases List.mem_cons.mp hz with hzy | hz
      · constructor
        · refine i3 x z ?_
          rw [a3 x z, hzy, if_pos (Or.inl ⟨rfl, rfl⟩)]
        · refine i3 z x ?_
          rw [a3 z x, hzy, if_pos (Or.inr ⟨rfl, rfl⟩)]
      · exact i4 z hz

/-- The function `addAllPairs` links every two distinct listed identifiers, preserves all
existing adjacency, and keeps the edge map well-formed. -/
theorem addAllPairs_spec : ∀ (l : List String) (e : SMap (SMap Bool)), EdgesWF e →
    EdgesWF (addAllPairs e l) ∧
    (∀ u, (e.find? u).isSome → (((addAllPairs e l).find? u).isSome)) ∧
    (∀ u v, ((e.find? u).getD SMap.empty).find? v = some true →
      (((addAllPairs e l).find? u).getD SMap.empty).find? v = some true) ∧
    (∀ u ∈ l, (((addAllPairs e l).find? u).isSome)) ∧
    (∀ u ∈ l, ∀ v ∈ l, u ≠ v →
      (((addAllPairs e l).find? u).getD SMap.empty).find? v = some true) := by
  intro l
  induction l with
  | nil =>
    intro e h
    exact ⟨h, fun u hu => hu, fun u v hv => hv,
      fun u hu => absurd hu (List.not_mem_nil u),
      fun u hu => absurd hu (List.not_mem_nil u)⟩
  | cons x xs ih =>
    intro e h
    obtain ⟨n1, nA, nS⟩ := ensure_spec h x
    obtain ⟨f1, f2, f3, f4⟩ := edgeFold_spec xs _ x n1
    obtain ⟨p1, p2, p3, p4, p5⟩ := ih _ f1
    refine ⟨p1, ?_, ?_, ?_, ?_⟩
    · intro u hu
      exact p2 u (f2 u ((nS u).mpr (Or.inr hu)))
    · intro u v hv
      refine p3 u v (f3 u v ?_)
      rw [nA u]
      exact hv
    · intro u hu
      rcases List.mem_cons.mp hu with hux | hu
      · refine p2 u (f2 u ((nS u).mpr (Or.inl hux)))
      · exact p4 u hu
    · intro u hu v hv huv
      rcases List.mem_cons.mp hu with hux | hu
      · rcases List.mem_cons.mp hv with hvx | hv
        · exact absurd (hux.trans hvx.symm) huv
        · refine p3 u v ?_
          rw [hux]
          exact (f4 v hv).1
      · rcases List.mem_cons.mp hv with hvx | hv
        · refine p3 u v ?_
          rw [hvx]
          exact (f4 u hu).2
        · exact p5 u hu v hv huv

/-- The neighbor fold of one BFS step only adds visited marks. -/
theorem visFold_mono (nbrs : List String) :
    ∀ (acc : SMap Bool × List String),
      ((∀ v, (acc.1.find? v).isSome →
        (((nbrs.foldl (fun (acc : SMap Bool × List String) nb =>
          if (acc.1.find? nb).isSome then acc
          else (acc.1.insert nb true, acc.2 ++ [nb])) acc).1.find? v).isSome)) ∧
      (∀ v ∈ nbrs,
        (((nbrs.foldl (fun (acc : SMap Bool × List String) nb =>
          if (acc.1.find? nb).isSome then acc
          else (acc.1.insert nb true, acc.2 ++ [nb])) acc).1.find? v).isSome))) := by
  induction nbrs with
  | nil =>
    intro acc
    exact ⟨fun v hv => hv, fun v hv => absurd hv (List.not_mem_nil v)⟩
  | cons nb t ih =>
    intro acc
    have hstep : ∀ v, ((acc.1.find? v).isSome ∨ v = nb) →
        ((((if (acc.1.find? nb).isSome then acc
           else (acc.1.insert nb true, acc.2 ++ [nb])) : SMap Bool × List String).1.find?
             v).isSome) := by
      intro v hv
      by_cases hnb : (acc.1.find? nb).isSome
      · rw [if_pos hnb]
        rcases hv with hv | hveq
        · exact hv
        · rw [hveq]
          exact hnb
      · rw [if_neg hnb]
        rcases hv with hv | hveq
        · exact SMap.find?_insert_isSome _ _ _ hv
        · show ((acc.1.insert nb true).find? v).isSome
          rw [hveq, SMap.find?_insert_self]
          rfl
    refine ⟨?_, ?_⟩
    · intro v hv
      exact (ih _).1 v (hstep v (Or.inl hv))
    · intro v hv
      rcases List.mem_cons.mp hv with hveq | hv
      · exact (ih _).1 v (hstep v (Or.inr hveq))
      · exact (ih _).2 v hv

/-- BFS never unmarks a visited node. -/
theorem bfsAux_mono (e : SMap (SMap Bool)) :
    ∀ (fuel : Nat) (q : List String) (visited : SMap Bool) (v : String),
      (visited.find? v).isSome → (((bfsAux e fuel q visited).find? v).isSome) := by
  intro fuel
  induction fuel with
  | zero =>
    intro q visited v h
    exact h
  | succ n ih =>
    intro q visited v h
    cases q with
    | nil => exact h
    | cons current rest =>
      exact ih _ _ v
        ((visFold_mono (SMap.keys ((e.find? current).getD SMap.empty)) (visited, [])).1 v h)

/-- With positive fuel, the start node's neighbors are visited. -/
theorem bfsAux_head (e : SMap (SMap Bool)) (n : Nat) (current : String) (rest : List String)
    (visited : SMap Bool) {v : String}
    (hv : v ∈ SMap.keys ((e.find? current).getD SMap.empty)) :
    (((bfsAux e (n + 1) (current :: rest) visited).find? v).isSome) := by
  exact bfsAux_mono e n _ _ v
    ((visFold_mono (SMap.keys ((e.find? current).getD SMap.empty)) (visited, [])).2 v hv)

/-- A node is always in its own connected component. -/
theorem component_start (sg : SessionGenerator) (id : String) :
    ((sg.findConnectedComponentWithoutLock id).find? id).isSome = true := by
  unfold findConnectedComponentWithoutLock
  by_cases hh : (sg.edges.find? id).isSome
  · rw [if_pos hh]
    refine bfsAux_mono sg.edges _ _ _ id ?_
    rw [SMap.find?_insert_self]
    rfl
  · rw [if_neg hh]
    rw [SMap.find?_insert_self]
    rfl

/-- Direct neighbors are in the connected component. -/
theorem component_nbr {sg : SessionGenerator} {id v : String}
    (hv : v ∈ SMap.keys ((sg.edges.find? id).getD SMap.empty)) :
    ((sg.findConnectedComponentWithoutLock id).find? v).isSome = true := by
  have hh : (sg.edges.find? id).isSome := by
    by_cases hh : (sg.edges.find? id).isSome
    · exact hh
    · exfalso
      rw [Option.not_isSome_iff_eq_none] at hh
      rw [hh] at hv
      exact absurd hv (List.not_mem_nil v)
  unfold findConnectedComponentWithoutLock
  rw [if_pos hh]
  exact bfsAux_head sg.edges (SMap.size sg.edges + 1) id [] _ hv

/-- Equation lemma: lookup that normalizes to nothing. -/
theorem sheGetKey_anon {sg : SessionGenerator} {ids : Identifiers}
    (hn : normalizeIdentifiers ids = []) :
    sg.getSessionKey ids = (generateAnonymousSessionKey, sg) := by
  unfold getSessionKey
  rw [hn]

/-- Equation lemma: the cache-hit fast path returns immediately. -/
theorem sheGetKey_hit {sg : SessionGenerator} {ids : Identifiers} {id0 : String}
    {rest : List String} {k : String} (hn : normalizeIdentifiers ids = id0 :: rest)
    (hc : (sg.cache.get id0).1 = some k) :
    sg.getSessionKey ids = (k, { sg with cache := (sg.cache.get id0).2 }) := by
  unfold getSessionKey
  rw [hn]
  simp only [hc]

/-- Equation lemma: the cache-miss path adds all pairwise edges, recomputes
the component hash and refills the cache. -/
theorem sheGetKey_miss {sg : SessionGenerator} {ids : Identifiers} {id0 : String}
    {rest : List String} (hn : normalizeIdentifiers ids = id0 :: rest)
    (hc : (sg.cache.get id0).1 = none) :
    sg.getSessionKey ids =
      (let edges1 := addAllPairs sg.edges (id0 :: rest)
       let sg1 : SessionGenerator :=
         { sg with edges := edges1, cache := (sg.cache.get id0).2 }
       let component := sg1.findConnectedComponentWithoutLock id0
       let ch := sg1.computeComponentCanonicalHash component
       let cache2 := (SMap.keys component).foldl
         (fun (c : LRU) nodeID => c.add nodeID ch.1) sg1.cache
       (ch.1, { edges := edges1, cache := cache2, hashCache := ch.2 })) := by
  unfold getSessionKey
  rw [hn]
  simp only [hc]

/-- Every public operation keeps the edge map well-formed. -/
theorem sheApply_edgesWF : ∀ (op : SHEOp) {s : SessionGenerator},
    EdgesWF s.edges → EdgesWF (op.apply s).edges := by
  intro op s h
  cases op with
  | getKey ids =>
    show EdgesWF (s.getSessionKey ids).2.edges
    cases hn : normalizeIdentifiers ids with
    | nil =>
      rw [sheGetKey_anon hn]
      exact h
    | cons id0 rest =>
      cases hc : (s.cache.get id0).1 with
      | some k =>
        rw [sheGetKey_hit hn hc]
        exact h
      | none =>
        rw [sheGetKey_miss hn hc]
        exact (addAllPairs_spec (id0 :: rest) s.edges h).1
  | link id1 id2 =>
    show EdgesWF (s.linkIdentifiers id1 id2).edges
    by_cases he : id1 = "" ∨ id2 = ""
    · simp only [linkIdentifiers]
      rw [if_pos he]
      exact h
    · simp only [linkIdentifiers]
      rw [if_neg he]
      exact (addEdge_spec h id1 id2).1
  | areLinked id1 id2 => exact h
  | sessionSize id => exact h
  | allSessions => exact h
  | stats => exact h
  | clearCache => exact h
  | clear => exact edgesWF_empty

/-- Any sequence of public calls from a fresh engine keeps the edge map
well-formed. -/
theorem execSHE_edgesWF (cap : Nat) (ops : List SHEOp) : EdgesWF (execSHE cap ops).edges := by
  suffices hgen : ∀ (l : List SHEOp) (s : SessionGenerator), EdgesWF s.edges →
      EdgesWF ((l.foldl (fun s op => op.apply s) s).edges) by
    exact hgen ops (new cap) edgesWF_empty
  intro l
  induction l with
  | nil => exact fun s h => h
  | cons op t ih => exact fun s h => ih _ (sheApply_edgesWF op h)

/-- The function `AreLinked` answers `true` on identical or directly adjacent non-empty
atoms. -/
theorem sheAreLinked_true {sg : SessionGenerator} {u v : String}
    (hne : ¬(u = "" ∨ v = ""))
    (hadj : u = v ∨ (((sg.edges.find? u).getD SMap.empty).find? v = some true)) :
    sg.areLinked u v = true := by
  unfold areLinked
  rw [if_neg hne]
  rcases hadj with huv | hadj
  · rw [huv, component_start]
  · have hvk : v ∈ SMap.keys ((sg.edges.find? u).getD SMap.empty) :=
      SMap.mem_keys_iff_find?.mpr (by rw [hadj]; rfl)
    rw [component_nbr hvk]

/-- On a cache miss, `GetSessionKey` links all normalized atoms pairwise:
immediately afterwards `AreLinked` answers `true` on every pair of them. -/
theorem sheGetKey_links {sg : SessionGenerator} (h : EdgesWF sg.edges)
    {ids : Identifiers} {id0 : String} {rest : List String}
    (hn : normalizeIdentifiers ids = id0 :: rest)
    (hc : (sg.cache.get id0).1 = none) :
    ∀ u ∈ id0 :: rest, ∀ v ∈ id0 :: rest,
      (sg.getSessionKey ids).2.areLinked u v = true := by
  intro u hu v hv
  have hu' : u ≠ "" := @normalize_mem_ne_empty ids u (by rw [hn]; exact hu)
  have hv' : v ≠ "" := @normalize_mem_ne_empty ids v (by rw [hn]; exact hv)
  have hne : ¬(u = "" ∨ v = "") := by
    rintro (hh | hh)
    · exact hu' hh
    · exact hv' hh
  have hedges : (sg.getSessionKey ids).2.edges = addAllPairs sg.edges (id0 :: rest) := by
    rw [sheGetKey_miss hn hc]
  obtain ⟨-, -, -, -, p5⟩ := addAllPairs_spec (id0 :: rest) sg.edges h
  apply sheAreLinked_true hne
  by_cases huv : u = v
  · exact Or.inl huv
  · refine Or.inr ?_
    rw [hedges]
    exact p5 u hu v hv huv

/-! ### Structural-hash engine: link-order independence -/
set_option maxHeartbeats 1000000 in
/-- Two `addEdgeWithoutLock` calls commute (as map values). -/
theorem addEdge_comm {e : SMap (SMap Bool)} (h : EdgesWF e) (a b c d : String) :
    addEdgeWithoutLock (addEdgeWithoutLock e a b) c d =
      addEdgeWithoutLock (addEdgeWithoutLock e c d) a b := by
  obtain ⟨w1, s1, v1⟩ := addEdge_spec h a b
  obtain ⟨w1', s1', v1'⟩ := addEdge_spec w1 c d
  obtain ⟨w2, s2, v2⟩ := addEdge_spec h c d
  obtain ⟨w2', s2', v2'⟩ := addEdge_spec w2 a b
  have hS1 : ∀ x, (((addEdgeWithoutLock (addEdgeWithoutLock e a b) c d).find? x).isSome ↔
      (x = c ∨ x = d ∨ x = a ∨ x = b ∨ (e.find? x).isSome)) := by
    intro x
    rw [s1' x, s1 x]
  have hS2 : ∀ x, (((addEdgeWithoutLock (addEdgeWithoutLock e c d) a b).find? x).isSome ↔
      (x = a ∨ x = b ∨ x = c ∨ x = d ∨ (e.find? x).isSome)) := by
    intro x
    rw [s2' x, s2 x]
  have hV1 : ∀ x v,
      (((addEdgeWithoutLock (addEdgeWithoutLock e a b) c d).find? x).getD
        SMap.empty).find? v =
      (if (x = c ∧ v = d) ∨ (x = d ∧ v = c) then some true
       else if (x = a ∧ v = b) ∨ (x = b ∧ v = a) then some true
       else ((e.find? x).getD SMap.empty).find? v) := by
    intro x v
    rw [v1' x v, v1 x v]
  have hV2 : ∀ x v,
      (((addEdgeWithoutLock (addEdgeWithoutLock e c d) a b).find? x).getD
        SMap.empty).find? v =
      (if (x = a ∧ v = b) ∨ (x = b ∧ v = a) then some true
       else if (x = c ∧ v = d) ∨ (x = d ∧ v = c) then some true
       else ((e.find? x).getD SMap.empty).find? v) := by
    intro x v
    rw [v2' x v, v2 x v]
  apply SMap.ext_sorted w1'.1 w2'.1
  intro x
  cases hx1 : (addEdgeWithoutLock (addEdgeWithoutLock e a b) c d).find? x with
  | none =>
    cases hx2 : (addEdgeWithoutLock (addEdgeWithoutLock e c d) a b).find? x with
    | none => rfl
    | some m2 =>
      exfalso
      have hs2 : ((addEdgeWithoutLock (addEdgeWithoutLock e c d) a b).find? x).isSome := by
        rw [hx2]
        rfl
      have hs1 : ((addEdgeWithoutLock (addEdgeWithoutLock e a b) c d).find? x).isSome := by
        rw [hS1 x]
        have := (hS2 x).mp hs2
        tauto
      rw [hx1] at hs1
      simp at hs1
  | some m1 =>
    have hs1 : ((addEdgeWithoutLock (addEdgeWithoutLock e a b) c d).find? x).isSome := by
      rw [hx1]
      rfl
    have hs2 : ((addEdgeWithoutLock (addEdgeWithoutLock e c d) a b).find? x).isSome := by
      rw [hS2 x]
      have := (hS1 x).mp hs1
      tauto
    cases hx2 : (addEdgeWithoutLock (addEdgeWithoutLock e c d) a b).find? x with
    | none =>
      rw [hx2] at hs2
      simp at hs2
    | some m2 =>
      have hm1 : SMap.Sorted m1 := w1'.2.1 (x, m1) (SMap.find?_some_mem hx1)
      have hm2 : SMap.Sorted m2 := w2'.2.1 (x, m2) (SMap.find?_some_mem hx2)
      congr 1
      apply SMap.ext_sorted hm1 hm2
      intro v
      have e1 := hV1 x v
      rw [hx1, Option.getD_some] at e1
      have e2 := hV2 x v
      rw [hx2, Option.getD_some] at e2
      rw [e1, e2]
      by_cases hcd : (x = c ∧ v = d) ∨ (x = d ∧ v = c)
      · rw [if_pos hcd]
        by_cases hab : (x = a ∧ v = b) ∨ (x = b ∧ v = a)
        · rw [if_pos hab]
        · rw [if_neg hab, if_pos hcd]
      · rw [if_neg hcd]
        by_cases hab : (x = a ∧ v = b) ∨ (x = b ∧ v = a)
        · rw [if_pos hab, if_pos hab]
        · rw [if_neg hab, if_neg hab, if_neg hcd]

/-- One step of a link script on the edge map. -/
theorem edgeStep_wf {e : SMap (SMap Bool)} (h : EdgesWF e) (p : String × String) :
    EdgesWF (if p.1 = "" ∨ p.2 = "" then e else addEdgeWithoutLock e p.1 p.2) := by
  by_cases hp : p.1 = "" ∨ p.2 = ""
  · rw [if_pos hp]
    exact h
  · rw [if_neg hp]
    exact (addEdge_spec h p.1 p.2).1

/-- Folding a permuted batch of edges over a well-formed edge map yields the
same map. -/
theorem edgesFold_perm {L1 L2 : List (String × String)} (hperm : L1.Perm L2) :
    ∀ (e : SMap (SMap Bool)), EdgesWF e →
    L1.foldl (fun acc p => if p.1 = "" ∨ p.2 = "" then acc
      else addEdgeWithoutLock acc p.1 p.2) e =
    L2.foldl (fun acc p => if p.1 = "" ∨ p.2 = "" then acc
      else addEdgeWithoutLock acc p.1 p.2) e := by
  induction hperm with
  | nil => exact fun e h => rfl
  | cons x _ ih =>
    intro e h
    rw [List.foldl_cons, List.foldl_cons]
    exact ih _ (edgeStep_wf h x)
  | swap x y l =>
    intro e h
    rw [List.foldl_cons, List.foldl_cons, List.foldl_cons, List.foldl_cons]
    have hcomm :
        (if x.1 = "" ∨ x.2 = ""
         then (if y.1 = "" ∨ y.2 = "" then e else addEdgeWithoutLock e y.1 y.2)
         else addEdgeWithoutLock
           (if y.1 = "" ∨ y.2 = "" then e else addEdgeWithoutLock e y.1 y.2) x.1 x.2) =
        (if y.1 = "" ∨ y.2 = ""
         then (if x.1 = "" ∨ x.2 = "" then e else addEdgeWithoutLock e x.1 x.2)
         else addEdgeWithoutLock
           (if x.1 = "" ∨ x.2 = "" then e else addEdgeWithoutLock e x.1 x.2) y.1 y.2) := by
      by_cases hx : x.1 = "" ∨ x.2 = ""
      · by_cases hy : y.1 = "" ∨ y.2 = ""
        · rw [if_pos hx, if_pos hy, if_pos hy, if_pos hx]
        · rw [if_pos hx, if_neg hy, if_neg hy, if_pos hx]
      · by_cases hy : y.1 = "" ∨ y.2 = ""
        · rw [if_neg hx, if_pos hy, if_pos hy, if_neg hx]
        · rw [if_neg hx, if_neg hy, if_neg hy, if_neg hx]
          exact addEdge_comm h y.1 y.2 x.1 x.2
    rw [hcomm]
  | trans _ _ ih1 ih2 =>
    intro e h
    rw [ih1 e h]
    exact ih2 e h

/-- Erasing keys from the empty hash cache leaves it empty. -/
theorem eraseFold_nil : ∀ (l : List String),
    (l.foldl (fun (hc : SMap String) n => hc.erase n) SMap.empty) = SMap.empty := by
  intro l
  induction l with
  | nil => rfl
  | cons n t ih => exact ih

/-- A pure link script touches only the edge map: the LRU stays empty and
the hash cache stays empty. -/
theorem linkFoldSHE_state (cap : Nat) :
    ∀ (L : List (String × String)) (e : SMap (SMap Bool)),
    (L.foldl (fun (s : SessionGenerator) p => s.linkIdentifiers p.1 p.2)
      ({ edges := e, cache := LRU.new cap, hashCache := SMap.empty } : SessionGenerator)) =
    ({ edges := (L.foldl (fun acc p =>
          (if p.1 = "" ∨ p.2 = "" then acc else addEdgeWithoutLock acc p.1 p.2)) e),
       cache := LRU.new cap, hashCache := SMap.empty } : SessionGenerator) := by
  intro L
  induction L with
  | nil => intro e; rfl
  | cons p t ih =>
    intro e
    have hstep : ({ edges := e, cache := LRU.new cap, hashCache := SMap.empty } :
          SessionGenerator).linkIdentifiers p.1 p.2 =
        ({ edges := (if p.1 = "" ∨ p.2 = "" then e else addEdgeWithoutLock e p.1 p.2),
           cache := LRU.new cap, hashCache := SMap.empty } : SessionGenerator) := by
      by_cases he : p.1 = "" ∨ p.2 = ""
      · simp only [linkIdentifiers]
        rw [if_pos he, if_pos he]
      · simp only [linkIdentifiers]
        rw [if_neg he, if_neg he, eraseFold_nil]
        rfl
    rw [List.foldl_cons, List.foldl_cons, hstep]
    exact ih _

/-- The function `execSHE` on a pure link script is the link fold. -/
theorem execSHE_link_eq (cap : Nat) (L : List (String × String)) :
    execSHE cap (L.map (fun p => SHEOp.link p.1 p.2)) =
      L.foldl (fun (s : SessionGenerator) p => s.linkIdentifiers p.1 p.2) (new cap) := by
  unfold execSHE
  rw [List.foldl_map]
  rfl

/-- Permuted link scripts drive the structural-hash engine to the same
state. -/
theorem execSHE_link_perm (cap : Nat) {L1 L2 : List (String × String)}
    (hperm : L1.Perm L2) :
    execSHE cap (L1.map (fun p => SHEOp.link p.1 p.2)) =
      execSHE cap (L2.map (fun p => SHEOp.link p.1 p.2)) := by
  rw [execSHE_link_eq, execSHE_link_eq]
  have hnew : (new cap) =
      ({ edges := SMap.empty, cache := LRU.new cap, hashCache := SMap.empty } :
        SessionGenerator) := rfl
  rw [hnew, linkFoldSHE_state cap L1 SMap.empty, linkFoldSHE_state cap L2 SMap.empty,
    edgesFold_perm hperm SMap.empty edgesWF_empty]

end SessionGenerator

theorem shaRound_length (st : List Nat) (kw : Nat × Nat) :
    (shaRound st kw).length = st.length := by
  rcases st with _ | ⟨a, _ | ⟨b, _ | ⟨c, _ | ⟨d, _ | ⟨e, _ | ⟨f, _ | ⟨g, _ | ⟨h, _ | ⟨i, t⟩⟩⟩⟩⟩⟩⟩⟩⟩ <;> rfl

theorem shaFold_length : ∀ (l : List (Nat × Nat)) (h : List Nat),
    (l.foldl (fun st kw => shaRound st (kw.1, kw.2)) h).length = h.length := by
  intro l
  induction l with
  | nil => exact fun h => rfl
  | cons kw t ih =>
    intro h
    rw [List.foldl_cons, ih, shaRound_length]

theorem shaBlock_length (h : List Nat) (block : List Nat) :
    (shaBlock h block).length = h.length := by
  unfold shaBlock
  rw [List.length_map, List.length_zip, shaFold_length]
  exact Nat.min_self _

theorem chunksFold_length : ∀ (cs : List (List Nat)) (h : List Nat),
    (cs.foldl shaBlock h).length = h.length := by
  intro cs
  induction cs with
  | nil => exact fun h => rfl
  | cons c t ih =>
    intro h
    rw [List.foldl_cons, ih, shaBlock_length]

theorem wordsToBytes_length : ∀ (ws : List Nat), (wordsToBytes ws).length = 4 * ws.length := by
  intro ws
  induction ws with
  | nil => rfl
  | cons w t ih =>
    rw [wordsToBytes]
    simp only [List.length_cons, ih]
    omega

/-- SHA-256 digests are 32 bytes. -/
theorem sha256_length (msg : List Nat) : (sha256 msg).length = 32 := by
  unfold sha256
  rw [wordsToBytes_length, chunksFold_length]
  rfl

theorem bytesToHex_length : ∀ (bs : List Nat), (bytesToHex bs).data.length = 2 * bs.length := by
  intro bs
  induction bs with
  | nil => rfl
  | cons b t ih =>
    have h1 : (bytesToHex (b :: t)).data =
        hexDigit (b >>> 4) :: hexDigit (b % 16) :: (bytesToHex t).data := rfl
    rw [h1]
    simp only [List.length_cons, ih]
    omega

theorem getD_mem_of_mem {l : List Char} {d : Char} (hd : d ∈ l) (n : Nat) :
    l.getD n d ∈ l := by
  show (l.get? n).getD d ∈ l
  cases h : l.get? n with
  | none => exact hd
  | some a =>
    show a ∈ l
    exact List.get?_mem h

theorem isHexLower_hexDigit (n : Nat) : isHexLower (hexDigit n) = true := by
  unfold isHexLower hexDigit
  apply decide_eq_true
  exact getD_mem_of_mem (by decide) n

theorem bytesToHex_hex : ∀ (bs : List Nat) (c : Char),
    c ∈ (bytesToHex bs).data → isHexLower c = true := by
  intro bs
  induction bs with
  | nil =>
    intro c hc
    exact absurd hc (List.not_mem_nil c)
  | cons b t ih =>
    intro c hc
    have h1 : (bytesToHex (b :: t)).data =
        hexDigit (b >>> 4) :: hexDigit (b % 16) :: (bytesToHex t).data := rfl
    rw [h1] at hc
    rcases List.mem_cons.mp hc with rfl | hc
    · exact isHexLower_hexDigit _
    · rcases List.mem_cons.mp hc with rfl | hc
      · exact isHexLower_hexDigit _
      · exact ih c hc

/-- Any `"sess_" + hex(sha256(...)[:8])` string is a well-formed key. -/
theorem wellFormedKey_sess_hex (msg : List Nat) :
    wellFormedKey ("sess_" ++ bytesToHex ((sha256 msg).take 8)) = true := by
  have hlen8 : ((sha256 msg).take 8).length = 8 := by
    rw [List.length_take, sha256_length]
    decide
  have hdata : ("sess_" ++ bytesToHex ((sha256 msg).take 8)).data =
      "sess_".data ++ (bytesToHex ((sha256 msg).take 8)).data := String.data_append _ _
  have h5 : ("sess_".data).length = 5 := rfl
  unfold wellFormedKey
  rw [hdata]
  simp only [Bool.and_eq_true, decide_eq_true_eq, List.all_eq_true]
  have hdrop : ("sess_".data ++ (bytesToHex ((sha256 msg).take 8)).data).drop 5 =
      (bytesToHex ((sha256 msg).take 8)).data := by
    rw [← h5, List.drop_left]
  refine ⟨⟨?_, ?_⟩, ?_⟩
  · rw [← h5, List.take_left]
  · rw [List.length_append, bytesToHex_length, hlen8, h5]
  · intro c hc
    rw [hdrop] at hc
    exact bytesToHex_hex _ c hc

/-- Keys produced by the canonical engine's generator are well-formed. -/
theorem wfKey_generate (canonical : String) :
    wellFormedKey (CanonicalSessionGenerator.generateSessionKey canonical) = true :=
  wellFormedKey_sess_hex (utf8 canonical)

theorem wfKey_anon_false : wellFormedKey "sess_anonymous" = false := by decide

namespace SessionGenerator

/-- The connected component of a node is never empty (it contains the node). -/
theorem component_ne_nil (sg : SessionGenerator) (id : String) :
    ¬(sg.findConnectedComponentWithoutLock id).length = 0 := by
  intro hh
  have h0 := component_start sg id
  rw [List.length_eq_zero] at hh
  rw [hh] at h0
  simp [SMap.find?] at h0

theorem insertFold_vals : ∀ (l : List String) (hc : SMap String) (v : String),
    (∀ pr ∈ hc, wellFormedKey pr.2 = true) → wellFormedKey v = true →
    ∀ pr ∈ (l.foldl (fun (hc : SMap String) nodeID => hc.insert nodeID v) hc),
      wellFormedKey pr.2 = true := by
  intro l
  induction l with
  | nil => exact fun hc v h hv pr hpr => h pr hpr
  | cons n t ih =>
    intro hc v h hv pr hpr
    refine ih _ v ?_ hv pr hpr
    intro q hq
    rcases SMap.mem_insert_elim hq with rfl | hq
    · exact hv
    · exact h q hq

/-- The function `computeComponentCanonicalHash` on a non-empty component returns a
well-formed key and stores only well-formed keys. -/
theorem cch_spec {sg : SessionGenerator} {component : SMap Bool}
    (hcomp : ¬component.length = 0)
    (hinv : ∀ pr ∈ sg.hashCache, wellFormedKey pr.2 = true) :
    wellFormedKey (sg.computeComponentCanonicalHash component).1 = true ∧
    (∀ pr ∈ (sg.computeComponentCanonicalHash component).2,
      wellFormedKey pr.2 = true) := by
  unfold computeComponentCanonicalHash
  rw [if_neg hcomp]
  cases hf : sg.hashCache.find? ((SMap.keys component).headD "") with
  | some cached =>
    simp only [hf]
    exact ⟨hinv _ (SMap.find?_some_mem hf), fun pr hpr => hinv pr hpr⟩
  | none =>
    simp only [hf]
    constructor
    · exact wellFormedKey_sess_hex _
    · exact insertFold_vals _ _ _ hinv (wellFormedKey_sess_hex _)

theorem addFold_vals : ∀ (l : List String) (c : LRU) (v : String),
    (∀ pr ∈ c.entries, wellFormedKey pr.2 = true) → wellFormedKey v = true →
    ∀ pr ∈ (l.foldl (fun (c : LRU) nodeID => c.add nodeID v) c).entries,
      wellFormedKey pr.2 = true := by
  intro l
  induction l with
  | nil => exact fun c v h hv pr hpr => h pr hpr
  | cons n t ih =>
    intro c v h hv pr hpr
    refine ih _ v ?_ hv pr hpr
    intro q hq
    cases q with
    | mk x w =>
      rcases LRU.mem_entries_add hq with ⟨-, hw⟩ | hq
      · rw [hw]
        exact hv
      · exact h (x, w) hq

theorem eraseFold_vals : ∀ (l : List String) (hc : SMap String),
    (∀ pr ∈ hc, wellFormedKey pr.2 = true) →
    ∀ pr ∈ (l.foldl (fun (hc : SMap String) n => hc.erase n) hc),
      wellFormedKey pr.2 = true := by
  intro l
  induction l with
  | nil => exact fun hc h pr hpr => h pr hpr
  | cons n t ih =>
    intro hc h pr hpr
    refine ih _ ?_ pr hpr
    intro q hq
    exact h q (SMap.mem_of_mem_erase hq)

/-- The `GetAllSessions` fold stores only well-formed keys in the hash
cache. -/
theorem allSessFold_vals (s : SessionGenerator) : ∀ (ks : List String)
    (acc : SMap Bool × SMap (List String) × SMap String),
    (∀ pr ∈ acc.2.2, wellFormedKey pr.2 = true) →
    ∀ pr ∈ (ks.foldl (fun (acc : SMap Bool × SMap (List String) × SMap String)
        (nodeID : String) =>
      if (acc.1.find? nodeID).isSome then acc
      else
        let component := s.findConnectedComponentWithoutLock nodeID
        let visited := (SMap.keys component).foldl
          (fun (v : SMap Bool) id => v.insert id true) acc.1
        let ch := computeComponentCanonicalHash { s with hashCache := acc.2.2 } component
        (visited, (acc.2.1).insert ch.1 (sortStrings (SMap.keys component)), ch.2)) acc).2.2,
      wellFormedKey pr.2 = true := by
  intro ks
  induction ks with
  | nil => exact fun acc h pr hpr => h pr hpr
  | cons k t ih =>
    intro acc h pr hpr
    refine ih _ ?_ pr hpr
    simp only []
    by_cases hk : (acc.1.find? k).isSome
    · rw [if_pos hk]
      exact h
    · rw [if_neg hk]
      exact (cch_spec (component_ne_nil _ k) h).2

/-- The function `GetAllSessions` preserves the key invariant. -/
theorem getAllSessions_keyInv {s : SessionGenerator} (h : KeyInv s) :
    KeyInv s.getAllSessions.2 := by
  refine ⟨h.1, ?_⟩
  exact allSessFold_vals s (SMap.keys s.edges) (SMap.empty, SMap.empty, s.hashCache) h.2

set_option maxHeartbeats 1000000 in
/-- Every public operation preserves the key invariant. -/
theorem sheApply_keyInv : ∀ (op : SHEOp) {s : SessionGenerator},
    KeyInv s → KeyInv (op.apply s) := by
  intro op s h
  obtain ⟨hca, hhc⟩ := h
  cases op with
  | getKey ids =>
    show KeyInv (s.getSessionKey ids).2
    cases hn : normalizeIdentifiers ids with
    | nil =>
      rw [sheGetKey_anon hn]
      exact ⟨hca, hhc⟩
    | cons id0 rest =>
      cases hc : (s.cache.get id0).1 with
      | some k =>
        rw [sheGetKey_hit hn hc]
        refine ⟨?_, hhc⟩
        intro pr hpr
        cases pr with
        | mk x v => exact hca (x, v) (LRU.mem_entries_get hpr)
      | none =>
        rw [sheGetKey_miss hn hc]
        have hhc1 : ∀ pr ∈ ({ s with edges := addAllPairs s.edges (id0 :: rest), cache := (s.cache.get id0).2 } : SessionGenerator).hashCache, wellFormedKey pr.2 = true := hhc
        obtain ⟨hch1, hch2⟩ := cch_spec (component_ne_nil ({ s with edges := addAllPairs s.edges (id0 :: rest), cache := (s.cache.get id0).2 } : SessionGenerator) id0) hhc1
        refine ⟨?_, hch2⟩
        refine addFold_vals _ _ _ ?_ hch1
        intro pr hpr
        cases pr with
        | mk x v => exact hca (x, v) (LRU.mem_entries_get hpr)
  | link id1 id2 =>
    show KeyInv (s.linkIdentifiers id1 id2)
    by_cases he : id1 = "" ∨ id2 = ""
    · simp only [linkIdentifiers]
      rw [if_pos he]
      exact ⟨hca, hhc⟩
    · simp only [linkIdentifiers]
      rw [if_neg he]
      refine ⟨?_, ?_⟩
      · intro pr hpr
        cases pr with
        | mk x v =>
          exact hca (x, v) (LRU.mem_entries_remove (LRU.mem_entries_remove hpr))
      · exact eraseFold_vals _ _ hhc
  | areLinked id1 id2 => exact ⟨hca, hhc⟩
  | sessionSize id => exact ⟨hca, hhc⟩
  | allSessions => exact getAllSessions_keyInv ⟨hca, hhc⟩
  | stats => exact getAllSessions_keyInv ⟨hca, hhc⟩
  | clearCache =>
    exact ⟨fun pr hpr => absurd hpr (List.not_mem_nil pr),
           fun pr hpr => absurd hpr (List.not_mem_nil pr)⟩
  | clear =>
    exact ⟨fun pr hpr => absurd hpr (List.not_mem_nil pr),
           fun pr hpr => absurd hpr (List.not_mem_nil pr)⟩

/-- Any sequence of public calls from a fresh engine satisfies the key
invariant. -/
theorem execSHE_keyInv (cap : Nat) (ops : List SHEOp) : KeyInv (execSHE cap ops) := by
  suffices hgen : ∀ (l : List SHEOp) (s : SessionGenerator), KeyInv s →
      KeyInv (l.foldl (fun s op => op.apply s) s) by
    refine hgen ops (new cap) ?_
    exact ⟨fun pr hpr => absurd hpr (List.not_mem_nil pr),
           fun pr hpr => absurd hpr (List.not_mem_nil pr)⟩
  intro l
  induction l with
  | nil => exact fun s h => h
  | cons op t ih => exact fun s h => ih _ (sheApply_keyInv op h)

set_option maxHeartbeats 1000000 in
/-- Keys returned by `GetSessionKey` on non-trivial inputs are well-formed. -/
theorem sheGetKey_wf {sg : SessionGenerator} (hinv : KeyInv sg)
    {ids : Identifiers} {id0 : String} {rest : List String}
    (hn : normalizeIdentifiers ids = id0 :: rest) :
    wellFormedKey (sg.getSessionKey ids).1 = true := by
  cases hc : (sg.cache.get id0).1 with
  | some k =>
    rw [sheGetKey_hit hn hc]
    have hlk : sg.cache.entries.lookup id0 = some k := by
      rw [← LRU.get_fst]
      exact hc
    exact hinv.1 (id0, k) (LRU.mem_of_lookup_eq_some hlk)
  | none =>
    rw [sheGetKey_miss hn hc]
    have hhc1 : ∀ pr ∈ ({ sg with edges := addAllPairs sg.edges (id0 :: rest), cache := (sg.cache.get id0).2 } : SessionGenerator).hashCache, wellFormedKey pr.2 = true := hinv.2
    exact (cch_spec (component_ne_nil ({ sg with edges := addAllPairs sg.edges (id0 :: rest), cache := (sg.cache.get id0).2 } : SessionGenerator) id0) hhc1).1

end SessionGenerator

/-! ### Claim theorems (concrete scenarios) -/
/-- C4: after `link("uid:user_999","uid:user_001")` and
`link("uid:user_001","uid:user_500")` on a fresh canonical-root engine,
`get_session_key` on each of the three atoms returns the same key, and that
key is `"sess_"` followed by the lowercase hex of the first 8 bytes of
SHA-256 of `"uid:user_001"`, the lexicographically smallest atom of the
highest-priority (`uid`) tier. -/
theorem c4_s5_lexicographic_tie_break :
    c4get1.1 = "sess_" ++ bytesToHex ((sha256 (utf8 "uid:user_001")).take 8) ∧
    c4get2.1 = c4get1.1 ∧ c4get3.1 = c4get1.1 := by
  refine ⟨?_, ?_, ?_⟩ <;> decide

/-- C1 counterexample: on the structural-hash engine, after public
operations that leave a stale LRU entry for `cookie:x`,
`are_linked("cookie:x","jwt:z")` is true yet the singleton lookups of the
two atoms return different session keys — the claim fails for the
`SessionGenerator` engine. -/
theorem c1_counterexample_she_stale_cache :
    c1run.areLinked "cookie:x" "jwt:z" = true ∧ c1get1.1 ≠ c1get2.1 := by
  constructor
  · decide
  · decide

/-- C2 counterexample: on the structural-hash engine, a `get_session_key`
call whose two normalized atoms are `cookie:b` and `uid:a` hits the LRU on
`cookie:b` and returns before linking, so `are_linked("cookie:b","uid:a")`
is still false immediately afterwards — the claim fails for the
`SessionGenerator` engine. -/
theorem c2_counterexample_she_cache_hit_skips_link :
    normalizeIdentifiers [("cookie", "b"), ("uid", "a")] = ["cookie:b", "uid:a"] ∧
    c2call.2.areLinked "cookie:b" "uid:a" = false := by
  constructor
  · decide
  · decide

/-- C6 counterexample: the normalizer maps the non-ASCII value `"Ä"` to
`"ä"` (Go `strings.ToLower` applies Unicode simple case mapping), not to
the unchanged `"Ä"` the claim requires. -/
theorem c6_counterexample_unicode_lowercase :
    normalizeIdentifiers [("email", "Ä")] = ["email:ä"] ∧
    normalizeIdentifiers [("email", "Ä")] ≠ ["email:" ++ asciiLowerStr "Ä"] := by
  constructor
  · decide
  · decide

/-- C7 counterexample: `session_size` of the never-seen atom `uid:ghost`
returns 1 on both engines (the canonical-root engine inserts the atom as a
singleton before counting; the structural-hash engine returns a singleton
component), not 0 as claimed. -/
theorem c7_counterexample_unknown_atom_size_one :
    ((CanonicalSessionGenerator.new 100).getSessionSize "uid:ghost").1 = 1 ∧
    (SessionGenerator.new 100).getSessionSize "uid:ghost" = 1 ∧
    ((CanonicalSessionGenerator.new 100).getSessionSize "uid:ghost").1 ≠ 0 := by
  refine ⟨?_, ?_, ?_⟩ <;> decide

/-- C8: after the public call sequence of `c8run`, the reverse index chains
`sess_e1eb0dc888f43696 → sess_db71c9c25488c0d6 → sess_e55c20f7ee0bf8a7`:
the key `old_to_new` maps `sess_e1eb...` to is itself in the domain of
`old_to_new`, so the depth-1 invariant the code's own comments promise
(`oldToNew: old key → current key`) is violated. -/
theorem c8_code_bug_old_to_new_chain_depth_two :
    c8run.oldToNew.find? "sess_e1eb0dc888f43696" = some "sess_db71c9c25488c0d6" ∧
    c8run.oldToNew.find? "sess_db71c9c25488c0d6" = some "sess_e55c20f7ee0bf8a7" := by
  constructor
  · decide
  · decide

/-- C9: `link` applies no normalization: linking the raw atom
`email:A@B.com` to `uid:u` on either fresh engine links that atom
byte-for-byte, while the atom `email:a@b.com` that normalization of
`{email: "A@B.com"}` produces stays unlinked. -/
theorem c9_link_no_normalization :
    normalizeIdentifiers [("email", "A@B.com")] = ["email:a@b.com"] ∧
    (c9cre.areLinked "email:A@B.com" "uid:u").1 = true ∧
    (c9cre.areLinked "email:a@b.com" "uid:u").1 = false ∧
    c9she.areLinked "email:A@B.com" "uid:u" = true ∧
    c9she.areLinked "email:a@b.com" "uid:u" = false := by
  refine ⟨?_, ?_, ?_, ?_, ?_⟩ <;> decide

/-! ### Claim theorems (general statements) -/
/-- C1 (amended, canonical-root engine): after any sequence of public
operations, whenever `are_linked(a, b)` returns `true`, `get_session_key`
on a singleton input normalizing to `a` and then on a singleton input
normalizing to `b` return the same session key. -/
theorem c1_amended_cre_same_component_same_key
    (cap : Nat) (ops : List CREOp) (a b : String) (ids1 ids2 : Identifiers)
    (hna : normalizeIdentifiers ids1 = [a]) (hnb : normalizeIdentifiers ids2 = [b])
    (hlinked : ((execCRE cap ops).areLinked a b).1 = true) :
    ((((execCRE cap ops).areLinked a b).2.getSessionKey ids1)).1 =
      (((((execCRE cap ops).areLinked a b).2.getSessionKey ids1)).2.getSessionKey ids2).1 := by
  have hwf : UnionFind.WF (execCRE cap ops).uf := CanonicalSessionGenerator.execCRE_wf cap ops
  obtain ⟨al1, al2, al3, al4, -⟩ := CanonicalSessionGenerator.areLinked_spec hwf a b
  obtain ⟨ha, hb, hr⟩ := al1.mp hlinked
  have hne : ¬(a = "" ∨ b = "") := by
    rintro (hh | hh)
    · exact ha hh
    · exact hb hh
  obtain ⟨g1w, g1k, g1r, ms1, g1v, g1p, g1m⟩ :=
    CanonicalSessionGenerator.getKey_single_spec al2 hna
  obtain ⟨g2w, g2k, g2r, ms2, g2v, g2p, g2m⟩ :=
    CanonicalSessionGenerator.getKey_single_spec g1w hnb
  have hms : ms1 = ms2 := by
    apply pairwise_lt_ext g1p g2p
    intro z
    rw [g1m z, g2m z]
    constructor
    · rintro ⟨hm, hrz⟩
      rw [al3 z, al3 a] at hrz
      refine ⟨?_, ?_⟩
      · rcases hm with rfl | hm
        · exact Or.inr ((g1k z).mpr (Or.inl rfl))
        · exact Or.inr ((g1k z).mpr (Or.inr hm))
      · rw [g1r z, g1r b, al3 z, al3 b]
        exact hrz.trans hr
    · rintro ⟨hm, hrz⟩
      rw [g1r z, g1r b, al3 z, al3 b] at hrz
      refine ⟨?_, ?_⟩
      · rcases hm with rfl | hm
        · exact Or.inr ((al4 hne z).mpr (Or.inr (Or.inl rfl)))
        · rcases (g1k z).mp hm with hz | hz
          · exact Or.inl hz
          · exact Or.inr hz
      · rw [al3 z, al3 a]
        exact hrz.trans hr.symm
  rw [g1v, g2v, hms]

/-- Concrete instance of the amended C1 statement. -/
theorem c1_amended_witness :
    (((execCRE 4 [CREOp.link "uid:u" "cookie:c"]).areLinked "uid:u"
        "cookie:c").2.getSessionKey [("uid", "u")]).1 =
      ((((execCRE 4 [CREOp.link "uid:u" "cookie:c"]).areLinked "uid:u"
        "cookie:c").2.getSessionKey [("uid", "u")]).2.getSessionKey
          [("cookie", "c")]).1 :=
  c1_amended_cre_same_component_same_key 4 [CREOp.link "uid:u" "cookie:c"]
    "uid:u" "cookie:c" [("uid", "u")] [("cookie", "c")]
    (by decide) (by decide) (by decide)

/-- C2 (amended): the canonical-root engine links all normalized atoms of a
lookup pairwise regardless of prior cache state; the structural-hash engine
does so whenever the LRU lookup on the first (sorted-first) normalized atom
misses. -/
theorem c2_amended_get_links_all_pairs
    (cap : Nat) (creOps : List CREOp) (sheOps : List SHEOp) (ids : Identifiers)
    (id0 : String) (rest : List String)
    (hn : normalizeIdentifiers ids = id0 :: rest)
    (hmiss : ((execSHE cap sheOps).cache.get id0).1 = none) :
    (∀ u ∈ id0 :: rest, ∀ v ∈ id0 :: rest,
      ((((execCRE cap creOps).getSessionKey ids).2).areLinked u v).1 = true) ∧
    (∀ u ∈ id0 :: rest, ∀ v ∈ id0 :: rest,
      (((execSHE cap sheOps).getSessionKey ids).2).areLinked u v = true) := by
  constructor
  · intro u hu v hv
    have hwf := CanonicalSessionGenerator.execCRE_wf cap creOps
    obtain ⟨kwf, kk, ⟨R, hR, hform⟩, -⟩ := CanonicalSessionGenerator.getKey_spec hwf hn
    obtain ⟨al1, -, -, -, -⟩ := CanonicalSessionGenerator.areLinked_spec kwf u v
    have hu' : u ≠ "" := @normalize_mem_ne_empty ids u (by rw [hn]; exact hu)
    have hv' : v ≠ "" := @normalize_mem_ne_empty ids v (by rw [hn]; exact hv)
    refine al1.mpr ⟨hu', hv', ?_⟩
    rw [hform u, hform v, if_pos ⟨u, hu, rfl⟩, if_pos ⟨v, hv, rfl⟩]
  · exact SessionGenerator.sheGetKey_links (SessionGenerator.execSHE_edgesWF cap sheOps) hn hmiss

/-- Concrete instance of the amended C2 statement. -/
theorem c2_amended_witness :
    ((((execCRE 4 []).getSessionKey [("uid", "a"), ("cookie", "b")]).2).areLinked
        "uid:a" "cookie:b").1 = true ∧
    (((execSHE 4 []).getSessionKey [("uid", "a"), ("cookie", "b")]).2).areLinked
        "uid:a" "cookie:b" = true := by
  have h := c2_amended_get_links_all_pairs 4 [] [] [("uid", "a"), ("cookie", "b")]
    "cookie:b" ["uid:a"] (by decide) (by decide)
  exact ⟨h.1 "uid:a" (by decide) "cookie:b" (by decide),
         h.2 "uid:a" (by decide) "cookie:b" (by decide)⟩

/-- C3: for permuted link scripts applied to fresh engines, every
subsequent `get_session_key` lookup (in particular on any atom of the
edges) returns the same key under both orders, on both engines. -/
theorem c3_link_order_independence
    (cap : Nat) (L1 L2 : List (String × String)) (hperm : L1.Perm L2)
    (ids : Identifiers) :
    ((execCRE cap (L1.map (fun p => CREOp.link p.1 p.2))).getSessionKey ids).1 =
      ((execCRE cap (L2.map (fun p => CREOp.link p.1 p.2))).getSessionKey ids).1 ∧
    ((execSHE cap (L1.map (fun p => SHEOp.link p.1 p.2))).getSessionKey ids).1 =
      ((execSHE cap (L2.map (fun p => SHEOp.link p.1 p.2))).getSessionKey ids).1 := by
  constructor
  · rw [CanonicalSessionGenerator.execCRE_link_eq, CanonicalSessionGenerator.execCRE_link_eq]
    have hwf0 : UnionFind.WF (CanonicalSessionGenerator.new cap).uf := UnionFind.wf_new
    apply CanonicalSessionGenerator.getKey_congr
      (CanonicalSessionGenerator.linkFold_wf L1 _ hwf0)
      (CanonicalSessionGenerator.linkFold_wf L2 _ hwf0)
    · intro z
      rw [CanonicalSessionGenerator.linkFold_keys L1 _ hwf0 z,
          CanonicalSessionGenerator.linkFold_keys L2 _ hwf0 z]
      constructor
      · rintro (⟨p, hp, h1, h2, h3⟩ | hz)
        · exact Or.inl ⟨p, hperm.mem_iff.mp hp, h1, h2, h3⟩
        · exact Or.inr hz
      · rintro (⟨p, hp, h1, h2, h3⟩ | hz)
        · exact Or.inl ⟨p, hperm.mem_iff.mpr hp, h1, h2, h3⟩
        · exact Or.inr hz
    · intro z w
      rw [CanonicalSessionGenerator.linkFold_classes L1 _ hwf0 z w,
          CanonicalSessionGenerator.linkFold_classes L2 _ hwf0 z w]
      exact eqvCl_congr (CanonicalSessionGenerator.linkRel_perm hperm) z w
  · rw [SessionGenerator.execSHE_link_perm cap hperm]

/-- Concrete instance of the C3 statement: a two-edge script and its
transposition. -/
theorem c3_witness :
    ((execCRE 4 ([("uid:u", "cookie:c"), ("jwt:j", "uid:u")].map
        (fun p => CREOp.link p.1 p.2))).getSessionKey [("uid", "u")]).1 =
      ((execCRE 4 ([("jwt:j", "uid:u"), ("uid:u", "cookie:c")].map
        (fun p => CREOp.link p.1 p.2))).getSessionKey [("uid", "u")]).1 ∧
    ((execSHE 4 ([("uid:u", "cookie:c"), ("jwt:j", "uid:u")].map
        (fun p => SHEOp.link p.1 p.2))).getSessionKey [("uid", "u")]).1 =
      ((execSHE 4 ([("jwt:j", "uid:u"), ("uid:u", "cookie:c")].map
        (fun p => SHEOp.link p.1 p.2))).getSessionKey [("uid", "u")]).1 :=
  c3_link_order_independence 4 [("uid:u", "cookie:c"), ("jwt:j", "uid:u")]
    [("jwt:j", "uid:u"), ("uid:u", "cookie:c")]
    (List.Perm.swap ("jwt:j", "uid:u") ("uid:u", "cookie:c") []) [("uid", "u")]

/-- C5: every key returned for an input with at least one non-empty
normalized atom is `"sess_"` followed by exactly 16 lowercase hex digits,
on both engines after any public call sequence; `sess_anonymous` is
returned exactly when the input has no non-empty identifier values. -/
theorem c5_session_key_format (cap : Nat) (creOps : List CREOp) (sheOps : List SHEOp)
    (ids : Identifiers) :
    (∀ id0 rest, normalizeIdentifiers ids = id0 :: rest →
      wellFormedKey ((execCRE cap creOps).getSessionKey ids).1 = true ∧
      wellFormedKey ((execSHE cap sheOps).getSessionKey ids).1 = true ∧
      ((execCRE cap creOps).getSessionKey ids).1 ≠ "sess_anonymous" ∧
      ((execSHE cap sheOps).getSessionKey ids).1 ≠ "sess_anonymous") ∧
    (normalizeIdentifiers ids = [] →
      ((execCRE cap creOps).getSessionKey ids).1 = "sess_anonymous" ∧
      ((execSHE cap sheOps).getSessionKey ids).1 = "sess_anonymous") ∧
    (normalizeIdentifiers ids = [] ↔ ∀ tv ∈ ids, tv.2 = "") := by
  refine ⟨?_, ?_, normalize_eq_nil_iff⟩
  · intro id0 rest hn
    have hcre : wellFormedKey ((execCRE cap creOps).getSessionKey ids).1 = true := by
      rw [@CanonicalSessionGenerator.getKey_cons_fst (execCRE cap creOps) ids id0 rest hn]
      exact wfKey_generate _
    have hshe : wellFormedKey ((execSHE cap sheOps).getSessionKey ids).1 = true :=
      SessionGenerator.sheGetKey_wf (SessionGenerator.execSHE_keyInv cap sheOps) hn
    refine ⟨hcre, hshe, ?_, ?_⟩
    · intro hh
      rw [hh, wfKey_anon_false] at hcre
      exact Bool.noConfusion hcre
    · intro hh
      rw [hh, wfKey_anon_false] at hshe
      exact Bool.noConfusion hshe
  · intro hn
    constructor
    · rw [CanonicalSessionGenerator.getKey_eq_anon hn]
    · rw [SessionGenerator.sheGetKey_anon hn]
      rfl

/-- Concrete instance of the C5 statement. -/
theorem c5_witness :
    wellFormedKey ((execCRE 4 []).getSessionKey [("uid", "u")]).1 = true ∧
    wellFormedKey ((execSHE 4 []).getSessionKey [("uid", "u")]).1 = true := by
  have h := (c5_session_key_format 4 [] [] [("uid", "u")]).1 "uid:u" [] (by decide)
  exact ⟨h.1, h.2.1⟩

/-- C6 (amended): the normalizer lowercases email values with Go
`strings.ToLower`, which agrees with ASCII case-folding on ASCII input but
also lowercases non-ASCII letters (for instance Ä). -/
theorem c6_amended_email_lowercasing :
    (∀ (ids : Identifiers) (t v : String), (t, v) ∈ ids → v ≠ "" →
      t = IdentifierEmail → (t ++ ":" ++ goToLower v) ∈ normalizeIdentifiers ids) ∧
    (∀ c : Char, c.toNat < 128 → goLowerChar c = asciiLowerChar c) ∧
    goLowerChar 'Ä' = 'ä' := by
  refine ⟨?_, ?_, by decide⟩
  · intro ids t v hmem hv ht
    refine normalize_mem_iff.mpr ⟨(t, v), hmem, hv, ?_⟩
    show (t ++ ":" ++ goToLower v) = emitAtom t v
    unfold emitAtom
    rw [ht]
    have hcond : ((IdentifierEmail == IdentifierEmail ||
        IdentifierEmail == "email") = true) := by decide
    rw [if_pos hcond]
  · intro c h
    unfold goLowerChar asciiLowerChar
    by_cases h1 : 'A' ≤ c ∧ c ≤ 'Z'
    · rw [if_pos h1, if_pos h1]
    · rw [if_neg h1, if_neg h1, if_neg ?hc0]
      case hc0 =>
        rintro ⟨h2, -⟩
        omega

/-- Concrete instance of the amended C6 statement. -/
theorem c6_amended_witness :
    ("email" ++ ":" ++ goToLower "A@B.com") ∈
      normalizeIdentifiers [("email", "A@B.com")] ∧
    goLowerChar 'Z' = asciiLowerChar 'Z' := by
  have h := c6_amended_email_lowercasing
  exact ⟨h.1 [("email", "A@B.com")] "email" "A@B.com" (by decide) (by decide) rfl,
         h.2.1 'Z' (by decide)⟩

/-- C7 (amended): `session_size` of a non-empty atom never seen before
returns 1 on both engines (the canonical engine's `Find` inserts it as a
singleton and counts it; the structural-hash engine returns the singleton
component); `session_size` of the empty string returns 0. -/
theorem c7_amended_session_size_unknown
    (cap : Nat) (creOps : List CREOp) (sheOps : List SHEOp) (id : String)
    (hid : ¬(id = ""))
    (hcre : id ∉ SMap.keys (execCRE cap creOps).uf.parent)
    (hshe : (execSHE cap sheOps).edges.find? id = none) :
    ((execCRE cap creOps).getSessionSize id).1 = 1 ∧
    (execSHE cap sheOps).getSessionSize id = 1 ∧
    ((execCRE cap creOps).getSessionSize "").1 = 0 ∧
    (execSHE cap sheOps).getSessionSize "" = 0 := by
  have hwf := CanonicalSessionGenerator.execCRE_wf cap creOps
  refine ⟨?_, ?_, ?_, ?_⟩
  · rw [(CanonicalSessionGenerator.sessionSize_fst hwf hid).1]
    obtain ⟨f1, f2, f3, f4, f5, f6⟩ := UnionFind.find_spec hwf id
    have hnone : (execCRE cap creOps).uf.parent.find? id = none := by
      rw [← Option.not_isSome_iff_eq_none]
      intro hh
      exact hcre (SMap.mem_keys_iff_find?.mpr hh)
    have hrootid : UnionFind.root (execCRE cap creOps).uf.parent id = id :=
      UnionFind.root_of_find?_none hnone
    apply CanonicalSessionGenerator.length_filter_eq_one
    · exact SMap.keys_sorted_of_sorted f2.1
    · exact (f5 id).mpr (Or.inl rfl)
    · intro k hk
      constructor
      · intro hpk
        have hkr := of_decide_eq_true hpk
        rw [hrootid] at hkr
        rcases (f5 k).mp hk with hkid | hkmem
        · exact hkid
        · exfalso
          have hmem := UnionFind.root_mem_keys hwf hkmem
          rw [hkr] at hmem
          exact hcre hmem
      · intro hkid
        apply decide_eq_true
        rw [hkid]
  · unfold SessionGenerator.getSessionSize
    rw [if_neg hid]
    unfold SessionGenerator.findConnectedComponentWithoutLock
    have hcond : ¬(((execSHE cap sheOps).edges.find? id).isSome = true) := by
      rw [hshe]
      simp
    rw [if_neg hcond]
    rfl
  · unfold CanonicalSessionGenerator.getSessionSize
    rw [if_pos rfl]
  · unfold SessionGenerator.getSessionSize
    rw [if_pos rfl]

/-- Concrete instance of the amended C7 statement. -/
theorem c7_amended_witness :
    ((execCRE 4 []).getSessionSize "uid:ghost").1 = 1 ∧
    (execSHE 4 []).getSessionSize "uid:ghost" = 1 := by
  have h := c7_amended_session_size_unknown 4 [] [] "uid:ghost"
    (by decide) (by decide) (by decide)
  exact ⟨h.1, h.2.1⟩

/-- C10: `are_linked` with two non-empty atoms is not read-only on the
canonical-root engine: the cache and all root classes are unchanged, but
previously unknown arguments are inserted as singleton roots, and
`stats().total_atoms` grows by the number of previously unknown atoms among
the arguments. -/
theorem c10_arelinked_frame_effect
    (cap : Nat) (ops : List CREOp) (a b : String)
    (ha : ¬(a = "")) (hb : ¬(b = "")) :
    ((execCRE cap ops).areLinked a b).2.cache = (execCRE cap ops).cache ∧
    (∀ z, UnionFind.root ((execCRE cap ops).areLinked a b).2.uf.parent z =
      UnionFind.root (execCRE cap ops).uf.parent z) ∧
    (∀ z, z ∈ SMap.keys ((execCRE cap ops).areLinked a b).2.uf.parent ↔
      (z = a ∨ z = b ∨ z ∈ SMap.keys (execCRE cap ops).uf.parent)) ∧
    (((execCRE cap ops).areLinked a b).2.getStats.1.totalIdentifiers =
      (execCRE cap ops).getStats.1.totalIdentifiers +
        ((if a ∈ SMap.keys (execCRE cap ops).uf.parent then 0 else 1) +
         (if b = a ∨ b ∈ SMap.keys (execCRE cap ops).uf.parent then 0 else 1))) := by
  have hwf := CanonicalSessionGenerator.execCRE_wf cap ops
  have hne : ¬(a = "" ∨ b = "") := by
    rintro (hh | hh)
    · exact ha hh
    · exact hb hh
  obtain ⟨al1, al2, al3, al4, al5⟩ := CanonicalSessionGenerator.areLinked_spec hwf a b
  obtain ⟨c1, c2, c3, c4, c5, c6⟩ := UnionFind.connected_spec hwf a b
  obtain ⟨f1, f2, f3, f4, f5, f6⟩ := UnionFind.find_spec hwf a
  refine ⟨al5, al3, al4 hne, ?_⟩
  have hufeq : ((execCRE cap ops).areLinked a b).2.uf =
      ((execCRE cap ops).uf.connected a b).2 := by
    simp only [CanonicalSessionGenerator.areLinked]
    rw [if_neg hne]
  have hA : ((execCRE cap ops).uf.parent.find? a).isSome ↔
      a ∈ SMap.keys (execCRE cap ops).uf.parent := SMap.mem_keys_iff_find?.symm
  have hB : (((execCRE cap ops).uf.find a).2.parent.find? b).isSome ↔
      (b = a ∨ b ∈ SMap.keys (execCRE cap ops).uf.parent) := by
    rw [← SMap.mem_keys_iff_find?]
    exact f5 b
  rw [CanonicalSessionGenerator.getStats_totalIdentifiers al2,
    CanonicalSessionGenerator.getStats_totalIdentifiers hwf, hufeq, c6]
  by_cases hAk : a ∈ SMap.keys (execCRE cap ops).uf.parent
  · rw [if_pos (hA.mpr hAk), if_pos hAk]
    by_cases hBk : b = a ∨ b ∈ SMap.keys (execCRE cap ops).uf.parent
    · rw [if_pos (hB.mpr hBk), if_pos hBk]
    · rw [if_neg (fun hh => hBk (hB.mp hh)), if_neg hBk]
  · rw [if_neg (fun hh => hAk (hA.mp hh)), if_neg hAk]
    by_cases hBk : b = a ∨ b ∈ SMap.keys (execCRE cap ops).uf.parent
    · rw [if_pos (hB.mpr hBk), if_pos hBk]
    · rw [if_neg (fun hh => hBk (hB.mp hh)), if_neg hBk]

/-- Concrete instance of the C10 statement. -/
theorem c10_witness :
    ((execCRE 4 []).areLinked "uid:x" "uid:y").2.cache = (execCRE 4 []).cache ∧
    ((execCRE 4 []).areLinked "uid:x" "uid:y").2.getStats.1.totalIdentifiers =
      (execCRE 4 []).getStats.1.totalIdentifiers +
        ((if "uid:x" ∈ SMap.keys (execCRE 4 []).uf.parent then 0 else 1) +
         (if "uid:y" = "uid:x" ∨ "uid:y" ∈ SMap.keys (execCRE 4 []).uf.parent
          then 0 else 1)) := by
  have h := c10_arelinked_frame_effect 4 [] "uid:x" "uid:y" (by decide) (by decide)
  exact ⟨h.1, h.2.2.2⟩
